import Mathlib

/-!
The device-node pseudo-filesystem of NewOS, devfs (kernel/fs/devfs.c).

A shallow embedding of `src/kernel/fs/devfs.c`.

* Kernel memory is a typed heap: one arena per C struct.  A pointer is a natural number,
  `0` is `NULL`, and address `p + 1` names cell `p` of the arena.  `kmalloc` hands out the next
  unused address (addresses are never reused), `kfree` empties the cell.
* Every operation returns `Option`: `none` stands for an execution that has no defined result
  (dereference of `NULL` or of freed memory, an out-of-bounds table access, a kernel `panic`, or a
  list traversal that never ends).
* C strings are lists of characters (the bytes before the terminating NUL).
* The instance mutex is not represented: the embedding is sequential, `mutex_lock` and
  `mutex_unlock` do not change the state.
-/

namespace NewOS

/-! ## Return codes and scalar helpers -/

/-- Value returned by an `int` or `ssize_t` function: a plain number, or one of the negative error
macros of `sys/errors.h` (their numeric values are not part of the sources, they are kept
symbolic). -/
inductive retcode where
  | num (n : Int)
  | ERR_GENERAL
  | ERR_NO_MEMORY
  | ERR_NOT_ALLOWED
  | ERR_INVALID_ARGS
  | ERR_NOT_FOUND
  | ERR_IO_ERROR
  | ERR_VFS_ALREADY_EXISTS
  | ERR_VFS_NOT_DIR
  | ERR_VFS_WRONG_STREAM_TYPE
  | ERR_VFS_INSUFFICIENT_BUF
  | ERR_VFS_READONLY_FS
  deriving DecidableEq, Repr

/-- The test `err < 0` on a return value: every error macro is negative. -/
def retcode.is_negative : retcode → Bool
  | retcode.num n => decide (n < 0)
  | _ => true

/-- The enum `stream_type` (declared in `kernel/vfs.h`, which is not part of the sources): the
three enumerators that `devfs.c` names.  `STREAM_TYPE_ANY` is taken to be the zero value, the one
a vnode has between `memset` and the assignment of its type. -/
inductive stream_type where
  | STREAM_TYPE_ANY
  | STREAM_TYPE_DIR
  | STREAM_TYPE_DEVICE
  deriving DecidableEq, Repr

open stream_type

/-- Two's complement wrap-around of a C `int` (32 bits). -/
def int32_wrap (x : Int) : Int := (x + 2147483648) % 4294967296 - 2147483648

/-- Conversion of an integer to `unsigned int` (32 bits). -/
def to_uint32 (x : Int) : Nat := (x % 4294967296).toNat

/-- The macro `BOOTFS_HASH_SIZE`. -/
def BOOTFS_HASH_SIZE : Nat := 16

/-! ## Data model -/

/-- The struct `devfs_stream`.  The C union is flattened: `dir_head`, `jar_head` are the members of
`u.dir`, `full_name`, `calls` those of `u.dev`; the code only reads the member selected by
`type`. -/
structure devfs_stream where
  type : stream_type
  dir_head : Nat
  jar_head : Nat
  full_name : Option (List Char)
  calls : Nat
  deriving DecidableEq, Repr

/-- The struct `devfs_vnode`.  The name buffer is stored in place. -/
structure devfs_vnode where
  all_next : Nat
  id : Int
  name : List Char
  redir_vnode : Nat
  parent : Nat
  dir_next : Nat
  stream : devfs_stream
  deriving DecidableEq, Repr

/-- The struct `devfs_cookie`.  `s` is the vnode whose stream the cookie is opened on
(`cookie->s = &v->stream`); `next`, `prev`, `ptr` are the members of `u.dir`, `dcookie` that of
`u.dev`. -/
structure devfs_cookie where
  s : Nat
  oflags : Int
  next : Nat
  prev : Nat
  ptr : Nat
  dcookie : Nat
  deriving DecidableEq, Repr

/-- Modelled from the spec: the hash index of `kernel/khash.h`, which is not part of the sources
("id-keyed hash table, bucket = id mod table size, chained on collision, equality by id").
`table` holds one chain of vnode addresses per bucket, most recently inserted first. -/
structure hash_table where
  table : List (List Nat)
  deriving DecidableEq, Repr

/-- The struct `devfs` (without its mutex).  The hash table it points to is stored in place. -/
structure devfs where
  id : Nat
  next_vnode_id : Int
  vnode_list_hash : hash_table
  root_vnode : Nat
  deriving DecidableEq, Repr

/-- Kernel state seen by devfs: the three arenas, the global `thedevfs`, and the allocator.
`heap_avail = some n` means that exactly `n` more allocations succeed before `kmalloc` returns
`NULL`; `heap_avail = none` means that allocations always succeed. -/
structure Kernel where
  heap_avail : Option Nat
  vnodes : List (Option devfs_vnode)
  cookies : List (Option devfs_cookie)
  fss : List (Option devfs)
  thedevfs : Nat
  deriving DecidableEq, Repr

/-- State of the kernel before devfs is mounted: `thedevfs = NULL`, nothing allocated. -/
def boot (avail : Option Nat) : Kernel :=
  { heap_avail := avail, vnodes := [], cookies := [], fss := [], thedevfs := 0 }

/-! ## Heap access -/

/-- Read through a pointer; `none` for `NULL`, an unallocated or a freed cell. -/
def deref {α : Type} (h : List (Option α)) : Nat → Option α
  | 0 => none
  | p + 1 =>
    match h[p]? with
    | some x => x
    | none => none

/-- Overwrite the cell a pointer names. -/
def store {α : Type} (h : List (Option α)) : Nat → Option α → List (Option α)
  | 0, _ => h
  | p + 1, x => h.set p x

/-- Modelled from the spec: `kmalloc` of the kernel heap (`kernel/heap.h`, not part of the
sources), which may fail ("fails with OutOfMemory if allocation fails").  One call, or one
acquisition of another kernel resource: `none` when it fails. -/
def kmalloc (w : Kernel) : Option Kernel :=
  match w.heap_avail with
  | none => some w
  | some 0 => none
  | some (n + 1) => some { w with heap_avail := some n }

/-- Modelled from the spec: `kfree` of the kernel heap (`kernel/heap.h`, not part of the
sources).  One call, or one release of another kernel resource. -/
def kfree (w : Kernel) : Kernel :=
  { w with heap_avail := w.heap_avail.map (· + 1) }

/-- Assignment to fields of the vnode at `p` (a read-modify-write through the pointer). -/
def vnode_update (w : Kernel) (p : Nat) (f : devfs_vnode → devfs_vnode) : Option Kernel :=
  match deref w.vnodes p with
  | none => none
  | some n => some { w with vnodes := store w.vnodes p (some (f n)) }

/-- Assignment to fields of the cookie at `p`. -/
def cookie_update (w : Kernel) (p : Nat) (f : devfs_cookie → devfs_cookie) : Option Kernel :=
  match deref w.cookies p with
  | none => none
  | some c => some { w with cookies := store w.cookies p (some (f c)) }

/-- Assignment to fields of the devfs instance at `p`. -/
def fs_update (w : Kernel) (p : Nat) (f : devfs → devfs) : Option Kernel :=
  match deref w.fss p with
  | none => none
  | some d => some { w with fss := store w.fss p (some (f d)) }

/-! ## The hash index -/

/-- The function `devfs_vnode_hash_func`: `v->id % range` when an element is given, else
`*key % range`, converted to `unsigned int`.  `%` is the C remainder (truncating). -/
def devfs_vnode_hash_func (v : Option devfs_vnode) (key : Int) (range : Nat) : Nat :=
  match v with
  | some n => to_uint32 (Int.tmod n.id range)
  | none => to_uint32 (Int.tmod key range)

/-- The function `devfs_vnode_compare_func`: `0` when the ids are equal, `-1` otherwise. -/
def devfs_vnode_compare_func (v : devfs_vnode) (key : Int) : Int :=
  if v.id = key then 0 else -1

/-- Modelled from the spec: `hash_init` of the missing `kernel/khash.h`, a table of `size` empty
buckets. -/
def hash_init (size : Nat) : hash_table := { table := List.replicate size [] }

/-- Modelled from the spec: `hash_insert` of the missing `kernel/khash.h`, which puts the element
at the head of the chain of bucket `hash_func(e, NULL, table_size)`.  `none` when that bucket
lies outside the table. -/
def hash_insert (t : hash_table) (e : Nat) (n : devfs_vnode) : Option hash_table :=
  let b := devfs_vnode_hash_func (some n) 0 t.table.length
  match t.table[b]? with
  | none => none
  | some chain => some { table := t.table.set b (e :: chain) }

/-- Modelled from the spec: `hash_remove` of the missing `kernel/khash.h`, which unlinks the element
(compared by address) from the chain of its bucket, and does nothing when it is not there. -/
def hash_remove (t : hash_table) (e : Nat) (n : devfs_vnode) : Option hash_table :=
  let b := devfs_vnode_hash_func (some n) 0 t.table.length
  match t.table[b]? with
  | none => none
  | some chain => some { table := t.table.set b (chain.erase e) }

/-- Modelled from the spec: the walk of one chain by `hash_lookup` of the missing
`kernel/khash.h`, which yields the first element for which the compare function is 0. -/
def hash_chain_lookup (h : List (Option devfs_vnode)) (key : Int) : List Nat → Option Nat
  | [] => some 0
  | e :: rest =>
    match deref h e with
    | none => none
    | some n =>
      if devfs_vnode_compare_func n key = 0 then some e else hash_chain_lookup h key rest

/-- Modelled from the spec: `hash_lookup` of the missing `kernel/khash.h`, the only read path of
the index: the first element of bucket `hash_func(NULL, key, table_size)` whose id equals the key,
`NULL` when there is none. -/
def hash_lookup (h : List (Option devfs_vnode)) (t : hash_table) (key : Int) : Option Nat :=
  let b := devfs_vnode_hash_func none key t.table.length
  match t.table[b]? with
  | none => none
  | some chain => hash_chain_lookup h key chain

/-- Modelled from the spec: the elements that `hash_open` / `hash_next` of the missing
`kernel/khash.h` enumerate ("iterates every node currently in the hash index"), bucket by
bucket. -/
def hash_elements (t : hash_table) : List Nat := t.table.flatten

/-! ## Vnode store -/

/-- The function `devfs_create_vnode`.  Returns the new state and the address of the vnode, `0`
(`NULL`) when one of its two allocations fails. -/
def devfs_create_vnode (w : Kernel) (fs : Nat) (name : List Char) : Option (Kernel × Nat) :=
  match kmalloc w with
  | none => some (w, 0)
  | some w1 =>
    -- v = kmalloc(...); memset(v, 0, ...)
    let v := w1.vnodes.length + 1
    let zeroed : devfs_vnode :=
      { all_next := 0, id := 0, name := [], redir_vnode := 0, parent := 0, dir_next := 0,
        stream := { type := STREAM_TYPE_ANY, dir_head := 0, jar_head := 0,
                    full_name := none, calls := 0 } }
    let w2 := { w1 with vnodes := w1.vnodes ++ [some zeroed] }
    -- v->id = fs->next_vnode_id++
    match deref w2.fss fs with
    | none => none
    | some f =>
      let w3 := { w2 with
        vnodes := store w2.vnodes v (some { zeroed with id := f.next_vnode_id })
        fss := store w2.fss fs (some { f with next_vnode_id := int32_wrap (f.next_vnode_id + 1) }) }
      -- v->name = kmalloc(strlen(name) + 1)
      match kmalloc w3 with
      | none => some (kfree { w3 with vnodes := store w3.vnodes v none }, 0)
      | some w4 => vnode_update w4 v (fun n => { n with name := name }) |>.map (fun w5 => (w5, v))

/-- The function `devfs_delete_vnode`. -/
def devfs_delete_vnode (w : Kernel) (fs v : Nat) (force_delete : Bool) :
    Option (Kernel × retcode) :=
  match deref w.vnodes v with
  | none => none
  | some n =>
    if !force_delete &&
        ((n.stream.type = STREAM_TYPE_DIR && n.stream.dir_head ≠ 0) || n.dir_next ≠ 0) then
      some (w, retcode.ERR_NOT_ALLOWED)
    else
      -- hash_remove(fs->vnode_list_hash, v)
      match deref w.fss fs with
      | none => none
      | some f =>
        match hash_remove f.vnode_list_hash v n with
        | none => none
        | some t =>
          let w1 := { w with fss := store w.fss fs (some { f with vnode_list_hash := t }) }
          -- kfree(full_name) for a device that has one
          let w2 := if n.stream.type = STREAM_TYPE_DEVICE ∧ n.stream.full_name ≠ none
                    then kfree w1 else w1
          -- kfree(v->name); kfree(v)
          let w3 := kfree (kfree w2)
          some ({ w3 with vnodes := store w3.vnodes v none }, retcode.num 0)

/-! ## Directory tree -/

/-- The scan of `devfs_find_in_dir` over a child list, starting at `v`.  The first argument bounds
the number of iterations; `devfs_find_in_dir` passes one more than the number of vnode cells, which
a scan that ever ends cannot exceed (it would have visited some cell twice). -/
def find_in_dir_loop (h : List (Option devfs_vnode)) (path : List Char) : Nat → Nat → Option Nat
  | 0, _ => none
  | steps + 1, v =>
    if v = 0 then some 0
    else
      match deref h v with
      | none => none
      | some n => if n.name = path then some v else find_in_dir_loop h path steps n.dir_next

/-- The function `devfs_find_in_dir`; the result `some 0` is the C result `NULL`. -/
def devfs_find_in_dir (w : Kernel) (dir : Nat) (path : List Char) : Option Nat :=
  match deref w.vnodes dir with
  | none => none
  | some d =>
    if d.stream.type ≠ STREAM_TYPE_DIR then some 0
    else if path = ['.'] then some dir
    else if path = ['.', '.'] then some d.parent
    else find_in_dir_loop w.vnodes path (w.vnodes.length + 1) d.stream.dir_head

/-- The function `devfs_insert_in_dir`. -/
def devfs_insert_in_dir (w : Kernel) (dir v : Nat) : Option (Kernel × retcode) :=
  match deref w.vnodes dir with
  | none => none
  | some d =>
    if d.stream.type ≠ STREAM_TYPE_DIR then some (w, retcode.ERR_INVALID_ARGS)
    else
      -- v->dir_next = dir->stream.u.dir.dir_head
      match vnode_update w v (fun n => { n with dir_next := d.stream.dir_head }) with
      | none => none
      | some w1 =>
        -- dir->stream.u.dir.dir_head = v
        match vnode_update w1 dir (fun n => { n with stream := { n.stream with dir_head := v } }) with
        | none => none
        | some w2 =>
          -- v->parent = dir
          match vnode_update w2 v (fun n => { n with parent := dir }) with
          | none => none
          | some w3 => some (w3, retcode.num 0)

/-- The function `insert_cookie_in_jar` (no function of the file calls it). -/
def insert_cookie_in_jar (w : Kernel) (dir cookie : Nat) : Option Kernel :=
  match deref w.vnodes dir with
  | none => none
  | some d =>
    match cookie_update w cookie (fun c => { c with next := d.stream.jar_head }) with
    | none => none
    | some w1 =>
      match vnode_update w1 dir (fun n => { n with stream := { n.stream with jar_head := cookie } })
      with
      | none => none
      | some w2 => cookie_update w2 cookie (fun c => { c with prev := 0 })

/-- The loop of `update_dircookies` over the jar, starting at `cookie`; the first argument bounds
the number of iterations as in `find_in_dir_loop`. -/
def update_dircookies_loop (v : Nat) : Nat → Kernel → Nat → Option Kernel
  | 0, _, _ => none
  | steps + 1, w, cookie =>
    if cookie = 0 then some w
    else
      match deref w.cookies cookie with
      | none => none
      | some c =>
        if c.ptr = v then
          -- cookie->u.dir.ptr = v->dir_next
          match deref w.vnodes v with
          | none => none
          | some n =>
            update_dircookies_loop v steps
              { w with cookies := store w.cookies cookie (some { c with ptr := n.dir_next }) }
              c.next
        else update_dircookies_loop v steps w c.next

/-- The function `update_dircookies`. -/
def update_dircookies (w : Kernel) (dir v : Nat) : Option Kernel :=
  match deref w.vnodes dir with
  | none => none
  | some d => update_dircookies_loop v (w.cookies.length + 1) w d.stream.jar_head

/-- The loop of `devfs_remove_from_dir`, at list position `v` with predecessor `last_v`. -/
def remove_from_dir_loop (dir findit : Nat) : Nat → Kernel → Nat → Nat → Option (Kernel × retcode)
  | 0, _, _, _ => none
  | steps + 1, w, v, last_v =>
    if v = 0 then some (w, retcode.num (-1))
    else if v = findit then
      match update_dircookies w dir v with
      | none => none
      | some w1 =>
        match deref w1.vnodes v with
        | none => none
        | some n =>
          let unlinked :=
            if last_v ≠ 0 then vnode_update w1 last_v (fun l => { l with dir_next := n.dir_next })
            else vnode_update w1 dir
              (fun d => { d with stream := { d.stream with dir_head := n.dir_next } })
          match unlinked with
          | none => none
          | some w2 =>
            match vnode_update w2 v (fun x => { x with dir_next := 0 }) with
            | none => none
            | some w3 => some (w3, retcode.num 0)
    else
      match deref w.vnodes v with
      | none => none
      | some n => remove_from_dir_loop dir findit steps w n.dir_next v

/-- The function `devfs_remove_from_dir`. -/
def devfs_remove_from_dir (w : Kernel) (dir findit : Nat) : Option (Kernel × retcode) :=
  match deref w.vnodes dir with
  | none => none
  | some d => remove_from_dir_loop dir findit (w.vnodes.length + 1) w d.stream.dir_head 0

/-- The function `devfs_is_dir_empty`. -/
def devfs_is_dir_empty (w : Kernel) (dir : Nat) : Option Bool :=
  match deref w.vnodes dir with
  | none => none
  | some d =>
    if d.stream.type ≠ STREAM_TYPE_DIR then some false
    else some (d.stream.dir_head = 0)

/-! ## Mount and unmount -/

/-- The function `devfs_mount`.  The third component of the result holds the values written to
`*_fs` and `*root_vnid`, `none` when they are not written.  `mutex_init` and `hash_init` each
acquire one kernel resource; the error code of a failing `mutex_init` (not part of the sources)
is rendered as `ERR_NO_MEMORY`. -/
def devfs_mount (w : Kernel) (id : Nat) : Option (Kernel × retcode × Option (Nat × Int)) :=
  if w.thedevfs ≠ 0 then some (w, retcode.ERR_GENERAL, none)
  else
    -- fs = kmalloc(sizeof(struct devfs))
    match kmalloc w with
    | none => some (w, retcode.ERR_NO_MEMORY, none)
    | some w1 =>
      let fs := w1.fss.length + 1
      let w2 := { w1 with fss := w1.fss ++
        [some { id := id, next_vnode_id := 0, vnode_list_hash := { table := [] },
                root_vnode := 0 }] }
      -- mutex_init(&fs->lock, ...)
      match kmalloc w2 with
      | none => some (kfree { w2 with fss := store w2.fss fs none }, retcode.ERR_NO_MEMORY, none)
      | some w3 =>
        -- fs->vnode_list_hash = hash_init(BOOTFS_HASH_SIZE, ...)
        match kmalloc w3 with
        | none =>
          some (kfree (kfree { w3 with fss := store w3.fss fs none }), retcode.ERR_NO_MEMORY, none)
        | some w4 =>
          match fs_update w4 fs (fun f => { f with vnode_list_hash := hash_init BOOTFS_HASH_SIZE })
          with
          | none => none
          | some w5 =>
            -- v = devfs_create_vnode(fs, "")
            match devfs_create_vnode w5 fs [] with
            | none => none
            | some (w6, v) =>
              if v = 0 then
                some (kfree (kfree (kfree { w6 with fss := store w6.fss fs none })),
                      retcode.ERR_NO_MEMORY, none)
              else
                -- v->parent = v; the directory stream; fs->root_vnode = v
                match vnode_update w6 v (fun n => { n with
                    parent := v,
                    stream := { n.stream with
                      type := STREAM_TYPE_DIR, dir_head := 0, jar_head := 0 } }) with
                | none => none
                | some w7 =>
                  match fs_update w7 fs (fun f => { f with root_vnode := v }) with
                  | none => none
                  | some w8 =>
                    -- hash_insert(fs->vnode_list_hash, v)
                    match deref w8.fss fs, deref w8.vnodes v with
                    | some f, some n =>
                      match hash_insert f.vnode_list_hash v n with
                      | none => none
                      | some t =>
                        some ({ w8 with
                                fss := store w8.fss fs (some { f with vnode_list_hash := t })
                                thedevfs := fs },
                              retcode.num 0, some (fs, n.id))
                    | _, _ => none

/-- The loop of `devfs_unmount`: `devfs_delete_vnode(fs, v, true)` for each element that the
iteration of the index yields. -/
def unmount_delete_all (fs : Nat) : Kernel → List Nat → Option Kernel
  | w, [] => some w
  | w, v :: rest =>
    match devfs_delete_vnode w fs v true with
    | none => none
    | some (w1, _) => unmount_delete_all fs w1 rest

/-- The function `devfs_unmount`: the deletion loop, then `hash_uninit`, `mutex_destroy` and
`kfree(fs)`.  The global `thedevfs` is not assigned. -/
def devfs_unmount (w : Kernel) (fs : Nat) : Option (Kernel × retcode) :=
  match deref w.fss fs with
  | none => none
  | some f =>
    match unmount_delete_all fs w (hash_elements f.vnode_list_hash) with
    | none => none
    | some w1 =>
      let w2 := kfree (kfree (kfree w1))
      some ({ w2 with fss := store w2.fss fs none }, retcode.num 0)

/-- The function `devfs_getvnode`: the lookup by id in the index.  The result holds the pointer
written to `*v`. -/
def devfs_getvnode (w : Kernel) (fs : Nat) (id : Int) : Option (retcode × Nat) :=
  match deref w.fss fs with
  | none => none
  | some f =>
    match hash_lookup w.vnodes f.vnode_list_hash id with
    | none => none
    | some v => if v ≠ 0 then some (retcode.num 0, v) else some (retcode.ERR_NOT_FOUND, v)

/-- The function `devfs_removevnode`.  A node whose `dir_next` is not `NULL` ends the call in
`panic`; the return value of `devfs_delete_vnode` is not looked at. -/
def devfs_removevnode (w : Kernel) (fs v : Nat) : Option (Kernel × retcode) :=
  match deref w.vnodes v with
  | none => none
  | some n =>
    if n.dir_next ≠ 0 then none
    else
      match devfs_delete_vnode w fs v false with
      | none => none
      | some (w1, _) => some (w1, retcode.num 0)

/-- The function `devfs_open`.  `dev_open` stands for the `dev_open` entry of the operation table
a device node is bound to: given the table and the device name it yields the driver's return value
and the driver cookie.  The third component of the result is the pointer written to `*_cookie`,
`none` when it is not written.  A fresh cookie is taken to be zero-filled. -/
def devfs_open (dev_open : Nat → Option (List Char) → retcode × Nat) (w : Kernel) (v : Nat)
    (st : stream_type) : Option (Kernel × retcode × Option Nat) :=
  match deref w.vnodes v with
  | none => none
  | some n =>
    if st ≠ STREAM_TYPE_ANY ∧ st ≠ n.stream.type then
      some (w, retcode.ERR_VFS_WRONG_STREAM_TYPE, none)
    else
      match kmalloc w with
      | none => some (w, retcode.ERR_NO_MEMORY, none)
      | some w1 =>
        let cookie := w1.cookies.length + 1
        let fresh : devfs_cookie :=
          { s := v, oflags := 0, next := 0, prev := 0, ptr := 0, dcookie := 0 }
        match n.stream.type with
        | STREAM_TYPE_DIR =>
          some ({ w1 with cookies := w1.cookies ++ [some { fresh with ptr := n.stream.dir_head }] },
                retcode.num 0, some cookie)
        | STREAM_TYPE_DEVICE =>
          let r := dev_open n.stream.calls n.stream.full_name
          some ({ w1 with cookies := w1.cookies ++ [some { fresh with dcookie := r.2 }] },
                r.1, some cookie)
        | _ =>
          some (kfree { w1 with cookies := w1.cookies ++ [none] },
                retcode.ERR_VFS_WRONG_STREAM_TYPE, some cookie)

/-- The function `devfs_read`.  `user_strcpy` gives the return value of the copy of a name to the
caller's buffer, `dev_read` stands for the `dev_read` entry of the operation table of a device
node.  The third component of the result is the name copied to the buffer (its terminator left
out), `none` when nothing is copied. -/
def devfs_read (user_strcpy : List Char → retcode) (dev_read : Nat → Nat → Int → Int → retcode)
    (w : Kernel) (v cookie : Nat) (pos len : Int) :
    Option (Kernel × retcode × Option (List Char)) :=
  match deref w.cookies cookie with
  | none => none
  | some c =>
    match deref w.vnodes c.s with
    | none => none
    | some sn =>
      match sn.stream.type with
      | STREAM_TYPE_DIR =>
        if c.ptr = 0 then some (w, retcode.num 0, none)
        else
          match deref w.vnodes c.ptr with
          | none => none
          | some n =>
            if (n.name.length : Int) + 1 > len then
              some (w, retcode.ERR_VFS_INSUFFICIENT_BUF, none)
            else if (user_strcpy n.name).is_negative then some (w, user_strcpy n.name, none)
            else
              some ({ w with
                      cookies := store w.cookies cookie (some { c with ptr := n.dir_next }) },
                    retcode.num ((n.name.length : Int) + 1), some n.name)
      | STREAM_TYPE_DEVICE =>
        match deref w.vnodes v with
        | none => none
        | some n => some (w, dev_read n.stream.calls c.dcookie pos len, none)
      | _ => some (w, retcode.ERR_INVALID_ARGS, none)

/-- The enum `seek_type` (declared in a header that is not part of the sources): the three
enumerators that `devfs_seek` names. -/
inductive seek_type where
  | SEEK_SET
  | SEEK_CUR
  | SEEK_END
  deriving DecidableEq, Repr

/-- The function `devfs_seek`.  `dev_seek` stands for the `dev_seek` entry of the operation table
of a device node. -/
def devfs_seek (dev_seek : Nat → Nat → Int → seek_type → retcode) (w : Kernel) (v cookie : Nat)
    (pos : Int) (st : seek_type) : Option (Kernel × retcode) :=
  match deref w.cookies cookie with
  | none => none
  | some c =>
    match deref w.vnodes c.s with
    | none => none
    | some sn =>
      match sn.stream.type with
      | STREAM_TYPE_DIR =>
        match st with
        | seek_type.SEEK_SET =>
          if pos = 0 then
            -- cookie->u.dir.ptr = cookie->s->u.dir.dir_head
            some ({ w with
                    cookies := store w.cookies cookie (some { c with ptr := sn.stream.dir_head }) },
                  retcode.num 0)
          else some (w, retcode.ERR_INVALID_ARGS)
        | _ => some (w, retcode.ERR_INVALID_ARGS)
      | STREAM_TYPE_DEVICE =>
        match deref w.vnodes v with
        | none => none
        | some n => some (w, dev_seek n.stream.calls c.dcookie pos st)
      | _ => some (w, retcode.ERR_INVALID_ARGS)

/-! ## Publishing a device -/

/-- The body of the loop of `devfs_publish_device` for the path component `comp`
(`&temp[last]`).  The result is `Sum.inl v` when the loop goes on below `v` (an existing
directory, or the node just created and linked), `Sum.inr err` when it jumps to `err1`. -/
def publish_component (w : Kernel) (dir : Nat) (comp : List Char) (at_leaf : Bool)
    (path : List Char) (calls : Nat) : Option (Kernel × (Nat ⊕ retcode)) :=
  match devfs_find_in_dir w dir comp with
  | none => none
  | some found =>
    if found ≠ 0 then
      if at_leaf then some (w, Sum.inr retcode.ERR_VFS_ALREADY_EXISTS)
      else
        match deref w.vnodes found with
        | none => none
        | some n =>
          if n.stream.type = STREAM_TYPE_DIR then some (w, Sum.inl found)
          else some (w, Sum.inr retcode.ERR_VFS_ALREADY_EXISTS)
    else
      match devfs_create_vnode w w.thedevfs comp with
      | none => none
      | some (w1, v) =>
        if v = 0 then some (w1, Sum.inr retcode.ERR_NO_MEMORY)
        else
          -- set up the new vnode
          let setup : Option (Kernel × Option retcode) :=
            if at_leaf then
              match vnode_update w1 v
                (fun n => { n with stream := { n.stream with type := STREAM_TYPE_DEVICE } }) with
              | none => none
              | some w2 =>
                match kmalloc w2 with
                | none =>
                  match vnode_update w2 v
                    (fun n => { n with stream := { n.stream with full_name := none } }) with
                  | none => none
                  | some w3 =>
                    match devfs_delete_vnode w3 w3.thedevfs v false with
                    | none => none
                    | some (w4, _) => some (w4, some retcode.ERR_NO_MEMORY)
                | some w3 =>
                  match vnode_update w3 v (fun n => { n with
                      stream := { n.stream with full_name := some path, calls := calls } }) with
                  | none => none
                  | some w4 => some (w4, none)
            else
              match vnode_update w1 v (fun n => { n with
                  stream := { n.stream with
                    type := STREAM_TYPE_DIR, dir_head := 0, jar_head := 0 } }) with
              | none => none
              | some w2 => some (w2, none)
          match setup with
          | none => none
          | some (w2, some err) => some (w2, Sum.inr err)
          | some (w2, none) =>
            -- hash_insert(thedevfs->vnode_list_hash, v)
            match deref w2.fss w2.thedevfs, deref w2.vnodes v with
            | some f, some n =>
              match hash_insert f.vnode_list_hash v n with
              | none => none
              | some t =>
                let w3 := { w2 with
                  fss := store w2.fss w2.thedevfs (some { f with vnode_list_hash := t }) }
                -- devfs_insert_in_dir(dir, v)
                match devfs_insert_in_dir w3 dir v with
                | none => none
                | some (w4, _) => some (w4, Sum.inl v)
            | _, _ => none

/-- The loop of `devfs_publish_device` over the characters of `temp` from index `i` on; `comp` is
the part of the current component already scanned (`temp[last .. i)`). -/
def publish_loop (path : List Char) (calls : Nat) :
    List Char → List Char → Nat → Kernel → Option (Kernel × retcode)
  | [], comp, dir, w =>
    -- temp[i] == 0: at_leaf
    match publish_component w dir comp true path calls with
    | none => none
    | some (w1, Sum.inl _) => some (w1, retcode.num 0)
    | some (w1, Sum.inr err) => some (w1, err)
  | c :: rest, comp, dir, w =>
    if c = '/' then
      match publish_component w dir comp false path calls with
      | none => none
      | some (w1, Sum.inl v) => publish_loop path calls rest [] v w1
      | some (w1, Sum.inr err) => some (w1, err)
    else publish_loop path calls rest (comp ++ [c]) dir w

/-- The function `devfs_publish_device`.  `SYS_MAX_PATH_LEN` is the macro of that name, whose value
is not part of the sources.  A call before devfs is mounted ends in `panic`. -/
def devfs_publish_device (SYS_MAX_PATH_LEN : Nat) (w : Kernel) (path : List Char) (calls : Nat) :
    Option (Kernel × retcode) :=
  if w.thedevfs = 0 then none
  else
    -- strncpy(temp, path, SYS_MAX_PATH_LEN); temp[SYS_MAX_PATH_LEN] = 0
    let temp := path.take SYS_MAX_PATH_LEN
    match deref w.fss w.thedevfs with
    | none => none
    | some f => publish_loop path calls temp [] f.root_vnode w

/-! ## The rtl8139 driver (dev/arch/i386/rtl8139/rtl8139.c) -/

/-- A call of one of the hardware routines of `rtl8139_priv.h` (not part of the sources):
`rtl8139_rx(rtl, buf, len)`, `rtl8139_xmit(rtl, buf, len)` or `rtl8139_init(dev)`. -/
inductive rtl8139_call where
  | rx (len : Int)
  | xmit (len : Int)
  | init (dev : Nat)
  deriving DecidableEq, Repr

/-- State of the driver: the file-level pointer `rtl` (`0` is `NULL`) and the calls of the
hardware routines made so far, latest first.  The caller's buffer is touched by those routines
only. -/
structure rtl8139_driver where
  rtl : Nat
  hw_calls : List rtl8139_call
  deriving DecidableEq, Repr

/-- The function `rtl8139_read`.  `rtl8139_rx` gives the return value of the receive routine. -/
def rtl8139_read (rtl8139_rx : Nat → Int → retcode) (s : rtl8139_driver) (_cookie : Nat)
    (_pos len : Int) : rtl8139_driver × retcode :=
  if len < 1500 then (s, retcode.ERR_VFS_INSUFFICIENT_BUF)
  else if s.rtl = 0 then (s, retcode.ERR_IO_ERROR)
  else ({ s with hw_calls := rtl8139_call.rx len :: s.hw_calls }, rtl8139_rx s.rtl len)

/-- The function `rtl8139_write`. -/
def rtl8139_write (s : rtl8139_driver) (_cookie : Nat) (_pos len : Int) :
    rtl8139_driver × retcode :=
  if len > 1500 then (s, retcode.ERR_VFS_INSUFFICIENT_BUF)
  else if len < 0 then (s, retcode.ERR_INVALID_ARGS)
  else if s.rtl = 0 then (s, retcode.ERR_IO_ERROR)
  else ({ s with hw_calls := rtl8139_call.xmit len :: s.hw_calls }, retcode.num len)

/-- The function `rtl8139_open`; it does not write to `*cookie`. -/
def rtl8139_open (s : rtl8139_driver) (_name : List Char) : retcode :=
  if s.rtl = 0 then retcode.ERR_IO_ERROR else retcode.num 0

/-- The function `rtl8139_ioctl`.  `sizeof_mac_addr` is `sizeof(rtl->mac_addr)`, which
`rtl8139_priv.h` (not part of the sources) fixes; `len` is a `size_t`.  The second component of
the result tells whether the MAC address is copied to the caller's buffer. -/
def rtl8139_ioctl (sizeof_mac_addr : Nat) (s : rtl8139_driver) (_cookie : Nat) (op : Int)
    (len : Nat) : retcode × Bool :=
  if s.rtl = 0 then (retcode.ERR_IO_ERROR, false)
  else if op = 10000 then
    -- get the ethernet MAC address
    if len ≥ sizeof_mac_addr then (retcode.num 0, true)
    else (retcode.ERR_VFS_INSUFFICIENT_BUF, false)
  else (retcode.ERR_INVALID_ARGS, false)

/-- The function `rtl8139_dev_init`.  `rtl8139_detect` stands for the call
`rtl8139_detect(&rtl)` of `rtl8139_priv.h` (not part of the sources): its return value and the
pointer it stores through its argument.  That argument is the address of the variable `rtl` that
the function declares itself (`rtl8139 *rtl;`), which hides the file-level `rtl` in the whole
body: the pointer goes to the local, is passed to `rtl8139_init`, and is gone at the return; no
statement of the function assigns the file-level `rtl`, the field `rtl` of the driver state.
`hooks` is the address of `rtl8139_hooks`; the return value of `devfs_publish_device` is
dropped. -/
def rtl8139_dev_init (rtl8139_detect : retcode × Nat) (SYS_MAX_PATH_LEN : Nat) (hooks : Nat)
    (s : rtl8139_driver) (w : Kernel) : Option (rtl8139_driver × Kernel × retcode) :=
  -- detect and setup the device
  if rtl8139_detect.1.is_negative then
    -- no rtl8139 here
    some (s, w, retcode.num 0)
  else
    let rtl_local := rtl8139_detect.2
    -- rtl8139_init(rtl)
    let s1 := { s with hw_calls := rtl8139_call.init rtl_local :: s.hw_calls }
    -- create device node
    match devfs_publish_device SYS_MAX_PATH_LEN w "net/rtl8139/0".toList hooks with
    | none => none
    | some (w1, _) => some (s1, w1, retcode.num 0)

/-! ## Observations used to state the properties -/

/-- The '/'-separated components of what follows, `comp` being the part of the first component
that has already been read. -/
def path_components_from : List Char → List Char → List (List Char)
  | comp, [] => [comp]
  | comp, c :: rest =>
    if c = '/' then comp :: path_components_from [] rest
    else path_components_from (comp ++ [c]) rest

/-- The '/'-separated components of a path: `"net/rtl8139/0"` has the components `"net"`,
`"rtl8139"` and `"0"`. -/
def path_components (path : List Char) : List (List Char) := path_components_from [] path

/-- The nodes linked from `v` on through `dir_next`, in list order (the first argument bounds the
length of the walk). -/
def child_list_from (h : List (Option devfs_vnode)) : Nat → Nat → List Nat
  | 0, _ => []
  | steps + 1, v =>
    if v = 0 then []
    else
      match deref h v with
      | none => []
      | some n => v :: child_list_from h steps n.dir_next

/-- The child list of the node `dir`: the nodes linked from its `dir_head`. -/
def dir_children (w : Kernel) (dir : Nat) : List Nat :=
  match deref w.vnodes dir with
  | none => []
  | some d => child_list_from w.vnodes (w.vnodes.length + 1) d.stream.dir_head

/-- Starting at `dir`, resolve the components one after the other with `devfs_find_in_dir` and
check that every component but the last yields a directory node and the last one a device node
bound to the operation table `calls` whose stored full name is `full`. -/
def resolves_to_device (w : Kernel) (calls : Nat) (full : List Char) : Nat → List (List Char) → Bool
  | _, [] => false
  | dir, c :: cs =>
    match devfs_find_in_dir w dir c with
    | none => false
    | some v =>
      match deref w.vnodes v with
      | none => false
      | some n =>
        match cs with
        | [] => n.stream.type = STREAM_TYPE_DEVICE && n.stream.calls = calls
                  && n.stream.full_name = some full
        | _ :: _ => n.stream.type = STREAM_TYPE_DIR && resolves_to_device w calls full v cs

/-- The states reached from the boot state (allocations always succeeding) by a successful
`devfs_mount` followed by any number of calls of `devfs_publish_device` that return. -/
inductive Reachable (maxlen : Nat) : Kernel → Prop where
  | mount (id : Nat) (w : Kernel) (out : Option (Nat × Int)) :
      devfs_mount (boot none) id = some (w, retcode.num 0, out) → Reachable maxlen w
  | publish (w w1 : Kernel) (path : List Char) (calls : Nat) (err : retcode) :
      Reachable maxlen w → devfs_publish_device maxlen w path calls = some (w1, err) →
      Reachable maxlen w1

/-- The root node of the mounted instance, `thedevfs->root_vnode` (`0` when there is no live
instance). -/
def devfs_root (w : Kernel) : Nat :=
  match deref w.fss w.thedevfs with
  | none => 0
  | some f => f.root_vnode

/-- The cookies linked from `c` on through `next`, in list order (the first argument bounds the
length of the walk). -/
def jar_list_from (h : List (Option devfs_cookie)) : Nat → Nat → List Nat
  | 0, _ => []
  | steps + 1, c =>
    if c = 0 then []
    else
      match deref h c with
      | none => []
      | some k => c :: jar_list_from h steps k.next

/-- The jar of the node `dir`: the cookies linked from its `jar_head`. -/
def dir_jar (w : Kernel) (dir : Nat) : List Nat :=
  match deref w.vnodes dir with
  | none => []
  | some d => jar_list_from w.cookies (w.cookies.length + 1) d.stream.jar_head

/-- The list `l` is the child list that starts at `v`: following `dir_next` from `v` visits
exactly the live nodes `l`, in that order, and then reaches `NULL`. -/
def is_child_chain (h : List (Option devfs_vnode)) : Nat → List Nat → Bool
  | v, [] => decide (v = 0)
  | v, a :: rest =>
    decide (v = a) && decide (v ≠ 0) &&
      match deref h v with
      | none => false
      | some n => is_child_chain h n.dir_next rest

/-- The list `l` is the jar that starts at `c`: following `next` from `c` visits exactly the
live cookies `l`, in that order, and then reaches `NULL`. -/
def is_jar_chain (h : List (Option devfs_cookie)) : Nat → List Nat → Bool
  | c, [] => decide (c = 0)
  | c, a :: rest =>
    decide (c = a) && decide (c ≠ 0) &&
      match deref h c with
      | none => false
      | some k => is_jar_chain h k.next rest

/-- The names of the nodes `l`, in order (`none` when one of them is not live). -/
def node_names (h : List (Option devfs_vnode)) : List Nat → Option (List (List Char))
  | [] => some []
  | a :: rest =>
    match deref h a, node_names h rest with
    | some n, some names => some (n.name :: names)
    | _, _ => none

/-- Repeated calls of `devfs_read` on a cookie with a buffer of `len` bytes, until one returns 0:
the names copied to the buffer, in order.  `none` when a call fails or returns an error, or when
the first argument (a bound on the number of calls) is used up. -/
def devfs_read_all (user_strcpy : List Char → retcode)
    (dev_read : Nat → Nat → Int → Int → retcode) :
    Nat → Kernel → Nat → Nat → Int → Option (Kernel × List (List Char))
  | 0, _, _, _, _ => none
  | calls + 1, w, v, cookie, len =>
    match devfs_read user_strcpy dev_read w v cookie 0 len with
    | none => none
    | some (w1, r, none) => if r = retcode.num 0 then some (w1, []) else none
    | some (w1, _, some name) =>
      match devfs_read_all user_strcpy dev_read calls w1 v cookie len with
      | none => none
      | some (w2, names) => some (w2, name :: names)

/-- Calls of `devfs_publish_device` one after the other: the final state and the return values,
in order. -/
def publish_each (maxlen : Nat) : Kernel → List (List Char × Nat) → Option (Kernel × List retcode)
  | w, [] => some (w, [])
  | w, (path, calls) :: rest =>
    match devfs_publish_device maxlen w path calls with
    | none => none
    | some (w1, r) =>
      match publish_each maxlen w1 rest with
      | none => none
      | some (w2, rs) => some (w2, r :: rs)

/-- A run of the directory enumeration: `devfs_mount` at boot (allocations always succeeding),
the calls `devfs_publish_device(name, calls)` for the pairs of `names` in order, `devfs_open` on
the root as a directory, and then calls of `devfs_read` with a buffer of `len` bytes until one
returns 0.  The result is the return values of the publish calls and the names read, in order;
`none` when a step fails or when mount, open or a read returns an error. -/
def publish_then_enumerate (dev_open : Nat → Option (List Char) → retcode × Nat)
    (user_strcpy : List Char → retcode) (dev_read : Nat → Nat → Int → Int → retcode)
    (maxlen id : Nat) (names : List (List Char × Nat)) (len : Int) :
    Option (List retcode × List (List Char)) :=
  match devfs_mount (boot none) id with
  | none => none
  | some (w0, r0, _) =>
    if r0 ≠ retcode.num 0 then none
    else
      match publish_each maxlen w0 names with
      | none => none
      | some (w1, rs) =>
        match devfs_open dev_open w1 (devfs_root w1) STREAM_TYPE_DIR with
        | some (w2, r2, some cookie) =>
          if r2 ≠ retcode.num 0 then none
          else
            match devfs_read_all user_strcpy dev_read (names.length + 1) w2 (devfs_root w2)
              cookie len with
            | none => none
            | some (_, out) => some (rs, out)
        | _ => none

/-- Starting at `dir`, resolve the components one after the other with `devfs_find_in_dir`, each
of them having to yield a directory node: the directory reached (`none` when a component is not
found or is not a directory). -/
def walk_dirs (w : Kernel) : Nat → List (List Char) → Option Nat
  | dir, [] => some dir
  | dir, c :: cs =>
    match devfs_find_in_dir w dir c with
    | none => none
    | some v =>
      if v = 0 then none
      else
        match deref w.vnodes v with
        | none => none
        | some n => if n.stream.type = STREAM_TYPE_DIR then walk_dirs w v cs else none

/-! ## Auxiliary definitions for the proofs -/

/-- The vnode that `devfs_publish_device` has built for the component `comp` below `dir` once it
is linked: `d` is the directory node before the call, `f` the instance. -/
def published_node (f : devfs) (dir : Nat) (d : devfs_vnode) (comp : List Char) (at_leaf : Bool)
    (path : List Char) (calls : Nat) : devfs_vnode :=
  { all_next := 0, id := f.next_vnode_id, name := comp, redir_vnode := 0, parent := dir,
    dir_next := d.stream.dir_head,
    stream :=
      if at_leaf then
        { type := STREAM_TYPE_DEVICE, dir_head := 0, jar_head := 0, full_name := some path,
          calls := calls }
      else
        { type := STREAM_TYPE_DIR, dir_head := 0, jar_head := 0, full_name := none, calls := 0 } }

/-- The state after `node` has been allocated, entered in the index (giving the table `t`) and
put at the head of the child list of `dir`. -/
def link_new (w : Kernel) (dir : Nat) (d : devfs_vnode) (f : devfs) (t : hash_table)
    (node : devfs_vnode) : Kernel :=
  { w with
    vnodes := store (w.vnodes ++ [some node]) dir
      (some { d with stream := { d.stream with dir_head := w.vnodes.length + 1 } })
    fss := store w.fss w.thedevfs
      (some { f with next_vnode_id := int32_wrap (f.next_vnode_id + 1), vnode_list_hash := t }) }

/-- The loop of `devfs_publish_device` seen component by component: `publish_loop` on a buffer
does what `publish_comps` does on the components of that buffer. -/
def publish_comps (path : List Char) (calls : Nat) :
    List (List Char) → Nat → Kernel → Option (Kernel × retcode)
  | [], _, _ => none
  | c :: cs, dir, w =>
    match cs with
    | [] =>
      match publish_component w dir c true path calls with
      | none => none
      | some (w1, Sum.inl _) => some (w1, retcode.num 0)
      | some (w1, Sum.inr err) => some (w1, err)
    | _ :: _ =>
      match publish_component w dir c false path calls with
      | none => none
      | some (w1, Sum.inl v) => publish_comps path calls cs v w1
      | some (w1, Sum.inr err) => some (w1, err)

/-- The state `w2` is reached from `w1` by zero or more calls of `devfs_publish_device` that
return. -/
inductive PublishSteps (maxlen : Nat) : Kernel → Kernel → Prop where
  | refl (w : Kernel) : PublishSteps maxlen w w
  | step (w w1 w2 : Kernel) (path : List Char) (calls : Nat) (err : retcode) :
      PublishSteps maxlen w w1 → devfs_publish_device maxlen w1 path calls = some (w2, err) →
      PublishSteps maxlen w w2

/-- The namespace of `w1` extends that of `w`: every node of `w` is still there with the same
name, links to parent and sibling, id, kind and binding, and every successful name resolution of
`w` gives the same node in `w1`. -/
structure Extends (w w1 : Kernel) : Prop where
  node : ∀ p n, deref w.vnodes p = some n →
    ∃ n1, deref w1.vnodes p = some n1 ∧ n1.name = n.name ∧ n1.dir_next = n.dir_next ∧
      n1.parent = n.parent ∧ n1.id = n.id ∧ n1.stream.type = n.stream.type ∧
      n1.stream.calls = n.stream.calls ∧ n1.stream.full_name = n.stream.full_name
  find : ∀ x name r, devfs_find_in_dir w x name = some r → r ≠ 0 →
    devfs_find_in_dir w1 x name = some r
  dev : w1.thedevfs = w.thedevfs
  root : ∀ f, deref w.fss w.thedevfs = some f →
    ∃ f1, deref w1.fss w1.thedevfs = some f1 ∧ f1.root_vnode = f.root_vnode
  len : w.vnodes.length ≤ w1.vnodes.length

/-- Tree invariant of the mounted states: allocations succeed, the instance and its root
directory are live, the root is its own parent, every node has a directory as parent, the head of
a child list has the directory as parent, and a sibling has the same parent. -/
structure TreeInv (w : Kernel) : Prop where
  avail : w.heap_avail = none
  fs : ∃ f r, deref w.fss w.thedevfs = some f ∧ deref w.vnodes f.root_vnode = some r ∧
    r.stream.type = STREAM_TYPE_DIR ∧ r.parent = f.root_vnode
  parent : ∀ p n, deref w.vnodes p = some n →
    ∃ d, deref w.vnodes n.parent = some d ∧ d.stream.type = STREAM_TYPE_DIR
  head : ∀ p n, deref w.vnodes p = some n → n.stream.type = STREAM_TYPE_DIR →
    n.stream.dir_head ≠ 0 → ∃ c, deref w.vnodes n.stream.dir_head = some c ∧ c.parent = p
  next : ∀ p n, deref w.vnodes p = some n → n.dir_next ≠ 0 →
    ∃ c, deref w.vnodes n.dir_next = some c ∧ c.parent = n.parent

/-- Id invariant of the mounted states: the counter has been incremented once per vnode cell, and
the node in cell `p` got the `p`-th counter value. -/
structure IdInv (w : Kernel) : Prop where
  counter : ∃ f, deref w.fss w.thedevfs = some f ∧
    f.next_vnode_id = int32_wrap (w.vnodes.length : Nat)
  ids : ∀ p n, deref w.vnodes (p + 1) = some n → n.id = int32_wrap (p : Nat)

/-- List invariant of the mounted states: no vnode cell has been freed, a sibling link points to
an older cell, and the head of a child list is a cell of the arena.  It makes every walk of a
child list end. -/
structure ChainInv (w : Kernel) : Prop where
  alloc : ∀ p, 0 < p → p ≤ w.vnodes.length → ∃ n, deref w.vnodes p = some n
  next_lt : ∀ p n, deref w.vnodes p = some n → n.dir_next < p
  head_le : ∀ p n, deref w.vnodes p = some n → n.stream.dir_head ≤ w.vnodes.length

/-- The index `t` is sound for the vnode arena `h`: it has `BOOTFS_HASH_SIZE` buckets, and a
chain has no repetition and holds live nodes that hash to its bucket. -/
def IndexOK (h : List (Option devfs_vnode)) (t : hash_table) : Prop :=
  t.table.length = BOOTFS_HASH_SIZE ∧
  ∀ b chain, t.table[b]? = some chain →
    chain.Nodup ∧ ∀ e ∈ chain, ∃ n, deref h e = some n ∧
      devfs_vnode_hash_func (some n) 0 BOOTFS_HASH_SIZE = b

/-- Index invariant of the mounted states: the index of the instance is sound and every live
node is in the chain of its bucket. -/
structure IndexInv (w : Kernel) : Prop where
  table : ∃ f, deref w.fss w.thedevfs = some f ∧ IndexOK w.vnodes f.vnode_list_hash ∧
    ∀ p n, deref w.vnodes p = some n →
      ∃ chain, f.vnode_list_hash.table[devfs_vnode_hash_func (some n) 0 BOOTFS_HASH_SIZE]? =
        some chain ∧ p ∈ chain

/-- The root directory node that `devfs_mount` builds at address `v`. -/
def root_node (v : Nat) : devfs_vnode :=
  { all_next := 0, id := 0, name := [], redir_vnode := 0, parent := v, dir_next := 0,
    stream := { type := STREAM_TYPE_DIR, dir_head := 0, jar_head := 0, full_name := none,
                calls := 0 } }

/-- The state after a successful `devfs_mount` in the state `w`. -/
def mounted (w : Kernel) (id : Nat) : Kernel :=
  { w with
    vnodes := w.vnodes ++ [some (root_node (w.vnodes.length + 1))]
    fss := w.fss ++
      [some { id := id, next_vnode_id := 1,
              vnode_list_hash :=
                { table := [w.vnodes.length + 1] :: List.replicate (BOOTFS_HASH_SIZE - 1) [] },
              root_vnode := w.vnodes.length + 1 }]
    thedevfs := w.fss.length + 1 }

/-! ## Example states -/

/-- The path under which the rtl8139 driver publishes its device (`rtl8139_dev_init`). -/
def rtl8139_path : List Char := "net/rtl8139/0".toList

/-- A freshly mounted instance. -/
def demo_mounted : Kernel := mounted (boot none) 0

/-- The state after `devfs_publish_device("net/rtl8139/0", 99)` in a freshly mounted instance
(`99` stands for the address of the operation table). -/
def demo_net : Kernel :=
  match devfs_publish_device 512 demo_mounted rtl8139_path 99 with
  | some (w, _) => w
  | none => demo_mounted

/-- The state after mount, unmount. -/
def demo_unmounted : Kernel :=
  match devfs_unmount demo_mounted 1 with
  | some (w, _) => w
  | none => demo_mounted

/-- The state after mount, `publish("a", 11)`, `publish("b", 12)`: the root is node 1, "a" is
node 2 and "b" is node 3; the child list of the root is "b", "a". -/
def demo_ab : Kernel :=
  match devfs_publish_device 512 demo_mounted ['a'] 11 with
  | none => demo_mounted
  | some (w, _) =>
    match devfs_publish_device 512 w ['b'] 12 with
    | none => demo_mounted
    | some (w1, _) => w1

/-- A driver `dev_open` entry that always succeeds. -/
def demo_dev_open : Nat → Option (List Char) → retcode × Nat := fun _ _ => (retcode.num 0, 0)

/-- A driver `dev_read` entry that always returns 0. -/
def demo_dev_read : Nat → Nat → Int → Int → retcode := fun _ _ _ _ => retcode.num 0

/-- A `user_strcpy` that always succeeds. -/
def demo_user_strcpy : List Char → retcode := fun _ => retcode.num 0

/-- The state `demo_ab` after `devfs_open` on the root; the cookie is cookie 1. -/
def demo_ab_open : Kernel :=
  match devfs_open demo_dev_open demo_ab 1 STREAM_TYPE_ANY with
  | some (w, _) => w
  | none => demo_ab

/-- The state `demo_ab_open` after `devfs_remove_from_dir(root, "b")`. -/
def demo_ab_removed : Kernel :=
  match devfs_remove_from_dir demo_ab_open 1 3 with
  | some (w, _) => w
  | none => demo_ab_open

/-- The state `demo_ab_removed` after one `devfs_read` on the cookie. -/
def demo_ab_read : Kernel :=
  match devfs_read demo_user_strcpy demo_dev_read demo_ab_removed 1 1 0 256 with
  | some (w, _) => w
  | none => demo_ab_removed

/-- The state `demo_ab_open` with the cookie put in the jar of the root by
`insert_cookie_in_jar`. -/
def demo_ab_jar : Kernel :=
  match insert_cookie_in_jar demo_ab_open 1 1 with
  | some w => w
  | none => demo_ab_open

/-- The state `demo_ab` after `devfs_delete_vnode(fs, "a", false)`. -/
def demo_ab_deleted : Kernel :=
  match devfs_delete_vnode demo_ab 1 2 false with
  | some (w, _) => w
  | none => demo_ab

/-- A `dev_seek` entry that always fails. -/
def demo_dev_seek : Nat → Nat → Int → seek_type → retcode :=
  fun _ _ _ _ => retcode.ERR_NOT_ALLOWED

/-- The state `demo_ab_open` after two calls of `devfs_read` on the cookie, which is then
exhausted. -/
def demo_ab_exhausted : Kernel :=
  match devfs_read_all demo_user_strcpy demo_dev_read 3 demo_ab_open 1 1 256 with
  | some (w, _) => w
  | none => demo_ab_open

/-- A driver state without a device (`rtl` is `NULL`). -/
def demo_rtl_absent : rtl8139_driver := { rtl := 0, hw_calls := [] }

/-- A driver state with a device. -/
def demo_rtl_present : rtl8139_driver := { rtl := 7, hw_calls := [] }

/-- A receive routine that reports 64 bytes. -/
def demo_rtl8139_rx : Nat → Int → retcode := fun _ _ => retcode.num 64

/-- A `NULL`-terminated singly linked list, the link of a cell being given by `next`: following
`next` from `v` visits exactly the cells `l`, in that order, and then reaches `NULL`.  The forms
`is_child_chain` and `is_jar_chain` are this one at the links `dir_next` and `u.dir.next`. -/
def is_chain (next : Nat → Option Nat) : Nat → List Nat → Bool
  | v, [] => decide (v = 0)
  | v, a :: rest =>
    decide (v = a) && decide (v ≠ 0) &&
      match next v with
      | none => false
      | some u => is_chain next u rest

/-- The link `dir_next` of the nodes of a heap. -/
def dir_next_of (h : List (Option devfs_vnode)) (p : Nat) : Option Nat :=
  (deref h p).map (fun n => n.dir_next)

/-- The link `u.dir.next` of the cookies of a heap. -/
def jar_next_of (h : List (Option devfs_cookie)) (p : Nat) : Option Nat :=
  (deref h p).map (fun k => k.next)

/-- The state `demo_ab_jar` after `devfs_remove_from_dir(root, "b")`. -/
def demo_ab_jar_removed : Kernel :=
  match devfs_remove_from_dir demo_ab_jar 1 3 with
  | some (w, _) => w
  | none => demo_ab_jar

/-- The driver state after `rtl8139_dev_init` has run in the initial driver state (`rtl` is
`NULL`) with a device detected at address 7. -/
def demo_rtl_inited : rtl8139_driver :=
  match rtl8139_dev_init (retcode.num 0, 7) 512 99 demo_rtl_absent demo_mounted with
  | some (s, _) => s
  | none => demo_rtl_absent

/-- The state `demo_net` after `devfs_publish_device("net/rtl8139/1", 98)`. -/
def demo_net1 : Kernel :=
  match devfs_publish_device 512 demo_net "net/rtl8139/1".toList 98 with
  | some (w, _) => w
  | none => demo_net

/-- The state `demo_net` after `devfs_unmount`. -/
def demo_net_unmounted : Kernel :=
  match devfs_unmount demo_net 1 with
  | some (w, _) => w
  | none => demo_net

/-! ## Heap lemmas -/

theorem deref_some_bound {α : Type} {h : List (Option α)} {p : Nat} {x : α}
    (hd : deref h p = some x) : 0 < p ∧ p ≤ h.length := by
  cases p with
  | zero => simp [deref] at hd
  | succ q =>
    refine ⟨Nat.succ_pos q, ?_⟩
    by_contra hlt
    have : h[q]? = none := List.getElem?_eq_none (by omega)
    simp [deref, this] at hd

theorem deref_zero {α : Type} (h : List (Option α)) : deref h 0 = none := rfl

theorem length_store {α : Type} (h : List (Option α)) (p : Nat) (x : Option α) :
    (store h p x).length = h.length := by
  cases p <;> simp [store]

theorem deref_store_self {α : Type} (h : List (Option α)) (p : Nat) (x : Option α)
    (hp : 0 < p) (hl : p ≤ h.length) : deref (store h p x) p = x := by
  cases p with
  | zero => omega
  | succ q =>
    have hq : q < h.length := by omega
    simp [deref, store, List.getElem?_set_self hq]

theorem deref_store_ne {α : Type} (h : List (Option α)) (p q : Nat) (x : Option α)
    (hne : q ≠ p) : deref (store h p x) q = deref h q := by
  cases p with
  | zero => rfl
  | succ p1 =>
    cases q with
    | zero => rfl
    | succ q1 =>
      have : p1 ≠ q1 := by omega
      simp [deref, store, List.getElem?_set_ne this]

theorem deref_append_old {α : Type} (h : List (Option α)) (x : Option α) (p : Nat)
    (hl : p ≤ h.length) : deref (h ++ [x]) p = deref h p := by
  cases p with
  | zero => rfl
  | succ q =>
    have hq : q < h.length := by omega
    simp [deref, List.getElem?_append_left hq]

theorem deref_append_new {α : Type} (h : List (Option α)) (x : Option α) :
    deref (h ++ [x]) (h.length + 1) = x := by
  simp [deref]

theorem store_append_new {α : Type} (h : List (Option α)) (x y : Option α) :
    store (h ++ [x]) (h.length + 1) y = h ++ [y] := by
  simp [store]

theorem store_append_old {α : Type} (h : List (Option α)) (x y : Option α) (p : Nat)
    (hl : p ≤ h.length) : store (h ++ [x]) p y = store h p y ++ [x] := by
  cases p with
  | zero => rfl
  | succ q =>
    have hq : q < h.length := by omega
    simp [store, List.set_append_left _ _ hq]

theorem deref_store_append_new {α : Type} (h : List (Option α)) (p : Nat) (x y : Option α) :
    deref (store h p y ++ [x]) (h.length + 1) = x := by
  have := deref_append_new (store h p y) x
  rwa [length_store] at this

theorem store_store_append_new {α : Type} (h : List (Option α)) (p : Nat) (x y z : Option α) :
    store (store h p y ++ [x]) (h.length + 1) z = store h p y ++ [z] := by
  have := store_append_new (store h p y) x z
  rwa [length_store] at this

theorem store_store_same {α : Type} (h : List (Option α)) (p : Nat) (x y : Option α) :
    store (store h p x) p y = store h p y := by
  cases p <;> simp [store]

/-! ## One step of the publish loop -/

theorem kmalloc_none (w : Kernel) (h : w.heap_avail = none) : kmalloc w = some w := by
  simp [kmalloc, h]

theorem create_vnode_eq (w : Kernel) (fs : Nat) (name : List Char) (f : devfs)
    (ha : w.heap_avail = none) (hf : deref w.fss fs = some f) :
    devfs_create_vnode w fs name =
      some ({ w with
              vnodes := w.vnodes ++
                [some { all_next := 0, id := f.next_vnode_id, name := name, redir_vnode := 0,
                        parent := 0, dir_next := 0,
                        stream := { type := STREAM_TYPE_ANY, dir_head := 0, jar_head := 0,
                                    full_name := none, calls := 0 } }]
              fss := store w.fss fs
                (some { f with next_vnode_id := int32_wrap (f.next_vnode_id + 1) }) },
            w.vnodes.length + 1) := by
  simp [devfs_create_vnode, kmalloc, ha, hf, vnode_update, store_append_new, deref_append_new]

theorem hash_insert_id (t : hash_table) (e : Nat) (n m : devfs_vnode) (h : n.id = m.id) :
    hash_insert t e n = hash_insert t e m := by
  simp [hash_insert, devfs_vnode_hash_func, h]

theorem publish_component_new (w : Kernel) (dir : Nat) (comp : List Char) (at_leaf : Bool)
    (path : List Char) (calls : Nat) (d : devfs_vnode) (f : devfs)
    (ha : w.heap_avail = none) (hd : deref w.vnodes dir = some d)
    (hdir : d.stream.type = STREAM_TYPE_DIR) (hf : deref w.fss w.thedevfs = some f)
    (hfind : devfs_find_in_dir w dir comp = some 0) :
    publish_component w dir comp at_leaf path calls =
      (hash_insert f.vnode_list_hash (w.vnodes.length + 1)
          (published_node f dir d comp at_leaf path calls)).map
        (fun t => (link_new w dir d f t (published_node f dir d comp at_leaf path calls),
                   Sum.inl (w.vnodes.length + 1))) := by
  obtain ⟨hp, hle⟩ := deref_some_bound hd
  have hne : dir ≠ w.vnodes.length + 1 := by omega
  have hfb := deref_some_bound hf
  cases at_leaf <;>
  simp [publish_component, hfind, create_vnode_eq w _ comp f ha hf, vnode_update, kmalloc, ha,
    store_append_new, deref_append_new, deref_store_self, hfb.1, hfb.2, devfs_insert_in_dir,
    deref_append_old, hle, hd, hdir, deref_store_ne, hne, link_new, published_node,
    store_append_old, length_store, deref_store_append_new, store_store_append_new,
    store_store_same, hash_insert, devfs_vnode_hash_func] <;>
  cases f.vnode_list_hash.table[to_uint32 (f.next_vnode_id.tmod ↑f.vnode_list_hash.table.length)]?
    <;> rfl

/-! ## Name resolution is stable when the namespace grows -/

theorem find_in_dir_loop_mono (h : List (Option devfs_vnode)) (path : List Char) :
    ∀ (s s1 v r : Nat), find_in_dir_loop h path s v = some r → s ≤ s1 →
      find_in_dir_loop h path s1 v = some r := by
  intro s
  induction s with
  | zero => intro s1 v r hr; simp [find_in_dir_loop] at hr
  | succ s ih =>
    intro s1 v r hr hle
    obtain ⟨s2, rfl⟩ : ∃ s2, s1 = s2 + 1 := ⟨s1 - 1, by omega⟩
    simp only [find_in_dir_loop] at hr ⊢
    by_cases hv : v = 0
    · simpa [hv] using hr
    · simp only [hv, if_false] at hr ⊢
      cases hd : deref h v with
      | none => simp [hd] at hr
      | some n =>
        simp only [hd] at hr ⊢
        by_cases hn : n.name = path
        · simpa [hn] using hr
        · simp only [hn, if_false] at hr ⊢
          exact ih s2 n.dir_next r hr (by omega)

theorem find_in_dir_loop_agree (h h1 : List (Option devfs_vnode)) (path : List Char)
    (hag : ∀ p n, deref h p = some n →
      ∃ n1, deref h1 p = some n1 ∧ n1.name = n.name ∧ n1.dir_next = n.dir_next) :
    ∀ (s v r : Nat), find_in_dir_loop h path s v = some r →
      find_in_dir_loop h1 path s v = some r := by
  intro s
  induction s with
  | zero => intro v r hr; simp [find_in_dir_loop] at hr
  | succ s ih =>
    intro v r hr
    simp only [find_in_dir_loop] at hr ⊢
    by_cases hv : v = 0
    · simpa [hv] using hr
    · simp only [hv, if_false] at hr ⊢
      cases hd : deref h v with
      | none => simp [hd] at hr
      | some n =>
        obtain ⟨n1, hd1, hname, hnext⟩ := hag v n hd
        simp only [hd, hd1, hname, hnext] at hr ⊢
        by_cases hn : n.name = path
        · simpa [hn] using hr
        · simp only [hn, if_false] at hr ⊢
          exact ih n.dir_next r hr

theorem Extends.refl (w : Kernel) : Extends w w :=
  { node := fun _ n h => ⟨n, h, rfl, rfl, rfl, rfl, rfl, rfl, rfl⟩
    find := fun _ _ _ h _ => h
    dev := rfl
    root := fun f h => ⟨f, h, rfl⟩
    len := Nat.le_refl _ }

theorem Extends.trans {w w1 w2 : Kernel} (h1 : Extends w w1) (h2 : Extends w1 w2) :
    Extends w w2 :=
  { node := by
      intro p n hp
      obtain ⟨n1, hd1, a1, a2, a3, a4, a5, a6, a7⟩ := h1.node p n hp
      obtain ⟨n2, hd2, b1, b2, b3, b4, b5, b6, b7⟩ := h2.node p n1 hd1
      exact ⟨n2, hd2, b1.trans a1, b2.trans a2, b3.trans a3, b4.trans a4, b5.trans a5,
        b6.trans a6, b7.trans a7⟩
    find := fun x name r h hr => h2.find x name r (h1.find x name r h hr) hr
    dev := h2.dev.trans h1.dev
    root := by
      intro f hf
      obtain ⟨f1, hf1, e1⟩ := h1.root f hf
      obtain ⟨f2, hf2, e2⟩ := h2.root f1 hf1
      exact ⟨f2, hf2, e2.trans e1⟩
    len := Nat.le_trans h1.len h2.len }

/-! ## The state after one node has been linked -/

theorem link_new_length (w : Kernel) (dir : Nat) (d : devfs_vnode) (f : devfs) (t : hash_table)
    (node : devfs_vnode) : (link_new w dir d f t node).vnodes.length = w.vnodes.length + 1 := by
  simp [link_new, length_store]

theorem link_new_deref_new (w : Kernel) (dir : Nat) (d : devfs_vnode) (f : devfs)
    (t : hash_table) (node : devfs_vnode) (hd : deref w.vnodes dir = some d) :
    deref (link_new w dir d f t node).vnodes (w.vnodes.length + 1) = some node := by
  obtain ⟨hp, hle⟩ := deref_some_bound hd
  simp [link_new, store_append_old, hle, deref_store_append_new]

theorem link_new_deref_dir (w : Kernel) (dir : Nat) (d : devfs_vnode) (f : devfs)
    (t : hash_table) (node : devfs_vnode) (hd : deref w.vnodes dir = some d) :
    deref (link_new w dir d f t node).vnodes dir =
      some { d with stream := { d.stream with dir_head := w.vnodes.length + 1 } } := by
  obtain ⟨hp, hle⟩ := deref_some_bound hd
  have hlt : dir ≤ (w.vnodes ++ [some node]).length := by simp; omega
  simp only [link_new]
  exact deref_store_self _ _ _ hp hlt

theorem link_new_deref_old (w : Kernel) (dir : Nat) (d : devfs_vnode) (f : devfs)
    (t : hash_table) (node : devfs_vnode) (p : Nat) (hne : p ≠ dir)
    (hle : p ≤ w.vnodes.length) :
    deref (link_new w dir d f t node).vnodes p = deref w.vnodes p := by
  simp only [link_new]
  rw [deref_store_ne _ _ _ _ hne, deref_append_old _ _ _ hle]

theorem link_new_cases (w : Kernel) (dir : Nat) (d : devfs_vnode) (f : devfs) (t : hash_table)
    (node : devfs_vnode) (hd : deref w.vnodes dir = some d) (p : Nat) (n : devfs_vnode)
    (h : deref (link_new w dir d f t node).vnodes p = some n) :
    (p = w.vnodes.length + 1 ∧ n = node) ∨
    (p = dir ∧ n = { d with stream := { d.stream with dir_head := w.vnodes.length + 1 } }) ∨
    (p ≠ dir ∧ deref w.vnodes p = some n) := by
  have hb := deref_some_bound h
  rw [link_new_length] at hb
  by_cases h1 : p = w.vnodes.length + 1
  · left
    subst h1
    rw [link_new_deref_new _ _ _ _ _ _ hd] at h
    exact ⟨rfl, (Option.some.inj h).symm⟩
  · right
    by_cases h2 : p = dir
    · left
      subst h2
      rw [link_new_deref_dir _ _ _ _ _ _ hd] at h
      exact ⟨rfl, (Option.some.inj h).symm⟩
    · right
      rw [link_new_deref_old _ _ _ _ _ _ _ h2 (by omega)] at h
      exact ⟨h2, h⟩

theorem link_new_node (w : Kernel) (dir : Nat) (d : devfs_vnode) (f : devfs) (t : hash_table)
    (node : devfs_vnode) (hd : deref w.vnodes dir = some d) (p : Nat) (n : devfs_vnode)
    (h : deref w.vnodes p = some n) :
    ∃ n1, deref (link_new w dir d f t node).vnodes p = some n1 ∧ n1.name = n.name ∧
      n1.dir_next = n.dir_next ∧ n1.parent = n.parent ∧ n1.id = n.id ∧
      n1.stream.type = n.stream.type ∧ n1.stream.calls = n.stream.calls ∧
      n1.stream.full_name = n.stream.full_name ∧ n1.stream.jar_head = n.stream.jar_head ∧
      (p ≠ dir → n1 = n) := by
  by_cases h2 : p = dir
  · subst h2
    rw [hd] at h
    cases h
    exact ⟨_, link_new_deref_dir _ _ _ _ _ _ hd, rfl, rfl, rfl, rfl, rfl, rfl, rfl, rfl,
      fun hc => absurd rfl hc⟩
  · refine ⟨n, ?_, rfl, rfl, rfl, rfl, rfl, rfl, rfl, rfl, fun _ => rfl⟩
    rw [link_new_deref_old _ _ _ _ _ _ _ h2 (deref_some_bound h).2]
    exact h

theorem link_new_fs (w : Kernel) (dir : Nat) (d : devfs_vnode) (f : devfs) (t : hash_table)
    (node : devfs_vnode) (hf : deref w.fss w.thedevfs = some f) :
    deref (link_new w dir d f t node).fss (link_new w dir d f t node).thedevfs =
      some { f with next_vnode_id := int32_wrap (f.next_vnode_id + 1), vnode_list_hash := t } := by
  obtain ⟨hp, hle⟩ := deref_some_bound hf
  simp only [link_new]
  exact deref_store_self _ _ _ hp hle

theorem find_in_dir_eq_loop (w : Kernel) (x : Nat) (n : devfs_vnode) (name : List Char)
    (hx : deref w.vnodes x = some n) (hdir : n.stream.type = STREAM_TYPE_DIR)
    (h1 : name ≠ ['.']) (h2 : name ≠ ['.', '.']) :
    devfs_find_in_dir w x name =
      find_in_dir_loop w.vnodes name (w.vnodes.length + 1) n.stream.dir_head := by
  simp [devfs_find_in_dir, hx, hdir, h1, h2]

theorem link_new_find_new (w : Kernel) (dir : Nat) (d : devfs_vnode) (f : devfs)
    (t : hash_table) (node : devfs_vnode) (hd : deref w.vnodes dir = some d)
    (hdir : d.stream.type = STREAM_TYPE_DIR) (hpar : d.parent ≠ 0)
    (hfind : devfs_find_in_dir w dir node.name = some 0) :
    devfs_find_in_dir (link_new w dir d f t node) dir node.name =
      some (w.vnodes.length + 1) := by
  obtain ⟨hp, hle⟩ := deref_some_bound hd
  have h1 : node.name ≠ ['.'] := by
    intro hc
    simp [devfs_find_in_dir, hd, hdir, hc] at hfind
    omega
  have h2 : node.name ≠ ['.', '.'] := by
    intro hc
    simp [devfs_find_in_dir, hd, hdir, hc] at hfind
    exact hpar hfind
  rw [find_in_dir_eq_loop _ _ _ _ (link_new_deref_dir _ _ _ _ _ _ hd) hdir h1 h2]
  simp [find_in_dir_loop, link_new_deref_new _ _ _ _ _ _ hd]

theorem link_new_find_old (w : Kernel) (dir : Nat) (d : devfs_vnode) (f : devfs)
    (t : hash_table) (node : devfs_vnode) (hd : deref w.vnodes dir = some d)
    (hnext : node.dir_next = d.stream.dir_head)
    (hfind : devfs_find_in_dir w dir node.name = some 0)
    (x : Nat) (name : List Char) (r : Nat) (h : devfs_find_in_dir w x name = some r)
    (hr : r ≠ 0) : devfs_find_in_dir (link_new w dir d f t node) x name = some r := by
  cases hx : deref w.vnodes x with
  | none => simp [devfs_find_in_dir, hx] at h
  | some n =>
    obtain ⟨n1, hx1, -, -, hpar, -, hty, -, -, -, hsame⟩ :=
      link_new_node w dir d f t node hd x n hx
    have hag : ∀ p m, deref w.vnodes p = some m →
        ∃ m1, deref (link_new w dir d f t node).vnodes p = some m1 ∧ m1.name = m.name ∧
          m1.dir_next = m.dir_next := by
      intro p m hm
      obtain ⟨m1, e1, e2, e3, -⟩ := link_new_node w dir d f t node hd p m hm
      exact ⟨m1, e1, e2, e3⟩
    simp only [devfs_find_in_dir, hx, hx1, hty] at h ⊢
    by_cases hdir : n.stream.type = STREAM_TYPE_DIR
    · simp only [hdir, ne_eq, not_true_eq_false, if_false] at h ⊢
      by_cases h1 : name = ['.']
      · simpa [h1] using h
      · simp only [h1, if_false] at h ⊢
        by_cases h2 : name = ['.', '.']
        · simp only [h2, if_true] at h ⊢
          rw [hpar]; exact h
        · simp only [h2, if_false] at h ⊢
          rw [link_new_length]
          by_cases hxd : x = dir
          · subst hxd
            rw [hd] at hx
            cases hx
            rw [link_new_deref_dir _ _ _ _ _ _ hd] at hx1
            cases hx1
            have hname : node.name ≠ name := by
              intro hc
              rw [hc] at hfind
              simp only [devfs_find_in_dir, hd, hdir, ne_eq, not_true_eq_false, if_false, h1,
                h2] at hfind
              rw [hfind] at h
              exact hr (Option.some.inj h).symm
            simp only [find_in_dir_loop, Nat.add_one_ne_zero, if_false,
              link_new_deref_new _ _ _ _ _ _ hd, hname, hnext]
            exact find_in_dir_loop_agree _ _ _ hag _ _ _ h
          · rw [hsame hxd]
            exact find_in_dir_loop_mono _ _ _ _ _ _
              (find_in_dir_loop_agree _ _ _ hag _ _ _ h) (by omega)
    · simp [hdir] at h
      exact absurd h.symm hr

theorem link_new_extends (w : Kernel) (dir : Nat) (d : devfs_vnode) (f : devfs)
    (t : hash_table) (node : devfs_vnode) (hd : deref w.vnodes dir = some d)
    (hf : deref w.fss w.thedevfs = some f)
    (hnext : node.dir_next = d.stream.dir_head)
    (hfind : devfs_find_in_dir w dir node.name = some 0) :
    Extends w (link_new w dir d f t node) :=
  { node := by
      intro p n hp
      obtain ⟨n1, e0, e1, e2, e3, e4, e5, e6, e7, -⟩ := link_new_node w dir d f t node hd p n hp
      exact ⟨n1, e0, e1, e2, e3, e4, e5, e6, e7⟩
    find := link_new_find_old w dir d f t node hd hnext hfind
    dev := rfl
    root := by
      intro f0 hf0
      rw [hf] at hf0
      cases hf0
      exact ⟨_, link_new_fs w dir d f t node hf, rfl⟩
    len := by rw [link_new_length]; omega }

theorem link_new_tree (w : Kernel) (dir : Nat) (d : devfs_vnode) (f : devfs) (t : hash_table)
    (node : devfs_vnode) (hw : TreeInv w) (hd : deref w.vnodes dir = some d)
    (hdir : d.stream.type = STREAM_TYPE_DIR) (hf : deref w.fss w.thedevfs = some f)
    (hpar : node.parent = dir) (hnext : node.dir_next = d.stream.dir_head)
    (hhead : node.stream.dir_head = 0) : TreeInv (link_new w dir d f t node) := by
  have hnode := link_new_node w dir d f t node hd
  have hcases := link_new_cases w dir d f t node hd
  have hdir1 := link_new_deref_dir w dir d f t node hd
  have hnew := link_new_deref_new w dir d f t node hd
  refine ⟨hw.avail, ?_, ?_, ?_, ?_⟩
  · obtain ⟨f0, r, hf0, hr, hrt, hrp⟩ := hw.fs
    rw [hf] at hf0
    cases hf0
    obtain ⟨r1, hr1, -, -, e3, -, e5, -⟩ := hnode _ r hr
    exact ⟨_, r1, link_new_fs w dir d f t node hf, hr1, e5.trans hrt, e3.trans hrp⟩
  · intro p n hp
    rcases hcases p n hp with ⟨-, rfl⟩ | ⟨-, rfl⟩ | ⟨-, hold⟩
    · rw [hpar]
      exact ⟨_, hdir1, hdir⟩
    · obtain ⟨dd, hdd, hddt⟩ := hw.parent dir d hd
      obtain ⟨d1, hd1, -, -, -, -, e5, -⟩ := hnode _ dd hdd
      exact ⟨d1, hd1, e5.trans hddt⟩
    · obtain ⟨dd, hdd, hddt⟩ := hw.parent p n hold
      obtain ⟨d1, hd1, -, -, -, -, e5, -⟩ := hnode _ dd hdd
      exact ⟨d1, hd1, e5.trans hddt⟩
  · intro p n hp hty hne
    rcases hcases p n hp with ⟨-, rfl⟩ | ⟨rfl, rfl⟩ | ⟨-, hold⟩
    · exact absurd hhead hne
    · exact ⟨node, hnew, hpar⟩
    · obtain ⟨c, hc, hcp⟩ := hw.head p n hold hty hne
      obtain ⟨c1, hc1, -, -, e3, -⟩ := hnode _ c hc
      exact ⟨c1, hc1, e3.trans hcp⟩
  · intro p n hp hne
    rcases hcases p n hp with ⟨-, rfl⟩ | ⟨-, rfl⟩ | ⟨-, hold⟩
    · rw [hnext] at hne ⊢
      obtain ⟨c, hc, hcp⟩ := hw.head dir d hd hdir hne
      obtain ⟨c1, hc1, -, -, e3, -⟩ := hnode _ c hc
      exact ⟨c1, hc1, by rw [e3, hcp, hpar]⟩
    · obtain ⟨c, hc, hcp⟩ := hw.next dir d hd hne
      obtain ⟨c1, hc1, -, -, e3, -⟩ := hnode _ c hc
      exact ⟨c1, hc1, e3.trans hcp⟩
    · obtain ⟨c, hc, hcp⟩ := hw.next p n hold hne
      obtain ⟨c1, hc1, -, -, e3, -⟩ := hnode _ c hc
      exact ⟨c1, hc1, e3.trans hcp⟩

theorem published_node_stream_head (f : devfs) (dir : Nat) (d : devfs_vnode) (comp : List Char)
    (at_leaf : Bool) (path : List Char) (calls : Nat) :
    (published_node f dir d comp at_leaf path calls).stream.dir_head = 0 := by
  cases at_leaf <;> rfl

/-- What one pass through the body of the publish loop does in a mounted state, `dir` being a
directory: either the component is found (the state is unchanged; the loop goes on below it when
it is a directory and the component is not the last one, else the call fails with
`ERR_VFS_ALREADY_EXISTS`), or it is not found and a node is created and linked. -/
theorem publish_component_spec (w w1 : Kernel) (dir : Nat) (comp : List Char) (at_leaf : Bool)
    (path : List Char) (calls : Nat) (d : devfs_vnode) (r : Nat ⊕ retcode)
    (hw : TreeInv w) (hd : deref w.vnodes dir = some d)
    (hdir : d.stream.type = STREAM_TYPE_DIR)
    (h : publish_component w dir comp at_leaf path calls = some (w1, r)) :
    (∃ v, v ≠ 0 ∧ devfs_find_in_dir w dir comp = some v ∧ w1 = w ∧
      ((r = Sum.inr retcode.ERR_VFS_ALREADY_EXISTS ∧
          (at_leaf = true ∨ ∃ n, deref w.vnodes v = some n ∧
            n.stream.type ≠ STREAM_TYPE_DIR)) ∨
       (r = Sum.inl v ∧ at_leaf = false ∧ ∃ n, deref w.vnodes v = some n ∧
          n.stream.type = STREAM_TYPE_DIR))) ∨
    (devfs_find_in_dir w dir comp = some 0 ∧ r = Sum.inl (w.vnodes.length + 1) ∧
      ∃ f t, deref w.fss w.thedevfs = some f ∧
        hash_insert f.vnode_list_hash (w.vnodes.length + 1)
          (published_node f dir d comp at_leaf path calls) = some t ∧
        w1 = link_new w dir d f t (published_node f dir d comp at_leaf path calls)) := by
  cases hfind : devfs_find_in_dir w dir comp with
  | none => simp [publish_component, hfind] at h
  | some found =>
    by_cases hz : found = 0
    · subst hz
      right
      obtain ⟨f, r0, hf, -⟩ := hw.fs
      rw [publish_component_new w dir comp at_leaf path calls d f hw.avail hd hdir hf hfind] at h
      cases ht : hash_insert f.vnode_list_hash (w.vnodes.length + 1)
          (published_node f dir d comp at_leaf path calls) with
      | none => simp [ht] at h
      | some t =>
        simp only [ht, Option.map_some', Option.some.injEq, Prod.mk.injEq] at h
        exact ⟨rfl, h.2.symm, f, t, hf, ht, h.1.symm⟩
    · left
      refine ⟨found, hz, rfl, ?_⟩
      simp only [publish_component, hfind, ne_eq, hz, not_false_eq_true, if_true] at h
      cases at_leaf with
      | true =>
        simp only [if_true, Option.some.injEq, Prod.mk.injEq] at h
        exact ⟨h.1.symm, Or.inl ⟨h.2.symm, Or.inl rfl⟩⟩
      | false =>
        simp only [Bool.false_eq_true, if_false] at h
        cases hn : deref w.vnodes found with
        | none => simp [hn] at h
        | some n =>
          simp only [hn] at h
          by_cases hty : n.stream.type = STREAM_TYPE_DIR
          · simp only [hty, if_true, Option.some.injEq, Prod.mk.injEq] at h
            exact ⟨h.1.symm, Or.inr ⟨h.2.symm, rfl, n, rfl, hty⟩⟩
          · simp only [hty, if_false, Option.some.injEq, Prod.mk.injEq] at h
            exact ⟨h.1.symm, Or.inl ⟨h.2.symm, Or.inr ⟨n, rfl, hty⟩⟩⟩

theorem publish_component_inv (w w1 : Kernel) (dir : Nat) (comp : List Char) (at_leaf : Bool)
    (path : List Char) (calls : Nat) (d : devfs_vnode) (r : Nat ⊕ retcode)
    (hw : TreeInv w) (hd : deref w.vnodes dir = some d)
    (hdir : d.stream.type = STREAM_TYPE_DIR)
    (h : publish_component w dir comp at_leaf path calls = some (w1, r)) :
    TreeInv w1 ∧ Extends w w1 := by
  rcases publish_component_spec w w1 dir comp at_leaf path calls d r hw hd hdir h with
    ⟨v, -, -, rfl, -⟩ | ⟨hfind, -, f, t, hf, -, rfl⟩
  · exact ⟨hw, Extends.refl _⟩
  · exact ⟨link_new_tree w dir d f t _ hw hd hdir hf rfl rfl (published_node_stream_head ..),
      link_new_extends w dir d f t _ hd hf rfl hfind⟩

theorem publish_component_inl (w w1 : Kernel) (dir : Nat) (comp : List Char) (at_leaf : Bool)
    (path : List Char) (calls : Nat) (d : devfs_vnode) (v : Nat)
    (hw : TreeInv w) (hd : deref w.vnodes dir = some d)
    (hdir : d.stream.type = STREAM_TYPE_DIR)
    (h : publish_component w dir comp at_leaf path calls = some (w1, Sum.inl v)) :
    v ≠ 0 ∧ devfs_find_in_dir w1 dir comp = some v ∧
      ∃ n, deref w1.vnodes v = some n ∧
        (at_leaf = false → n.stream.type = STREAM_TYPE_DIR) ∧
        (at_leaf = true → n.stream.type = STREAM_TYPE_DEVICE ∧ n.stream.calls = calls ∧
          n.stream.full_name = some path) := by
  rcases publish_component_spec w w1 dir comp at_leaf path calls d _ hw hd hdir h with
    ⟨v1, hv1, hfind, rfl, ⟨hr, -⟩ | ⟨hr, hleaf, n, hn, hty⟩⟩ | ⟨hfind, hr, f, t, hf, -, rfl⟩
  · cases hr
  · cases hr
    exact ⟨hv1, hfind, n, hn, fun _ => hty, fun hc => by rw [hleaf] at hc; cases hc⟩
  · cases hr
    obtain ⟨dd, hdd, -⟩ := hw.parent dir d hd
    refine ⟨Nat.succ_ne_zero _, ?_, _, link_new_deref_new _ _ _ _ _ _ hd, ?_, ?_⟩
    · exact link_new_find_new w dir d f t (published_node f dir d comp at_leaf path calls) hd hdir
        (deref_some_bound hdd).1.ne' hfind
    · intro hl; subst hl; rfl
    · intro hl; subst hl; exact ⟨rfl, rfl, rfl⟩

theorem publish_component_inr (w w1 : Kernel) (dir : Nat) (comp : List Char) (at_leaf : Bool)
    (path : List Char) (calls : Nat) (d : devfs_vnode) (e : retcode)
    (hw : TreeInv w) (hd : deref w.vnodes dir = some d)
    (hdir : d.stream.type = STREAM_TYPE_DIR)
    (h : publish_component w dir comp at_leaf path calls = some (w1, Sum.inr e)) :
    e = retcode.ERR_VFS_ALREADY_EXISTS ∧ w1 = w ∧
      ∃ v, v ≠ 0 ∧ devfs_find_in_dir w dir comp = some v ∧
        (at_leaf = true ∨ ∃ n, deref w.vnodes v = some n ∧ n.stream.type ≠ STREAM_TYPE_DIR) := by
  rcases publish_component_spec w w1 dir comp at_leaf path calls d _ hw hd hdir h with
    ⟨v1, hv1, hfind, rfl, ⟨hr, hcase⟩ | ⟨hr, -⟩⟩ | ⟨-, hr, -⟩
  · cases hr
    exact ⟨rfl, rfl, v1, hv1, hfind, hcase⟩
  · cases hr
  · cases hr

/-- A component that is found makes the loop body fail at the leaf, and below a non-directory. -/
theorem publish_component_found (w : Kernel) (dir : Nat) (comp : List Char) (at_leaf : Bool)
    (path : List Char) (calls : Nat) (v : Nat) (hv : v ≠ 0)
    (hfind : devfs_find_in_dir w dir comp = some v)
    (hcase : at_leaf = true ∨ ∃ n, deref w.vnodes v = some n ∧
      n.stream.type ≠ STREAM_TYPE_DIR) :
    publish_component w dir comp at_leaf path calls =
      some (w, Sum.inr retcode.ERR_VFS_ALREADY_EXISTS) := by
  rcases hcase with hl | ⟨n, hn, hty⟩
  · simp [publish_component, hfind, hv, hl]
  · cases at_leaf <;> simp [publish_component, hfind, hv, hn, hty]

/-- A component that is found as a directory, and is not the last one, makes the loop go on
below it. -/
theorem publish_component_found_dir (w : Kernel) (dir : Nat) (comp : List Char)
    (path : List Char) (calls : Nat) (v : Nat) (n : devfs_vnode)
    (hfind : devfs_find_in_dir w dir comp = some v) (hn : deref w.vnodes v = some n)
    (hty : n.stream.type = STREAM_TYPE_DIR) :
    publish_component w dir comp false path calls = some (w, Sum.inl v) := by
  have hv : v ≠ 0 := (deref_some_bound hn).1.ne'
  simp [publish_component, hfind, hv, hn, hty]

/-! ## The publish loop, component by component -/

theorem publish_comps_inv (path : List Char) (calls : Nat) :
    ∀ (cs : List (List Char)) (w w1 : Kernel) (dir : Nat) (d : devfs_vnode) (e : retcode),
      TreeInv w → deref w.vnodes dir = some d → d.stream.type = STREAM_TYPE_DIR →
      publish_comps path calls cs dir w = some (w1, e) → TreeInv w1 ∧ Extends w w1 := by
  intro cs
  induction cs with
  | nil => intro w w1 dir d e _ _ _ h; simp [publish_comps] at h
  | cons c cs ih =>
    intro w w1 dir d e hw hd hdir h
    cases cs with
    | nil =>
      simp only [publish_comps] at h
      cases hc : publish_component w dir c true path calls with
      | none => simp [hc] at h
      | some res =>
        obtain ⟨w2, r⟩ := res
        have hinv := publish_component_inv w w2 dir c true path calls d r hw hd hdir hc
        cases r <;> simp only [hc, Option.some.injEq, Prod.mk.injEq] at h <;>
          (obtain ⟨rfl, -⟩ := h; exact hinv)
    | cons c2 cs2 =>
      simp only [publish_comps] at h
      cases hc : publish_component w dir c false path calls with
      | none => simp [hc] at h
      | some res =>
        obtain ⟨w2, r⟩ := res
        have hinv := publish_component_inv w w2 dir c false path calls d r hw hd hdir hc
        cases r with
        | inl v =>
          simp only [hc] at h
          obtain ⟨-, -, n, hn, hty, -⟩ :=
            publish_component_inl w w2 dir c false path calls d v hw hd hdir hc
          obtain ⟨h1, h2⟩ := ih w2 w1 v n e hinv.1 hn (hty rfl) h
          exact ⟨h1, hinv.2.trans h2⟩
        | inr err =>
          simp only [hc, Option.some.injEq, Prod.mk.injEq] at h
          obtain ⟨rfl, -⟩ := h
          exact hinv

theorem resolves_extends (calls : Nat) (full : List Char) :
    ∀ (cs : List (List Char)) (w w1 : Kernel) (dir : Nat), Extends w w1 →
      resolves_to_device w calls full dir cs = true →
      resolves_to_device w1 calls full dir cs = true := by
  intro cs
  induction cs with
  | nil => intro w w1 dir _ h; simp [resolves_to_device] at h
  | cons c cs ih =>
    intro w w1 dir hex h
    simp only [resolves_to_device] at h ⊢
    cases hf : devfs_find_in_dir w dir c with
    | none => simp [hf] at h
    | some v =>
      simp only [hf] at h
      cases hn : deref w.vnodes v with
      | none => simp [hn] at h
      | some n =>
        simp only [hn] at h
        have hv : v ≠ 0 := (deref_some_bound hn).1.ne'
        obtain ⟨n1, hn1, -, -, -, -, e5, e6, e7⟩ := hex.node v n hn
        simp only [hex.find dir c v hf hv, hn1]
        cases cs with
        | nil => simpa [e5, e6, e7] using h
        | cons c2 cs2 =>
          simp only [Bool.and_eq_true, decide_eq_true_eq] at h ⊢
          exact ⟨e5.trans h.1, ih w w1 v hex h.2⟩

theorem publish_comps_resolves (path : List Char) (calls : Nat) :
    ∀ (cs : List (List Char)) (w w1 : Kernel) (dir : Nat) (d : devfs_vnode),
      TreeInv w → deref w.vnodes dir = some d → d.stream.type = STREAM_TYPE_DIR →
      publish_comps path calls cs dir w = some (w1, retcode.num 0) →
      resolves_to_device w1 calls path dir cs = true := by
  intro cs
  induction cs with
  | nil => intro w w1 dir d _ _ _ h; simp [publish_comps] at h
  | cons c cs ih =>
    intro w w1 dir d hw hd hdir h
    cases cs with
    | nil =>
      simp only [publish_comps] at h
      cases hc : publish_component w dir c true path calls with
      | none => simp [hc] at h
      | some res =>
        obtain ⟨w2, r⟩ := res
        cases r with
        | inl v =>
          simp only [hc, Option.some.injEq, Prod.mk.injEq, and_true] at h
          subst h
          obtain ⟨-, hfind, n, hn, -, hdev⟩ :=
            publish_component_inl w w2 dir c true path calls d v hw hd hdir hc
          obtain ⟨h1, h2, h3⟩ := hdev rfl
          simp [resolves_to_device, hfind, hn, h1, h2, h3]
        | inr err =>
          simp only [hc, Option.some.injEq, Prod.mk.injEq] at h
          obtain ⟨-, rfl⟩ := h
          obtain ⟨he, -⟩ := publish_component_inr w w2 dir c true path calls d _ hw hd hdir hc
          cases he
    | cons c2 cs2 =>
      simp only [publish_comps] at h
      cases hc : publish_component w dir c false path calls with
      | none => simp [hc] at h
      | some res =>
        obtain ⟨w2, r⟩ := res
        have hinv := publish_component_inv w w2 dir c false path calls d r hw hd hdir hc
        cases r with
        | inl v =>
          simp only [hc] at h
          obtain ⟨hv, hfind, n, hn, hty, -⟩ :=
            publish_component_inl w w2 dir c false path calls d v hw hd hdir hc
          have hrest := ih w2 w1 v n hinv.1 hn (hty rfl) h
          obtain ⟨-, hex⟩ := publish_comps_inv path calls (c2 :: cs2) w2 w1 v n _ hinv.1 hn
            (hty rfl) h
          obtain ⟨n1, hn1, -, -, -, -, e5, -⟩ := hex.node v n hn
          simp only [resolves_to_device, hex.find dir c v hfind hv, hn1, Bool.and_eq_true,
            decide_eq_true_eq]
          exact ⟨e5.trans (hty rfl), hrest⟩
        | inr err =>
          simp only [hc, Option.some.injEq, Prod.mk.injEq] at h
          obtain ⟨-, rfl⟩ := h
          obtain ⟨he, -⟩ := publish_component_inr w w2 dir c false path calls d _ hw hd hdir hc
          cases he

theorem publish_comps_again (path : List Char) (calls : Nat) (path2 : List Char) (calls2 : Nat) :
    ∀ (cs : List (List Char)) (w w1 : Kernel) (dir : Nat) (d : devfs_vnode) (e : retcode),
      TreeInv w → deref w.vnodes dir = some d → d.stream.type = STREAM_TYPE_DIR →
      publish_comps path calls cs dir w = some (w1, e) →
      publish_comps path2 calls2 cs dir w1 = some (w1, retcode.ERR_VFS_ALREADY_EXISTS) := by
  intro cs
  induction cs with
  | nil => intro w w1 dir d e _ _ _ h; simp [publish_comps] at h
  | cons c cs ih =>
    intro w w1 dir d e hw hd hdir h
    cases cs with
    | nil =>
      simp only [publish_comps] at h ⊢
      cases hc : publish_component w dir c true path calls with
      | none => simp [hc] at h
      | some res =>
        obtain ⟨w2, r⟩ := res
        cases r with
        | inl v =>
          simp only [hc, Option.some.injEq, Prod.mk.injEq] at h
          obtain ⟨rfl, -⟩ := h
          obtain ⟨hv, hfind, -⟩ :=
            publish_component_inl w w2 dir c true path calls d v hw hd hdir hc
          rw [publish_component_found w2 dir c true path2 calls2 v hv hfind (Or.inl rfl)]
        | inr err =>
          simp only [hc, Option.some.injEq, Prod.mk.injEq] at h
          obtain ⟨rfl, -⟩ := h
          obtain ⟨-, rfl, v, hv, hfind, hcase⟩ :=
            publish_component_inr w w2 dir c true path calls d _ hw hd hdir hc
          rw [publish_component_found w2 dir c true path2 calls2 v hv hfind hcase]
    | cons c2 cs2 =>
      simp only [publish_comps] at h ⊢
      cases hc : publish_component w dir c false path calls with
      | none => simp [hc] at h
      | some res =>
        obtain ⟨w2, r⟩ := res
        have hinv := publish_component_inv w w2 dir c false path calls d r hw hd hdir hc
        cases r with
        | inl v =>
          simp only [hc] at h
          obtain ⟨hv, hfind, n, hn, hty, -⟩ :=
            publish_component_inl w w2 dir c false path calls d v hw hd hdir hc
          have hrest := ih w2 w1 v n e hinv.1 hn (hty rfl) h
          obtain ⟨-, hex⟩ := publish_comps_inv path calls (c2 :: cs2) w2 w1 v n _ hinv.1 hn
            (hty rfl) h
          obtain ⟨n1, hn1, -, -, -, -, e5, -⟩ := hex.node v n hn
          rw [publish_component_found_dir w1 dir c path2 calls2 v n1
            (hex.find dir c v hfind hv) hn1 (e5.trans (hty rfl))]
          exact hrest
        | inr err =>
          simp only [hc, Option.some.injEq, Prod.mk.injEq] at h
          obtain ⟨rfl, -⟩ := h
          obtain ⟨-, rfl, v, hv, hfind, hcase⟩ :=
            publish_component_inr w w2 dir c false path calls d _ hw hd hdir hc
          rw [publish_component_found w2 dir c false path2 calls2 v hv hfind hcase]

theorem publish_comps_of_resolves (calls : Nat) (full : List Char) (path2 : List Char)
    (calls2 : Nat) :
    ∀ (cs1 cs2 : List (List Char)) (w : Kernel) (dir : Nat), cs1 ≠ [] →
      resolves_to_device w calls full dir (cs1 ++ cs2) = true →
      publish_comps path2 calls2 cs1 dir w = some (w, retcode.ERR_VFS_ALREADY_EXISTS) := by
  intro cs1
  induction cs1 with
  | nil => intro cs2 w dir hne; exact absurd rfl hne
  | cons c cs ih =>
    intro cs2 w dir _ h
    simp only [List.cons_append, resolves_to_device] at h
    cases hf : devfs_find_in_dir w dir c with
    | none => simp [hf] at h
    | some v =>
      simp only [hf] at h
      cases hn : deref w.vnodes v with
      | none => simp [hn] at h
      | some n =>
        simp only [hn] at h
        have hv : v ≠ 0 := (deref_some_bound hn).1.ne'
        cases cs with
        | nil =>
          simp only [publish_comps]
          rw [publish_component_found w dir c true path2 calls2 v hv hf (Or.inl rfl)]
        | cons c2 cs3 =>
          simp only [List.append_eq, List.cons_append, Bool.and_eq_true, decide_eq_true_eq] at h
          simp only [publish_comps]
          rw [publish_component_found_dir w dir c path2 calls2 v n hf hn h.1]
          exact ih cs2 w v (List.cons_ne_nil _ _) h.2

theorem path_components_from_ne_nil :
    ∀ (rest comp : List Char), path_components_from comp rest ≠ [] := by
  intro rest
  induction rest with
  | nil => intro comp; simp [path_components_from]
  | cons c rest ih =>
    intro comp
    simp only [path_components_from]
    split
    · exact List.cons_ne_nil _ _
    · exact ih _

theorem publish_comps_cons_cons (path : List Char) (calls : Nat) (c c2 : List Char)
    (cs : List (List Char)) (dir : Nat) (w : Kernel) :
    publish_comps path calls (c :: c2 :: cs) dir w =
      match publish_component w dir c false path calls with
      | none => none
      | some (w1, Sum.inl v) => publish_comps path calls (c2 :: cs) v w1
      | some (w1, Sum.inr err) => some (w1, err) := rfl

theorem publish_loop_eq_comps (path : List Char) (calls : Nat) :
    ∀ (rest comp : List Char) (dir : Nat) (w : Kernel),
      publish_loop path calls rest comp dir w =
        publish_comps path calls (path_components_from comp rest) dir w := by
  intro rest
  induction rest with
  | nil => intro comp dir w; simp [publish_loop, path_components_from, publish_comps]
  | cons c rest ih =>
    intro comp dir w
    simp only [publish_loop, path_components_from]
    by_cases hc : c = '/'
    · simp only [hc, if_true]
      cases hrest : path_components_from [] rest with
      | nil => exact absurd hrest (path_components_from_ne_nil _ _)
      | cons c2 cs2 =>
        rw [publish_comps_cons_cons]
        cases hpc : publish_component w dir comp false path calls with
        | none => rfl
        | some res =>
          obtain ⟨w1, r⟩ := res
          cases r with
          | inl v => simp only [ih, hrest]
          | inr e => rfl
    · simp only [hc, if_false]
      exact ih _ _ _

theorem publish_device_eq_comps (maxlen : Nat) (w : Kernel) (path : List Char) (calls : Nat)
    (f : devfs) (hf : deref w.fss w.thedevfs = some f) :
    devfs_publish_device maxlen w path calls =
      publish_comps path calls (path_components (path.take maxlen)) f.root_vnode w := by
  have hne : w.thedevfs ≠ 0 := (deref_some_bound hf).1.ne'
  simp [devfs_publish_device, hne, hf, publish_loop_eq_comps, path_components]

theorem publish_device_inv (maxlen : Nat) (w w1 : Kernel) (path : List Char) (calls : Nat)
    (e : retcode) (hw : TreeInv w)
    (h : devfs_publish_device maxlen w path calls = some (w1, e)) :
    TreeInv w1 ∧ Extends w w1 := by
  obtain ⟨f, r, hf, hr, hty, -⟩ := hw.fs
  rw [publish_device_eq_comps maxlen w path calls f hf] at h
  exact publish_comps_inv path calls _ w w1 _ r e hw hr hty h

/-! ## Mount -/

theorem int32_wrap_one : int32_wrap 1 = 1 := by decide

theorem to_uint32_zero : to_uint32 0 = 0 := by decide

theorem devfs_mount_eq (w : Kernel) (id : Nat) (h0 : w.thedevfs = 0)
    (ha : w.heap_avail = none) :
    devfs_mount w id = some (mounted w id, retcode.num 0, some (w.fss.length + 1, 0)) := by
  have hr : (hash_init BOOTFS_HASH_SIZE).table =
      [] :: List.replicate (BOOTFS_HASH_SIZE - 1) [] := by decide
  simp [devfs_mount, h0, kmalloc, ha, fs_update, deref_append_new, store_append_new,
    create_vnode_eq, vnode_update, hash_insert, devfs_vnode_hash_func, hr, mounted,
    root_node, int32_wrap_one, to_uint32_zero]

theorem deref_singleton {α : Type} (x : Option α) (p : Nat) (n : α)
    (h : deref [x] p = some n) : p = 1 ∧ x = some n := by
  have hb := deref_some_bound h
  simp only [List.length_singleton] at hb
  have : p = 1 := by omega
  subst this
  exact ⟨rfl, by simpa [deref] using h⟩

theorem mounted_boot_tree (id : Nat) : TreeInv (mounted (boot none) id) := by
  have hroot : deref (mounted (boot none) id).vnodes 1 = some (root_node 1) := rfl
  have hall : ∀ p n, deref (mounted (boot none) id).vnodes p = some n →
      p = 1 ∧ n = root_node 1 := by
    intro p n hp
    obtain ⟨h1, h2⟩ := deref_singleton _ p n hp
    exact ⟨h1, (Option.some.inj h2).symm⟩
  refine ⟨rfl, ⟨_, root_node 1, rfl, hroot, rfl, rfl⟩, ?_, ?_, ?_⟩
  · intro p n hp
    obtain ⟨-, rfl⟩ := hall p n hp
    exact ⟨root_node 1, hroot, rfl⟩
  · intro p n hp _ hne
    obtain ⟨-, rfl⟩ := hall p n hp
    exact absurd rfl hne
  · intro p n hp hne
    obtain ⟨-, rfl⟩ := hall p n hp
    exact absurd rfl hne

theorem mount_boot_result (id : Nat) (w : Kernel) (out : Option (Nat × Int))
    (h : devfs_mount (boot none) id = some (w, retcode.num 0, out)) :
    w = mounted (boot none) id := by
  rw [devfs_mount_eq (boot none) id rfl rfl] at h
  simp only [Option.some.injEq, Prod.mk.injEq] at h
  exact h.1.symm

theorem reachable_tree (maxlen : Nat) (w : Kernel) (h : Reachable maxlen w) : TreeInv w := by
  induction h with
  | mount id w out hm =>
    rw [mount_boot_result id w out hm]
    exact mounted_boot_tree id
  | publish w w1 path calls err _ hp ih => exact (publish_device_inv maxlen w w1 path calls err ih hp).1

theorem publish_steps_inv (maxlen : Nat) (w w1 : Kernel) (hw : TreeInv w)
    (h : PublishSteps maxlen w w1) : TreeInv w1 ∧ Extends w w1 := by
  induction h with
  | refl => exact ⟨hw, Extends.refl _⟩
  | step w1 w2 path calls err _ hp ih =>
    obtain ⟨h1, h2⟩ := publish_device_inv maxlen w1 w2 path calls err ih.1 hp
    exact ⟨h1, ih.2.trans h2⟩

theorem devfs_root_eq (w : Kernel) (f : devfs) (hf : deref w.fss w.thedevfs = some f) :
    devfs_root w = f.root_vnode := by
  simp [devfs_root, hf]

theorem extends_root (w w1 : Kernel) (hw : TreeInv w) (hex : Extends w w1) :
    devfs_root w1 = devfs_root w := by
  obtain ⟨f, r, hf, -⟩ := hw.fs
  obtain ⟨f1, hf1, e⟩ := hex.root f hf
  rw [devfs_root_eq w f hf, devfs_root_eq w1 f1 hf1, e]

theorem path_components_from_append :
    ∀ (q comp r : List Char),
      path_components_from comp (q ++ '/' :: r) =
        path_components_from comp q ++ path_components_from [] r := by
  intro q
  induction q with
  | nil => intro comp r; simp [path_components_from]
  | cons c q ih =>
    intro comp r
    simp only [List.cons_append, path_components_from]
    split
    · simp [ih]
    · exact ih _ _

theorem child_list_parent (w : Kernel) (hw : TreeInv w) (par : Nat) :
    ∀ (s v : Nat), (∀ n, deref w.vnodes v = some n → n.parent = par) →
      ∀ c ∈ child_list_from w.vnodes s v, ∃ n, deref w.vnodes c = some n ∧ n.parent = par := by
  intro s
  induction s with
  | zero => intro v _ c hc; simp [child_list_from] at hc
  | succ s ih =>
    intro v hv c hc
    simp only [child_list_from] at hc
    by_cases hz : v = 0
    · simp [hz] at hc
    · simp only [hz, if_false] at hc
      cases hn : deref w.vnodes v with
      | none => simp [hn] at hc
      | some n =>
        simp only [hn, List.mem_cons] at hc
        rcases hc with rfl | hc
        · exact ⟨n, hn, hv n hn⟩
        · refine ih n.dir_next ?_ c hc
          intro m hm
          obtain ⟨m1, hm1, hpar⟩ := hw.next v n hn (deref_some_bound hm).1.ne'
          rw [hm] at hm1
          cases hm1
          rw [hpar, hv n hn]

/-! ## Properties of the publish protocol -/

theorem demo_mounted_reachable : Reachable 512 demo_mounted :=
  Reachable.mount 0 demo_mounted (some (1, 0)) (devfs_mount_eq (boot none) 0 rfl rfl)

theorem demo_net_publish :
    devfs_publish_device 512 demo_mounted rtl8139_path 99 = some (demo_net, retcode.num 0) := by
  rfl

/-- C1: in a state reached from mount by publishes, when `devfs_publish_device(path, T)` returns
success for a path of at most `SYS_MAX_PATH_LEN` characters, then resolving the '/'-separated
components of `path` from the root with `devfs_find_in_dir` yields a directory node for every
component but the last and, for the last, a device node bound to `T` whose stored full name is
`path`. -/
theorem publish_device_resolves (maxlen : Nat) (w w1 : Kernel) (path : List Char) (calls : Nat)
    (hw : Reachable maxlen w) (hlen : path.length ≤ maxlen)
    (h : devfs_publish_device maxlen w path calls = some (w1, retcode.num 0)) :
    resolves_to_device w1 calls path (devfs_root w1) (path_components path) = true := by
  have ht := reachable_tree maxlen w hw
  obtain ⟨f, r, hf, hr, hty, -⟩ := ht.fs
  obtain ⟨-, hex⟩ := publish_device_inv maxlen w w1 path calls _ ht h
  rw [publish_device_eq_comps maxlen w path calls f hf, List.take_of_length_le hlen] at h
  rw [extends_root w w1 ht hex, devfs_root_eq w f hf]
  exact publish_comps_resolves path calls _ w w1 _ r ht hr hty h

/-- C1, witness: after `publish("net/rtl8139/0", 99)` in a freshly mounted instance, "net" and
"rtl8139" resolve to directories and "0" to a device bound to the table `99`. -/
theorem publish_device_resolves_witness :
    Reachable 512 demo_mounted ∧ rtl8139_path.length ≤ 512 ∧
    devfs_publish_device 512 demo_mounted rtl8139_path 99 = some (demo_net, retcode.num 0) ∧
    resolves_to_device demo_net 99 rtl8139_path (devfs_root demo_net)
      (path_components rtl8139_path) = true :=
  ⟨demo_mounted_reachable, by decide, demo_net_publish,
    publish_device_resolves 512 demo_mounted demo_net rtl8139_path 99 demo_mounted_reachable
      (by decide) demo_net_publish⟩

/-- C2: in a state reached from mount by publishes, after a call
`devfs_publish_device(path, T1)` has returned, the call `devfs_publish_device(path, T2)` returns
`ERR_VFS_ALREADY_EXISTS` and leaves the whole kernel state as it was: the same index, child
lists, id counter and nodes (so a device published by the first call is still bound to `T1`). -/
theorem publish_device_twice (maxlen : Nat) (w w1 : Kernel) (path : List Char)
    (calls1 calls2 : Nat) (e : retcode) (hw : Reachable maxlen w)
    (h : devfs_publish_device maxlen w path calls1 = some (w1, e)) :
    devfs_publish_device maxlen w1 path calls2 =
      some (w1, retcode.ERR_VFS_ALREADY_EXISTS) := by
  have ht := reachable_tree maxlen w hw
  obtain ⟨f, r, hf, hr, hty, -⟩ := ht.fs
  obtain ⟨-, hex⟩ := publish_device_inv maxlen w w1 path calls1 _ ht h
  obtain ⟨f1, hf1, hroot⟩ := hex.root f hf
  rw [publish_device_eq_comps maxlen w path calls1 f hf] at h
  rw [publish_device_eq_comps maxlen w1 path calls2 f1 hf1, hroot]
  exact publish_comps_again path calls1 path calls2 _ w w1 _ r e ht hr hty h

/-- C2, witness: a second `publish("net/rtl8139/0", 98)` returns `ERR_VFS_ALREADY_EXISTS` and
changes nothing. -/
theorem publish_device_twice_witness :
    Reachable 512 demo_mounted ∧
    devfs_publish_device 512 demo_mounted rtl8139_path 99 = some (demo_net, retcode.num 0) ∧
    devfs_publish_device 512 demo_net rtl8139_path 98 =
      some (demo_net, retcode.ERR_VFS_ALREADY_EXISTS) :=
  ⟨demo_mounted_reachable, demo_net_publish,
    publish_device_twice 512 demo_mounted demo_net rtl8139_path 99 98 _ demo_mounted_reachable
      demo_net_publish⟩

/-- C3: once a path `q/r` has been published successfully, then in that state and in every
state reached from it by further publishes, `devfs_publish_device` on the proper prefix `q`
returns `ERR_VFS_ALREADY_EXISTS` and leaves the state unchanged (it creates no node). -/
theorem publish_device_on_dir_exists (maxlen : Nat) (w w1 w2 : Kernel) (q r : List Char)
    (calls calls3 : Nat) (hw : Reachable maxlen w)
    (h : devfs_publish_device maxlen w (q ++ '/' :: r) calls = some (w1, retcode.num 0))
    (hlater : PublishSteps maxlen w1 w2) :
    devfs_publish_device maxlen w2 q calls3 = some (w2, retcode.ERR_VFS_ALREADY_EXISTS) := by
  have ht := reachable_tree maxlen w hw
  obtain ⟨f, rt, hf, hr, hty, -⟩ := ht.fs
  obtain ⟨ht1, hex⟩ := publish_device_inv maxlen w w1 _ calls _ ht h
  obtain ⟨-, hex2⟩ := publish_steps_inv maxlen w1 w2 ht1 hlater
  obtain ⟨f2, hf2, hroot⟩ := (hex.trans hex2).root f hf
  rw [publish_device_eq_comps maxlen w _ calls f hf] at h
  have hres := resolves_extends calls _ _ w1 w2 _ hex2
    (publish_comps_resolves _ calls _ w w1 _ rt ht hr hty h)
  rw [publish_device_eq_comps maxlen w2 q calls3 f2 hf2, hroot]
  by_cases hq : q.length < maxlen
  · have h1 : List.take maxlen q = q := List.take_of_length_le (by omega)
    have h2 : List.take maxlen (q ++ '/' :: r) = q ++ '/' :: List.take (maxlen - q.length - 1) r := by
      rw [List.take_append_eq_append_take, h1]
      obtain ⟨k, hk⟩ : ∃ k, maxlen - q.length = k + 1 := ⟨maxlen - q.length - 1, by omega⟩
      rw [hk, List.take_succ_cons]
      rfl
    rw [h2, path_components, path_components_from_append] at hres
    rw [h1]
    exact publish_comps_of_resolves calls _ q calls3 _ _ w2 _
      (path_components_from_ne_nil _ _) hres
  · have h1 : List.take maxlen (q ++ '/' :: r) = List.take maxlen q :=
      List.take_append_of_le_length (by omega)
    rw [h1] at hres
    refine publish_comps_of_resolves calls (q ++ '/' :: r) q calls3 _ [] w2 _
      (path_components_from_ne_nil _ _) ?_
    rw [List.append_nil]
    exact hres

/-- C3, witness: after `publish("net/rtl8139/0", 99)`, `publish("net/rtl8139", 97)` returns
`ERR_VFS_ALREADY_EXISTS`. -/
theorem publish_device_on_dir_exists_witness :
    Reachable 512 demo_mounted ∧
    devfs_publish_device 512 demo_mounted ("net/rtl8139".toList ++ '/' :: "0".toList) 99 =
      some (demo_net, retcode.num 0) ∧
    PublishSteps 512 demo_net demo_net ∧
    devfs_publish_device 512 demo_net "net/rtl8139".toList 97 =
      some (demo_net, retcode.ERR_VFS_ALREADY_EXISTS) :=
  ⟨demo_mounted_reachable, demo_net_publish, PublishSteps.refl _,
    publish_device_on_dir_exists 512 demo_mounted demo_net demo_net "net/rtl8139".toList
      "0".toList 99 97 demo_mounted_reachable demo_net_publish (PublishSteps.refl _)⟩

theorem demo_net_reachable : Reachable 512 demo_net :=
  Reachable.publish demo_mounted demo_net rtl8139_path 99 (retcode.num 0) demo_mounted_reachable
    demo_net_publish

/-! ## Properties of name resolution -/

/-- C5: in every state reached from mount by publishes, `devfs_find_in_dir(root, ".")` and
`devfs_find_in_dir(root, "..")` return the root; every node of the root's child list has the
root as parent, so that for every directory child `c` of the root
`devfs_find_in_dir(c, "..")` returns the root; for every directory `d`,
`devfs_find_in_dir(d, ".")` is `d` and `devfs_find_in_dir(d, "..")` is the parent of `d`; and on a
node that is not a directory `devfs_find_in_dir` returns `NULL`. -/
theorem find_in_dir_dot_dotdot (maxlen : Nat) (w : Kernel) (hw : Reachable maxlen w) :
    devfs_find_in_dir w (devfs_root w) ['.'] = some (devfs_root w) ∧
    devfs_find_in_dir w (devfs_root w) ['.', '.'] = some (devfs_root w) ∧
    (∀ c ∈ dir_children w (devfs_root w), ∃ n, deref w.vnodes c = some n ∧
      n.parent = devfs_root w ∧
      (n.stream.type = STREAM_TYPE_DIR →
        devfs_find_in_dir w c ['.', '.'] = some (devfs_root w))) ∧
    (∀ d n, deref w.vnodes d = some n → n.stream.type = STREAM_TYPE_DIR →
      devfs_find_in_dir w d ['.'] = some d ∧ devfs_find_in_dir w d ['.', '.'] = some n.parent) ∧
    (∀ d n name, deref w.vnodes d = some n → n.stream.type ≠ STREAM_TYPE_DIR →
      devfs_find_in_dir w d name = some 0) := by
  have ht := reachable_tree maxlen w hw
  obtain ⟨f, r, hf, hr, hty, hpar⟩ := ht.fs
  rw [devfs_root_eq w f hf]
  have hgen : ∀ d n, deref w.vnodes d = some n → n.stream.type = STREAM_TYPE_DIR →
      devfs_find_in_dir w d ['.'] = some d ∧
      devfs_find_in_dir w d ['.', '.'] = some n.parent := by
    intro d n hd hdir
    simp [devfs_find_in_dir, hd, hdir]
  refine ⟨(hgen _ r hr hty).1, ?_, ?_, hgen, ?_⟩
  · have := (hgen _ r hr hty).2
    rwa [hpar] at this
  · intro c hc
    simp only [dir_children, hr] at hc
    have hhead : ∀ n, deref w.vnodes r.stream.dir_head = some n → n.parent = f.root_vnode := by
      intro n hn
      obtain ⟨c1, hc1, hp1⟩ := ht.head _ r hr hty (deref_some_bound hn).1.ne'
      rw [hn] at hc1
      cases hc1
      exact hp1
    obtain ⟨n, hn, hnp⟩ := child_list_parent w ht f.root_vnode _ _ hhead c hc
    refine ⟨n, hn, hnp, fun hdir => ?_⟩
    have := (hgen c n hn hdir).2
    rwa [hnp] at this
  · intro d n name hd hdir
    simp [devfs_find_in_dir, hd, hdir]

/-- C5, witness: in the state after `publish("net/rtl8139/0", 99)` the directory "net" (node 2)
is a child of the root (node 1) and `devfs_find_in_dir(net, "..")` returns the root. -/
theorem find_in_dir_dot_dotdot_witness :
    Reachable 512 demo_net ∧ 2 ∈ dir_children demo_net (devfs_root demo_net) ∧
    devfs_root demo_net = 1 ∧
    devfs_find_in_dir demo_net (devfs_root demo_net) ['.', '.'] = some (devfs_root demo_net) ∧
    ∃ n, deref demo_net.vnodes 2 = some n ∧ n.parent = devfs_root demo_net ∧
      (n.stream.type = STREAM_TYPE_DIR →
        devfs_find_in_dir demo_net 2 ['.', '.'] = some (devfs_root demo_net)) :=
  ⟨demo_net_reachable, by decide, by decide,
    (find_in_dir_dot_dotdot 512 demo_net demo_net_reachable).2.1,
    (find_in_dir_dot_dotdot 512 demo_net demo_net_reachable).2.2.1 2 (by decide)⟩

/-! ## Invariants of the ids and of the index -/

/-- A property of the state that survives the linking of a new node survives the publish loop. -/
theorem publish_comps_preserves (P : Kernel → Prop) (path : List Char) (calls : Nat)
    (hstep : ∀ (w : Kernel) (dir : Nat) (d : devfs_vnode) (f : devfs) (t : hash_table)
      (comp : List Char) (at_leaf : Bool), TreeInv w → P w → deref w.vnodes dir = some d →
      deref w.fss w.thedevfs = some f →
      hash_insert f.vnode_list_hash (w.vnodes.length + 1)
        (published_node f dir d comp at_leaf path calls) = some t →
      P (link_new w dir d f t (published_node f dir d comp at_leaf path calls))) :
    ∀ (cs : List (List Char)) (w w1 : Kernel) (dir : Nat) (d : devfs_vnode) (e : retcode),
      TreeInv w → P w → deref w.vnodes dir = some d → d.stream.type = STREAM_TYPE_DIR →
      publish_comps path calls cs dir w = some (w1, e) → P w1 := by
  have hone : ∀ (w w1 : Kernel) (dir : Nat) (d : devfs_vnode) (comp : List Char)
      (at_leaf : Bool) (r : Nat ⊕ retcode), TreeInv w → P w → deref w.vnodes dir = some d →
      d.stream.type = STREAM_TYPE_DIR →
      publish_component w dir comp at_leaf path calls = some (w1, r) → P w1 := by
    intro w w1 dir d comp at_leaf r hw hp hd hdir h
    rcases publish_component_spec w w1 dir comp at_leaf path calls d r hw hd hdir h with
      ⟨v, -, -, rfl, -⟩ | ⟨-, -, f, t, hf, ht, rfl⟩
    · exact hp
    · exact hstep w dir d f t comp at_leaf hw hp hd hf ht
  intro cs
  induction cs with
  | nil => intro w w1 dir d e _ _ _ _ h; simp [publish_comps] at h
  | cons c cs ih =>
    intro w w1 dir d e hw hp hd hdir h
    cases cs with
    | nil =>
      simp only [publish_comps] at h
      cases hc : publish_component w dir c true path calls with
      | none => simp [hc] at h
      | some res =>
        obtain ⟨w2, r⟩ := res
        have hp2 := hone w w2 dir d c true r hw hp hd hdir hc
        cases r <;> simp only [hc, Option.some.injEq, Prod.mk.injEq] at h <;>
          (obtain ⟨rfl, -⟩ := h; exact hp2)
    | cons c2 cs2 =>
      rw [publish_comps_cons_cons] at h
      cases hc : publish_component w dir c false path calls with
      | none => simp [hc] at h
      | some res =>
        obtain ⟨w2, r⟩ := res
        have hp2 := hone w w2 dir d c false r hw hp hd hdir hc
        have hinv := publish_component_inv w w2 dir c false path calls d r hw hd hdir hc
        cases r with
        | inl v =>
          simp only [hc] at h
          obtain ⟨-, -, n, hn, hty, -⟩ :=
            publish_component_inl w w2 dir c false path calls d v hw hd hdir hc
          exact ih w2 w1 v n e hinv.1 hp2 hn (hty rfl) h
        | inr err =>
          simp only [hc, Option.some.injEq, Prod.mk.injEq] at h
          obtain ⟨rfl, -⟩ := h
          exact hp2

/-- A property that holds after mount and survives the linking of a new node holds in every
reachable state. -/
theorem reachable_preserves (P : Kernel → Prop) (maxlen : Nat)
    (hmount : ∀ id, P (mounted (boot none) id))
    (hstep : ∀ (w : Kernel) (dir : Nat) (d : devfs_vnode) (f : devfs) (t : hash_table)
      (node : devfs_vnode), TreeInv w → P w → deref w.vnodes dir = some d →
      deref w.fss w.thedevfs = some f → node.id = f.next_vnode_id →
      hash_insert f.vnode_list_hash (w.vnodes.length + 1) node = some t →
      P (link_new w dir d f t node))
    (w : Kernel) (h : Reachable maxlen w) : P w := by
  induction h with
  | mount id w out hm =>
    rw [mount_boot_result id w out hm]
    exact hmount id
  | publish w w1 path calls err hr hp ih =>
    have ht := reachable_tree maxlen w hr
    obtain ⟨f, r, hf, hrt, hty, -⟩ := ht.fs
    rw [publish_device_eq_comps maxlen w path calls f hf] at hp
    refine publish_comps_preserves P path calls ?_ _ w w1 _ r err ht ih hrt hty hp
    intro w2 dir d f2 t comp at_leaf ht2 hp2 hd hf2 hins
    exact hstep w2 dir d f2 t _ ht2 hp2 hd hf2 rfl hins

theorem int32_wrap_succ (x : Int) : int32_wrap (int32_wrap x + 1) = int32_wrap (x + 1) := by
  unfold int32_wrap
  omega

theorem int32_wrap_small (x : Int) (h0 : 0 ≤ x) (h1 : x < 2147483648) : int32_wrap x = x := by
  unfold int32_wrap
  omega

theorem link_new_ids (w : Kernel) (dir : Nat) (d : devfs_vnode) (f : devfs) (t : hash_table)
    (node : devfs_vnode) (hid : IdInv w) (hd : deref w.vnodes dir = some d)
    (hf : deref w.fss w.thedevfs = some f) (hnid : node.id = f.next_vnode_id) :
    IdInv (link_new w dir d f t node) := by
  obtain ⟨f0, hf0, hcount⟩ := hid.counter
  rw [hf] at hf0
  cases hf0
  refine ⟨⟨_, link_new_fs w dir d f t node hf, ?_⟩, ?_⟩
  · rw [link_new_length]
    simp only [hcount]
    rw [int32_wrap_succ]
    rfl
  · intro p n hp
    rcases link_new_cases w dir d f t node hd (p + 1) n hp with ⟨h1, rfl⟩ | ⟨h1, rfl⟩ | ⟨-, hold⟩
    · have : p = w.vnodes.length := by omega
      subst this
      rw [hnid, hcount]
    · rw [← h1] at hd
      exact hid.ids p d hd
    · exact hid.ids p n hold

theorem mounted_boot_ids (id : Nat) : IdInv (mounted (boot none) id) := by
  refine ⟨⟨_, rfl, int32_wrap_one.symm⟩, ?_⟩
  intro p n hp
  obtain ⟨h1, h2⟩ := deref_singleton _ _ n hp
  have : p = 0 := by omega
  subst this
  cases h2
  rfl

theorem reachable_ids (maxlen : Nat) (w : Kernel) (h : Reachable maxlen w) : IdInv w :=
  reachable_preserves IdInv maxlen mounted_boot_ids
    (fun w dir d f t node _ hid hd hf hnid _ => link_new_ids w dir d f t node hid hd hf hnid) w h

theorem mounted_boot_chain (id : Nat) : ChainInv (mounted (boot none) id) := by
  have hall : ∀ p n, deref (mounted (boot none) id).vnodes p = some n →
      p = 1 ∧ n = root_node 1 := by
    intro p n hp
    obtain ⟨h1, h2⟩ := deref_singleton _ p n hp
    exact ⟨h1, (Option.some.inj h2).symm⟩
  refine ⟨?_, ?_, ?_⟩
  · intro p h0 hle
    have : p = 1 := by
      have : (mounted (boot none) id).vnodes.length = 1 := rfl
      omega
    subst this
    exact ⟨root_node 1, rfl⟩
  · intro p n hp
    obtain ⟨rfl, rfl⟩ := hall p n hp
    exact Nat.zero_lt_one
  · intro p n hp
    obtain ⟨-, rfl⟩ := hall p n hp
    exact Nat.zero_le _

theorem link_new_chain (w : Kernel) (dir : Nat) (d : devfs_vnode) (f : devfs) (t : hash_table)
    (node : devfs_vnode) (hc : ChainInv w) (hd : deref w.vnodes dir = some d)
    (hnext : node.dir_next = d.stream.dir_head) (hhead : node.stream.dir_head = 0) :
    ChainInv (link_new w dir d f t node) := by
  have hcases := link_new_cases w dir d f t node hd
  refine ⟨?_, ?_, ?_⟩
  · intro p h0 hle
    rw [link_new_length] at hle
    by_cases hp : p = w.vnodes.length + 1
    · subst hp
      exact ⟨node, link_new_deref_new _ _ _ _ _ _ hd⟩
    · obtain ⟨n, hn⟩ := hc.alloc p h0 (by omega)
      obtain ⟨n1, hn1, -⟩ := link_new_node w dir d f t node hd p n hn
      exact ⟨n1, hn1⟩
  · intro p n hp
    rcases hcases p n hp with ⟨h1, rfl⟩ | ⟨h1, rfl⟩ | ⟨-, hold⟩
    · rw [hnext, h1]
      exact Nat.lt_succ_of_le (hc.head_le dir d hd)
    · rw [h1]
      exact hc.next_lt dir d hd
    · exact hc.next_lt p n hold
  · intro p n hp
    rw [link_new_length]
    rcases hcases p n hp with ⟨-, rfl⟩ | ⟨-, rfl⟩ | ⟨-, hold⟩
    · rw [hhead]
      exact Nat.zero_le _
    · exact Nat.le_refl _
    · exact Nat.le_succ_of_le (hc.head_le p n hold)

theorem hash_func_id (n m : devfs_vnode) (k : Int) (range : Nat) (h : n.id = m.id) :
    devfs_vnode_hash_func (some n) k range = devfs_vnode_hash_func (some m) k range := by
  simp [devfs_vnode_hash_func, h]

theorem hash_insert_spec (t t1 : hash_table) (e : Nat) (n : devfs_vnode)
    (hlen : t.table.length = BOOTFS_HASH_SIZE) (h : hash_insert t e n = some t1) :
    ∃ chain, t.table[devfs_vnode_hash_func (some n) 0 BOOTFS_HASH_SIZE]? = some chain ∧
      t1.table = t.table.set (devfs_vnode_hash_func (some n) 0 BOOTFS_HASH_SIZE) (e :: chain) := by
  simp only [hash_insert, hlen] at h
  cases hc : t.table[devfs_vnode_hash_func (some n) 0 BOOTFS_HASH_SIZE]? with
  | none => simp [hc] at h
  | some chain =>
    simp only [hc, Option.some.injEq] at h
    exact ⟨chain, rfl, by rw [← h]⟩

theorem mounted_boot_index (id : Nat) : IndexInv (mounted (boot none) id) := by
  have hroot : devfs_vnode_hash_func (some (root_node 1)) 0 BOOTFS_HASH_SIZE = 0 := by decide
  refine ⟨_, rfl, ⟨by simp [BOOTFS_HASH_SIZE], ?_⟩, ?_⟩
  · intro b chain hb
    cases b with
    | zero =>
      simp only [mounted, boot, List.length_nil, Nat.zero_add, List.getElem?_cons_zero,
        Option.some.injEq] at hb
      subst hb
      refine ⟨List.nodup_singleton _, ?_⟩
      intro e he
      simp only [List.mem_singleton] at he
      subst he
      exact ⟨root_node 1, rfl, hroot⟩
    | succ b =>
      simp only [mounted, boot, List.getElem?_cons_succ, List.getElem?_replicate] at hb
      split at hb
      · cases hb
        exact ⟨List.nodup_nil, fun e he => absurd he (List.not_mem_nil e)⟩
      · cases hb
  · intro p n hp
    obtain ⟨h1, h2⟩ := deref_singleton _ _ n hp
    cases h2
    subst h1
    exact ⟨[1], by rw [show (boot none).vnodes.length + 1 = 1 from rfl, hroot]; rfl,
      List.mem_singleton.2 rfl⟩

theorem link_new_index (w : Kernel) (dir : Nat) (d : devfs_vnode) (f : devfs) (t : hash_table)
    (node : devfs_vnode) (hi : IndexInv w) (hd : deref w.vnodes dir = some d)
    (hf : deref w.fss w.thedevfs = some f)
    (hins : hash_insert f.vnode_list_hash (w.vnodes.length + 1) node = some t) :
    IndexInv (link_new w dir d f t node) := by
  obtain ⟨f0, hf0, ⟨hlen, hbucket⟩, hall⟩ := hi.table
  rw [hf] at hf0
  cases hf0
  obtain ⟨chain0, hc0, ht⟩ := hash_insert_spec _ _ _ _ hlen hins
  have hb0 : devfs_vnode_hash_func (some node) 0 BOOTFS_HASH_SIZE < f.vnode_list_hash.table.length := by
    by_contra hcon
    rw [List.getElem?_eq_none (by omega)] at hc0
    cases hc0
  have hnode := link_new_node w dir d f t node hd
  have hnew := link_new_deref_new w dir d f t node hd
  have hkeep : ∀ e n, deref w.vnodes e = some n →
      ∃ n1, deref (link_new w dir d f t node).vnodes e = some n1 ∧
        devfs_vnode_hash_func (some n1) 0 BOOTFS_HASH_SIZE =
          devfs_vnode_hash_func (some n) 0 BOOTFS_HASH_SIZE := by
    intro e n he
    obtain ⟨n1, e0, -, -, -, e4, -⟩ := hnode e n he
    exact ⟨n1, e0, hash_func_id _ _ _ _ e4⟩
  refine ⟨_, link_new_fs w dir d f t node hf, ⟨?_, ?_⟩, ?_⟩
  · simp only [ht, List.length_set, hlen]
  · intro b chain hb
    simp only [ht, List.getElem?_set] at hb
    by_cases hbb : devfs_vnode_hash_func (some node) 0 BOOTFS_HASH_SIZE = b
    · simp only [hbb, if_true] at hb
      rw [hbb] at hb0 hc0
      simp only [hb0, if_true, Option.some.injEq] at hb
      subst hb
      obtain ⟨hnd, hel⟩ := hbucket b chain0 hc0
      refine ⟨List.nodup_cons.2 ⟨?_, hnd⟩, ?_⟩
      · intro hmem
        obtain ⟨n, hn, -⟩ := hel _ hmem
        have := (deref_some_bound hn).2
        omega
      · intro e he
        rcases List.mem_cons.1 he with rfl | he
        · exact ⟨node, hnew, hbb⟩
        · obtain ⟨n, hn, hh⟩ := hel e he
          obtain ⟨n1, hn1, hh1⟩ := hkeep e n hn
          exact ⟨n1, hn1, hh1.trans hh⟩
    · simp only [hbb, if_false] at hb
      obtain ⟨hnd, hel⟩ := hbucket b chain hb
      refine ⟨hnd, ?_⟩
      intro e he
      obtain ⟨n, hn, hh⟩ := hel e he
      obtain ⟨n1, hn1, hh1⟩ := hkeep e n hn
      exact ⟨n1, hn1, hh1.trans hh⟩
  · intro p n hp
    simp only [ht, List.getElem?_set]
    have hold : ∀ m, deref w.vnodes p = some m →
        devfs_vnode_hash_func (some n) 0 BOOTFS_HASH_SIZE =
          devfs_vnode_hash_func (some m) 0 BOOTFS_HASH_SIZE →
        ∃ chain, (if devfs_vnode_hash_func (some node) 0 BOOTFS_HASH_SIZE =
              devfs_vnode_hash_func (some n) 0 BOOTFS_HASH_SIZE then
            if devfs_vnode_hash_func (some node) 0 BOOTFS_HASH_SIZE <
                f.vnode_list_hash.table.length then
              some ((w.vnodes.length + 1) :: chain0) else none
          else f.vnode_list_hash.table[devfs_vnode_hash_func (some n) 0 BOOTFS_HASH_SIZE]?) =
          some chain ∧ p ∈ chain := by
      intro m hm hh
      obtain ⟨chain, hch, hmem⟩ := hall p m hm
      rw [← hh] at hch
      by_cases hbb : devfs_vnode_hash_func (some node) 0 BOOTFS_HASH_SIZE =
          devfs_vnode_hash_func (some n) 0 BOOTFS_HASH_SIZE
      · simp only [hbb, if_true]
        rw [hbb] at hb0 hc0
        rw [hc0] at hch
        cases hch
        simp only [hb0, if_true]
        exact ⟨_, rfl, List.mem_cons_of_mem _ hmem⟩
      · simp only [hbb, if_false]
        exact ⟨chain, hch, hmem⟩
    rcases link_new_cases w dir d f t node hd p n hp with ⟨h1, rfl⟩ | ⟨h1, rfl⟩ | ⟨-, hold1⟩
    · simp only [if_true, hb0]
      exact ⟨_, rfl, by rw [h1]; exact List.mem_cons_self _ _⟩
    · rw [← h1] at hd
      exact hold d hd (hash_func_id _ _ _ _ rfl)
    · exact hold n hold1 rfl

theorem reachable_index (maxlen : Nat) (w : Kernel) (h : Reachable maxlen w) : IndexInv w :=
  reachable_preserves IndexInv maxlen mounted_boot_index
    (fun w dir d f t node _ hi hd hf _ hins => link_new_index w dir d f t node hi hd hf hins) w h

theorem mem_hash_elements (t : hash_table) (e : Nat) :
    e ∈ hash_elements t ↔ ∃ (b : Nat) (chain : List Nat), t.table[b]? = some chain ∧ e ∈ chain := by
  simp only [hash_elements, List.mem_flatten]
  constructor
  · rintro ⟨chain, hc, he⟩
    obtain ⟨b, hb⟩ := List.mem_iff_getElem?.1 hc
    exact ⟨b, chain, hb, he⟩
  · rintro ⟨b, chain, hb, he⟩
    exact ⟨chain, List.mem_iff_getElem?.2 ⟨b, hb⟩, he⟩

/-! ## Properties of the ids -/

/-- C4: in a state reached from mount by publishes in which fewer than 2^31 vnodes have been
created, every live node is in the index, every node in the index has an id strictly below
`next_vnode_id`, two distinct nodes in the index have different ids, and
`devfs_create_vnode` gives the new node the current value of the counter and increments the
counter (as a C `int`; by exactly one when the new node is not the 2^31-th). -/
theorem vnode_ids_unique (maxlen : Nat) (w : Kernel) (hw : Reachable maxlen w)
    (hcount : w.vnodes.length < 2147483648) :
    ∃ f, deref w.fss w.thedevfs = some f ∧
      (∀ p n, deref w.vnodes p = some n → p ∈ hash_elements f.vnode_list_hash) ∧
      (∀ a ∈ hash_elements f.vnode_list_hash, ∃ n, deref w.vnodes a = some n ∧
        n.id < f.next_vnode_id ∧
        ∀ b ∈ hash_elements f.vnode_list_hash, ∀ m, deref w.vnodes b = some m → a ≠ b →
          n.id ≠ m.id) ∧
      (∀ name, ∃ w1 v n f1, devfs_create_vnode w w.thedevfs name = some (w1, v) ∧
        deref w1.vnodes v = some n ∧ n.id = f.next_vnode_id ∧
        deref w1.fss w1.thedevfs = some f1 ∧
        f1.next_vnode_id = int32_wrap (f.next_vnode_id + 1) ∧
        (w.vnodes.length + 1 < 2147483648 → f1.next_vnode_id = f.next_vnode_id + 1)) := by
  have ht := reachable_tree maxlen w hw
  have hid := reachable_ids maxlen w hw
  obtain ⟨f, hf, ⟨-, hbucket⟩, hall⟩ := (reachable_index maxlen w hw).table
  obtain ⟨f0, hf0, hcounter⟩ := hid.counter
  rw [hf] at hf0
  cases hf0
  have hnext : f.next_vnode_id = (w.vnodes.length : Int) := by
    rw [hcounter]
    exact int32_wrap_small _ (by omega) (by omega)
  have hidval : ∀ a n, deref w.vnodes a = some n → n.id = (a : Int) - 1 := by
    intro a n ha
    obtain ⟨h1, h2⟩ := deref_some_bound ha
    obtain ⟨p, rfl⟩ : ∃ p, a = p + 1 := ⟨a - 1, by omega⟩
    rw [hid.ids p n ha, int32_wrap_small _ (by omega) (by omega)]
    push_cast
    omega
  refine ⟨f, hf, ?_, ?_, ?_⟩
  · intro p n hp
    obtain ⟨chain, hch, hmem⟩ := hall p n hp
    exact (mem_hash_elements _ _).2 ⟨_, chain, hch, hmem⟩
  · intro a ha
    obtain ⟨b, chain, hb, hmem⟩ := (mem_hash_elements _ _).1 ha
    obtain ⟨n, hn, -⟩ := (hbucket b chain hb).2 a hmem
    refine ⟨n, hn, ?_, ?_⟩
    · rw [hidval a n hn, hnext]
      have := (deref_some_bound hn).2
      omega
    · intro b2 _ m hm hne
      rw [hidval a n hn, hidval b2 m hm]
      omega
  · intro name
    have hfb := deref_some_bound hf
    refine ⟨_, _, _, _, create_vnode_eq w _ name f ht.avail hf, deref_append_new _ _, rfl,
      deref_store_self _ _ _ hfb.1 hfb.2, rfl, ?_⟩
    intro hlt
    simp only [hnext]
    exact int32_wrap_small _ (by omega) (by omega)

/-- C4, witness: in the state after `publish("net/rtl8139/0", 99)` four vnodes have been
created, with the ids 0 to 3, and the counter is 4. -/
theorem vnode_ids_unique_witness :
    Reachable 512 demo_net ∧ demo_net.vnodes.length < 2147483648 ∧
    ∃ f, deref demo_net.fss demo_net.thedevfs = some f ∧
      (∀ p n, deref demo_net.vnodes p = some n → p ∈ hash_elements f.vnode_list_hash) ∧
      (∀ a ∈ hash_elements f.vnode_list_hash, ∃ n, deref demo_net.vnodes a = some n ∧
        n.id < f.next_vnode_id ∧
        ∀ b ∈ hash_elements f.vnode_list_hash, ∀ m, deref demo_net.vnodes b = some m → a ≠ b →
          n.id ≠ m.id) ∧
      (∀ name, ∃ w1 v n f1, devfs_create_vnode demo_net demo_net.thedevfs name = some (w1, v) ∧
        deref w1.vnodes v = some n ∧ n.id = f.next_vnode_id ∧
        deref w1.fss w1.thedevfs = some f1 ∧
        f1.next_vnode_id = int32_wrap (f.next_vnode_id + 1) ∧
        (demo_net.vnodes.length + 1 < 2147483648 → f1.next_vnode_id = f.next_vnode_id + 1)) :=
  ⟨demo_net_reachable, by decide, vnode_ids_unique 512 demo_net demo_net_reachable (by decide)⟩

/-! ## Unmount -/

theorem hash_remove_spec (t : hash_table) (e b : Nat) (n : devfs_vnode) (chain : List Nat)
    (hlen : t.table.length = BOOTFS_HASH_SIZE)
    (hb : devfs_vnode_hash_func (some n) 0 BOOTFS_HASH_SIZE = b)
    (hc : t.table[b]? = some chain) :
    hash_remove t e n = some { table := t.table.set b (chain.erase e) } := by
  simp [hash_remove, hlen, hb, hc]

theorem delete_vnode_force (w : Kernel) (fs e : Nat) (n : devfs_vnode) (f : devfs)
    (t : hash_table) (hn : deref w.vnodes e = some n) (hf : deref w.fss fs = some f)
    (ht : hash_remove f.vnode_list_hash e n = some t) :
    ∃ w1, devfs_delete_vnode w fs e true = some (w1, retcode.num 0) ∧
      w1.vnodes = store w.vnodes e none ∧
      w1.fss = store w.fss fs (some { f with vnode_list_hash := t }) ∧
      w1.thedevfs = w.thedevfs ∧ w1.cookies = w.cookies := by
  simp only [devfs_delete_vnode, hn, hf, ht, Bool.not_true, Bool.false_and, Bool.false_eq_true,
    if_false]
  by_cases hdev : n.stream.type = STREAM_TYPE_DEVICE ∧ n.stream.full_name ≠ none
  · simp only [hdev, ne_eq, not_false_eq_true, and_self, if_true]
    exact ⟨_, rfl, rfl, rfl, rfl, rfl⟩
  · simp only [hdev, if_false]
    exact ⟨_, rfl, rfl, rfl, rfl, rfl⟩

theorem index_nodup (h : List (Option devfs_vnode)) (t : hash_table) (hok : IndexOK h t) :
    (hash_elements t).Nodup := by
  obtain ⟨-, hbucket⟩ := hok
  rw [hash_elements, List.nodup_flatten]
  constructor
  · intro l hl
    obtain ⟨b, hb⟩ := List.mem_iff_getElem?.1 hl
    exact (hbucket b l hb).1
  · rw [List.pairwise_iff_getElem]
    intro i j hi hj hij
    rw [List.disjoint_left]
    intro x hxi hxj
    obtain ⟨n, hn, h1⟩ := (hbucket i _ (List.getElem?_eq_getElem hi)).2 x hxi
    obtain ⟨m, hm, h2⟩ := (hbucket j _ (List.getElem?_eq_getElem hj)).2 x hxj
    rw [hn] at hm
    cases hm
    omega

theorem unmount_delete_all_spec (fs : Nat) :
    ∀ (l : List Nat) (w : Kernel) (f : devfs), deref w.fss fs = some f →
      IndexOK w.vnodes f.vnode_list_hash → l.Nodup →
      (∀ e, e ∈ l ↔ e ∈ hash_elements f.vnode_list_hash) →
      ∃ w1 f1, unmount_delete_all fs w l = some w1 ∧ deref w1.fss fs = some f1 ∧
        f1.vnode_list_hash.table.length = BOOTFS_HASH_SIZE ∧
        hash_elements f1.vnode_list_hash = [] ∧
        (∀ p, deref w1.vnodes p = if p ∈ l then none else deref w.vnodes p) ∧
        w1.thedevfs = w.thedevfs := by
  intro l
  induction l with
  | nil =>
    intro w f hf hok _ hmem
    refine ⟨w, f, rfl, hf, hok.1, ?_, fun p => by simp, rfl⟩
    exact List.eq_nil_iff_forall_not_mem.2 fun e he => List.not_mem_nil e ((hmem e).2 he)
  | cons e l ih =>
    intro w f hf hok hnd hmem
    obtain ⟨hlen, hbucket⟩ := hok
    obtain ⟨hel, hndl⟩ := List.nodup_cons.1 hnd
    obtain ⟨b, chain, hb, hech⟩ := (mem_hash_elements _ _).1 ((hmem e).1 (List.mem_cons_self _ _))
    obtain ⟨hchnd, hchel⟩ := hbucket b chain hb
    obtain ⟨n, hn, hhash⟩ := hchel e hech
    have hblt : b < f.vnode_list_hash.table.length := by
      by_contra hcon
      rw [List.getElem?_eq_none (by omega)] at hb
      cases hb
    obtain ⟨w1, hdel, hv1, hf1, hdev1, -⟩ := delete_vnode_force w fs e n f _ hn hf
      (hash_remove_spec _ e b n chain hlen hhash hb)
    have hfb := deref_some_bound hf
    have hfs1 : deref w1.fss fs =
        some { f with vnode_list_hash := { table := f.vnode_list_hash.table.set b (chain.erase e) } } := by
      rw [hf1]
      exact deref_store_self _ _ _ hfb.1 hfb.2
    have hderef : ∀ x, x ≠ e → deref w1.vnodes x = deref w.vnodes x := by
      intro x hx
      rw [hv1]
      exact deref_store_ne _ _ _ _ hx
    have hother : ∀ b2 chain2 x, b ≠ b2 → f.vnode_list_hash.table[b2]? = some chain2 →
        x ∈ chain2 → x ≠ e := by
      intro b2 chain2 x hne hb2 hx hxe
      subst hxe
      obtain ⟨m, hm, hh⟩ := (hbucket b2 chain2 hb2).2 x hx
      rw [hn] at hm
      cases hm
      exact hne (hhash.symm.trans hh)
    have hok1 : IndexOK w1.vnodes
        { table := f.vnode_list_hash.table.set b (chain.erase e) } := by
      refine ⟨by simp only [List.length_set, hlen], ?_⟩
      intro b2 chain2 hb2
      simp only [List.getElem?_set] at hb2
      by_cases hbb : b = b2
      · simp only [hbb, if_true] at hb2
        rw [hbb] at hblt
        simp only [hblt, if_true, Option.some.injEq] at hb2
        subst hb2
        refine ⟨hchnd.erase e, ?_⟩
        intro x hx
        obtain ⟨hxe, hxc⟩ := (List.Nodup.mem_erase_iff hchnd).1 hx
        obtain ⟨m, hm, hh⟩ := hchel x hxc
        exact ⟨m, by rw [hderef x hxe]; exact hm, hh.trans hbb⟩
      · simp only [hbb, if_false] at hb2
        refine ⟨(hbucket b2 chain2 hb2).1, ?_⟩
        intro x hx
        obtain ⟨m, hm, hh⟩ := (hbucket b2 chain2 hb2).2 x hx
        exact ⟨m, by rw [hderef x (hother b2 chain2 x hbb hb2 hx)]; exact hm, hh⟩
    have hmem1 : ∀ x, x ∈ l ↔
        x ∈ hash_elements { table := f.vnode_list_hash.table.set b (chain.erase e) } := by
      intro x
      rw [mem_hash_elements]
      simp only [List.getElem?_set]
      constructor
      · intro hx
        have hxe : x ≠ e := fun hc => hel (hc ▸ hx)
        obtain ⟨b2, chain2, hb2, hx2⟩ :=
          (mem_hash_elements _ _).1 ((hmem x).1 (List.mem_cons_of_mem _ hx))
        by_cases hbb : b = b2
        · subst hbb
          rw [hb] at hb2
          cases hb2
          exact ⟨b, chain.erase e, by simp [hblt],
            (List.Nodup.mem_erase_iff hchnd).2 ⟨hxe, hx2⟩⟩
        · exact ⟨b2, chain2, by simp [hbb, hb2], hx2⟩
      · rintro ⟨b2, chain2, hb2, hx2⟩
        by_cases hbb : b = b2
        · simp only [hbb, if_true] at hb2
          rw [hbb] at hblt
          simp only [hblt, if_true, Option.some.injEq] at hb2
          subst hb2
          obtain ⟨hxe, hxc⟩ := (List.Nodup.mem_erase_iff hchnd).1 hx2
          rcases List.mem_cons.1 ((hmem x).2 ((mem_hash_elements _ _).2 ⟨b, chain, hb, hxc⟩)) with
            h1 | h1
          · exact absurd h1 hxe
          · exact h1
        · simp only [hbb, if_false] at hb2
          rcases List.mem_cons.1 ((hmem x).2 ((mem_hash_elements _ _).2 ⟨b2, chain2, hb2, hx2⟩))
            with h1 | h1
          · exact absurd h1 (hother b2 chain2 x hbb hb2 hx2)
          · exact h1
    obtain ⟨w2, f2, hrun, hf2, hlen2, hempty, hvn, hdev2⟩ := ih w1 _ hfs1 hok1 hndl hmem1
    refine ⟨w2, f2, ?_, hf2, hlen2, hempty, ?_, hdev2.trans hdev1⟩
    · simp only [unmount_delete_all, hdel]
      exact hrun
    · intro p
      rw [hvn p]
      by_cases hp : p = e
      · subst hp
        have : deref w1.vnodes p = none := by
          rw [hv1]
          exact deref_store_self _ _ _ (deref_some_bound hn).1 (deref_some_bound hn).2
        simp [this]
      · simp only [List.mem_cons, hp, false_or]
        rw [hderef p hp]

theorem getvnode_empty_index (w : Kernel) (fs : Nat) (f : devfs) (id : Int)
    (hf : deref w.fss fs = some f)
    (hlen : f.vnode_list_hash.table.length = BOOTFS_HASH_SIZE)
    (hempty : hash_elements f.vnode_list_hash = [])
    (hb : devfs_vnode_hash_func none id BOOTFS_HASH_SIZE < BOOTFS_HASH_SIZE) :
    devfs_getvnode w fs id = some (retcode.ERR_NOT_FOUND, 0) := by
  have hb1 : devfs_vnode_hash_func none id BOOTFS_HASH_SIZE <
      f.vnode_list_hash.table.length := by rw [hlen]; exact hb
  have hchain : f.vnode_list_hash.table[devfs_vnode_hash_func none id BOOTFS_HASH_SIZE]? =
      some [] := by
    rw [List.getElem?_eq_getElem hb1]
    congr 1
    exact List.flatten_eq_nil_iff.1 hempty _ (List.getElem_mem _)
  simp [devfs_getvnode, hf, hash_lookup, hlen, hchain, hash_chain_lookup]

/-- C7, as stated, fails: `devfs_unmount` does not leave an empty index behind, it destroys the
index and frees the instance (`hash_uninit`, `kfree(fs)`), so after it has returned a lookup on
the instance reads freed memory and does not return `ERR_NOT_FOUND`.  In the state that holds
"net/rtl8139/0" the ids 0 to 3 are valid (`devfs_getvnode` returns the nodes 1 to 4);
`devfs_unmount` returns 0; in the state it returns the instance is freed and `devfs_getvnode` on
each of these ids fails on the freed instance. -/
theorem unmount_lookup_counterexample :
    Reachable 512 demo_net ∧
    devfs_getvnode demo_net 1 0 = some (retcode.num 0, 1) ∧
    devfs_getvnode demo_net 1 1 = some (retcode.num 0, 2) ∧
    devfs_getvnode demo_net 1 2 = some (retcode.num 0, 3) ∧
    devfs_getvnode demo_net 1 3 = some (retcode.num 0, 4) ∧
    devfs_unmount demo_net 1 = some (demo_net_unmounted, retcode.num 0) ∧
    deref demo_net_unmounted.fss 1 = none ∧
    devfs_getvnode demo_net_unmounted 1 0 = none ∧
    devfs_getvnode demo_net_unmounted 1 1 = none ∧
    devfs_getvnode demo_net_unmounted 1 2 = none ∧
    devfs_getvnode demo_net_unmounted 1 3 = none ∧
    devfs_getvnode demo_net_unmounted 1 0 ≠ some (retcode.ERR_NOT_FOUND, 0) :=
  ⟨demo_net_reachable, rfl, rfl, rfl, rfl, rfl, rfl, rfl, rfl, rfl, rfl, by decide⟩

/-- C7, amended: in a state reached from mount by publishes every live node (linked in a child
list or not, empty directory or not) is in the hash index; the deletion loop of `devfs_unmount`
ends, and when it has ended the index of the instance is empty, every vnode is freed, and
`devfs_getvnode` on the id of any node that existed before returns `ERR_NOT_FOUND`;
`devfs_unmount` then destroys the index, frees the instance and returns 0: in the state it
returns every vnode is freed, the instance is freed, and `devfs_getvnode` on the instance fails
for every id (it returns nothing, `ERR_NOT_FOUND` included). -/
theorem unmount_deletes_all (maxlen : Nat) (w : Kernel) (hw : Reachable maxlen w) :
    ∃ f w1 f1 w2, deref w.fss w.thedevfs = some f ∧
      (∀ p n, deref w.vnodes p = some n → p ∈ hash_elements f.vnode_list_hash) ∧
      unmount_delete_all w.thedevfs w (hash_elements f.vnode_list_hash) = some w1 ∧
      deref w1.fss w.thedevfs = some f1 ∧ hash_elements f1.vnode_list_hash = [] ∧
      (∀ p, deref w1.vnodes p = none) ∧
      (∀ p n, deref w.vnodes p = some n →
        devfs_getvnode w1 w.thedevfs n.id = some (retcode.ERR_NOT_FOUND, 0)) ∧
      devfs_unmount w w.thedevfs = some (w2, retcode.num 0) ∧
      (∀ p, deref w2.vnodes p = none) ∧ deref w2.fss w.thedevfs = none ∧
      (∀ id, devfs_getvnode w2 w.thedevfs id = none) := by
  obtain ⟨f, hf, hok, hall⟩ := (reachable_index maxlen w hw).table
  have hin : ∀ p n, deref w.vnodes p = some n → p ∈ hash_elements f.vnode_list_hash := by
    intro p n hp
    obtain ⟨chain, hch, hmem⟩ := hall p n hp
    exact (mem_hash_elements _ _).2 ⟨_, chain, hch, hmem⟩
  obtain ⟨w1, f1, hrun, hf1, hlen1, hempty, hvn, -⟩ :=
    unmount_delete_all_spec w.thedevfs _ w f hf hok (index_nodup _ _ hok) (fun _ => Iff.rfl)
  have hfreed : ∀ p, deref w1.vnodes p = none := by
    intro p
    rw [hvn p]
    split
    · rfl
    · rename_i hnot
      cases hp : deref w.vnodes p with
      | none => rfl
      | some n => exact absurd (hin p n hp) hnot
  have hfb := deref_some_bound hf1
  refine ⟨f, w1, f1,
    { kfree (kfree (kfree w1)) with fss := store (kfree (kfree (kfree w1))).fss w.thedevfs none },
    hf, hin, hrun, hf1, hempty, hfreed, ?_, ?_, ?_, ?_, ?_⟩
  · intro p n hp
    obtain ⟨chain, hch, -⟩ := hall p n hp
    refine getvnode_empty_index w1 _ f1 n.id hf1 hlen1 hempty ?_
    have hlt : devfs_vnode_hash_func (some n) 0 BOOTFS_HASH_SIZE <
        f.vnode_list_hash.table.length := by
      by_contra hcon
      rw [List.getElem?_eq_none (by omega)] at hch
      cases hch
    rw [hok.1] at hlt
    exact hlt
  · simp only [devfs_unmount, hf, hrun]
  · exact hfreed
  · exact deref_store_self _ _ _ hfb.1 hfb.2
  · intro id
    have hnone : deref (store (kfree (kfree (kfree w1))).fss w.thedevfs none) w.thedevfs =
        none := deref_store_self _ _ _ hfb.1 hfb.2
    simp only [devfs_getvnode, hnone]

/-- C7, amended, witness: unmounting the instance that holds "net/rtl8139/0" (three nodes
linked in child lists, three non-empty directories) returns 0 and leaves no live vnode and no
instance. -/
theorem unmount_deletes_all_witness :
    Reachable 512 demo_net ∧
    ∃ f w1 f1 w2, deref demo_net.fss demo_net.thedevfs = some f ∧
      (∀ p n, deref demo_net.vnodes p = some n → p ∈ hash_elements f.vnode_list_hash) ∧
      unmount_delete_all demo_net.thedevfs demo_net (hash_elements f.vnode_list_hash) =
        some w1 ∧
      deref w1.fss demo_net.thedevfs = some f1 ∧ hash_elements f1.vnode_list_hash = [] ∧
      (∀ p, deref w1.vnodes p = none) ∧
      (∀ p n, deref demo_net.vnodes p = some n →
        devfs_getvnode w1 demo_net.thedevfs n.id = some (retcode.ERR_NOT_FOUND, 0)) ∧
      devfs_unmount demo_net demo_net.thedevfs = some (w2, retcode.num 0) ∧
      (∀ p, deref w2.vnodes p = none) ∧ deref w2.fss demo_net.thedevfs = none ∧
      (∀ id, devfs_getvnode w2 demo_net.thedevfs id = none) :=
  ⟨demo_net_reachable, unmount_deletes_all 512 demo_net demo_net_reachable⟩

/-! ## Mount, and the defects of the lifecycle and of the cookie jar -/

/-- C8: the sequence mount, unmount, mount.  The first mount and the unmount return 0 and the
unmount frees the instance, but it leaves `thedevfs` pointing at it, so the second mount returns
`ERR_GENERAL` although no instance exists. -/
theorem mount_after_unmount_fails :
    devfs_mount (boot none) 0 = some (demo_mounted, retcode.num 0, some (1, 0)) ∧
    devfs_unmount demo_mounted 1 = some (demo_unmounted, retcode.num 0) ∧
    deref demo_unmounted.fss 1 = none ∧ demo_unmounted.thedevfs = 1 ∧
    devfs_mount demo_unmounted 0 = some (demo_unmounted, retcode.ERR_GENERAL, none) := by
  refine ⟨rfl, rfl, rfl, rfl, rfl⟩

/-- C6: a cookie that `devfs_open` returns for the root is not in the jar of the root, so the
removal of the child its cursor references does not retarget it.  With the child list "b", "a":
the cursor of the new cookie references "b" and the jar of the root stays empty;
`devfs_remove_from_dir(root, "b")` returns 0 and leaves the child list "a", but the cursor still
references the removed node "b" (not "a", its former next sibling); the next `devfs_read`
returns the name "b" and the one after returns 0, so "a" is never enumerated.  Had the cookie
been put in the jar by `insert_cookie_in_jar`, the removal would have moved the cursor to
"a". -/
theorem open_cookie_not_in_jar :
    dir_children demo_ab 1 = [3, 2] ∧
    devfs_open demo_dev_open demo_ab 1 STREAM_TYPE_ANY =
      some (demo_ab_open, retcode.num 0, some 1) ∧
    (deref demo_ab_open.cookies 1).map (fun c => c.ptr) = some 3 ∧
    (deref demo_ab_open.vnodes 1).map (fun n => n.stream.jar_head) = some 0 ∧
    devfs_remove_from_dir demo_ab_open 1 3 = some (demo_ab_removed, retcode.num 0) ∧
    dir_children demo_ab_removed 1 = [2] ∧
    (deref demo_ab_removed.cookies 1).map (fun c => c.ptr) = some 3 ∧
    devfs_read demo_user_strcpy demo_dev_read demo_ab_removed 1 1 0 256 =
      some (demo_ab_read, retcode.num 2, some ['b']) ∧
    devfs_read demo_user_strcpy demo_dev_read demo_ab_read 1 1 0 256 =
      some (demo_ab_read, retcode.num 0, none) ∧
    (devfs_remove_from_dir demo_ab_jar 1 3).map
      (fun r => (deref r.1.cookies 1).map (fun c => c.ptr)) = some (some 2) := by
  refine ⟨rfl, rfl, rfl, rfl, rfl, rfl, rfl, rfl, rfl, rfl⟩

/-- C10: `devfs_delete_vnode(fs, v, false)` on a node that is the last entry of a child list.
With the child list "b", "a" of the root: for "b" (which has a next sibling) the call returns
`ERR_NOT_ALLOWED` and changes nothing, but for "a" (the last entry, whose `dir_next` is `NULL`)
it returns 0, removes "a" from the index and frees it, although "a" is still linked in the child
list of the root. -/
theorem delete_linked_last_entry :
    dir_children demo_ab 1 = [3, 2] ∧
    devfs_delete_vnode demo_ab 1 3 false = some (demo_ab, retcode.ERR_NOT_ALLOWED) ∧
    devfs_delete_vnode demo_ab 1 2 false = some (demo_ab_deleted, retcode.num 0) ∧
    deref demo_ab_deleted.vnodes 2 = none ∧
    (deref demo_ab_deleted.fss 1).map (fun f => hash_elements f.vnode_list_hash) =
      some [1, 3] ∧
    (deref demo_ab_deleted.vnodes 3).map (fun n => n.dir_next) = some 2 := by
  refine ⟨rfl, rfl, rfl, rfl, rfl, rfl⟩

/-! ## Every walk ends and every publish returns -/

theorem find_in_dir_loop_total (w : Kernel) (hc : ChainInv w) (name : List Char) :
    ∀ (s v : Nat), v < s → v ≤ w.vnodes.length →
      ∃ r, find_in_dir_loop w.vnodes name s v = some r := by
  intro s
  induction s with
  | zero => intro v hv; omega
  | succ s ih =>
    intro v hv hle
    simp only [find_in_dir_loop]
    by_cases hz : v = 0
    · exact ⟨0, by simp [hz]⟩
    · obtain ⟨n, hn⟩ := hc.alloc v (by omega) hle
      simp only [hz, if_false, hn]
      by_cases hname : n.name = name
      · exact ⟨v, by simp [hname]⟩
      · simp only [hname, if_false]
        have := hc.next_lt v n hn
        exact ih n.dir_next (by omega) (by omega)

/-- In a mounted state `devfs_find_in_dir` returns for every live node and every name: the walk
of the child list ends within the bound that the embedding gives it. -/
theorem find_in_dir_total (w : Kernel) (hc : ChainInv w) (d : Nat) (n : devfs_vnode)
    (name : List Char) (hd : deref w.vnodes d = some n) :
    ∃ r, devfs_find_in_dir w d name = some r := by
  simp only [devfs_find_in_dir, hd]
  by_cases hty : n.stream.type = STREAM_TYPE_DIR
  · simp only [hty, ne_eq, not_true_eq_false, if_false]
    by_cases h1 : name = ['.']
    · exact ⟨d, by simp [h1]⟩
    · by_cases h2 : name = ['.', '.']
      · exact ⟨n.parent, by simp [h2]⟩
      · simp only [h1, h2, if_false]
        have := hc.head_le d n hd
        exact find_in_dir_loop_total w hc name _ _ (by omega) this
  · exact ⟨0, by simp [hty]⟩

theorem reachable_chain (maxlen : Nat) (w : Kernel) (h : Reachable maxlen w) : ChainInv w := by
  induction h with
  | mount id w out hm =>
    rw [mount_boot_result id w out hm]
    exact mounted_boot_chain id
  | publish w w1 path calls err hr hp ih =>
    have ht := reachable_tree maxlen w hr
    obtain ⟨f, r, hf, hrt, hty, -⟩ := ht.fs
    rw [publish_device_eq_comps maxlen w path calls f hf] at hp
    refine publish_comps_preserves ChainInv path calls ?_ _ w w1 _ r err ht ih hrt hty hp
    intro w2 dir d f2 t comp at_leaf _ hc2 hd _ _
    exact link_new_chain w2 dir d f2 t _ hc2 hd rfl (published_node_stream_head ..)

theorem hash_insert_total (t : hash_table) (e : Nat) (n : devfs_vnode)
    (hlen : t.table.length = BOOTFS_HASH_SIZE) (hid : 0 ≤ n.id) :
    ∃ t1, hash_insert t e n = some t1 := by
  have h1 : 0 ≤ Int.tmod n.id ((BOOTFS_HASH_SIZE : Nat) : Int) := Int.tmod_nonneg _ hid
  have h2 : Int.tmod n.id ((BOOTFS_HASH_SIZE : Nat) : Int) < ((BOOTFS_HASH_SIZE : Nat) : Int) :=
    Int.tmod_lt_of_pos _ (by decide)
  have hb : devfs_vnode_hash_func (some n) 0 BOOTFS_HASH_SIZE < t.table.length := by
    rw [hlen]
    simp only [devfs_vnode_hash_func, to_uint32]
    have h3 : ((BOOTFS_HASH_SIZE : Nat) : Int) = 16 := rfl
    rw [h3] at h1 h2 ⊢
    have h4 : (BOOTFS_HASH_SIZE : Nat) = 16 := rfl
    rw [h4]
    omega
  simp only [hash_insert, hlen]
  rw [List.getElem?_eq_getElem hb]
  exact ⟨_, rfl⟩

theorem publish_component_total (w : Kernel) (dir : Nat) (comp : List Char) (at_leaf : Bool)
    (path : List Char) (calls : Nat) (d : devfs_vnode)
    (ht : TreeInv w) (hc : ChainInv w) (hid : IdInv w) (hix : IndexInv w)
    (hd : deref w.vnodes dir = some d) (hdir : d.stream.type = STREAM_TYPE_DIR)
    (hcount : w.vnodes.length < 2147483648) :
    ∃ w1 r, publish_component w dir comp at_leaf path calls = some (w1, r) ∧
      TreeInv w1 ∧ ChainInv w1 ∧ IdInv w1 ∧ IndexInv w1 ∧
      w1.vnodes.length ≤ w.vnodes.length + 1 := by
  obtain ⟨found, hfind⟩ := find_in_dir_total w hc dir d comp hd
  by_cases hz : found = 0
  · subst hz
    obtain ⟨f, hf, ⟨hlen, -⟩, -⟩ := hix.table
    obtain ⟨f0, hf0, hcounter⟩ := hid.counter
    rw [hf] at hf0
    cases hf0
    have hnn : 0 ≤ (published_node f dir d comp at_leaf path calls).id := by
      show 0 ≤ f.next_vnode_id
      rw [hcounter, int32_wrap_small _ (by omega) (by omega)]
      omega
    obtain ⟨t, ht1⟩ := hash_insert_total f.vnode_list_hash (w.vnodes.length + 1) _ hlen hnn
    refine ⟨link_new w dir d f t (published_node f dir d comp at_leaf path calls),
      Sum.inl (w.vnodes.length + 1), ?_,
      link_new_tree w dir d f t _ ht hd hdir hf rfl rfl (published_node_stream_head ..),
      link_new_chain w dir d f t _ hc hd rfl (published_node_stream_head ..),
      link_new_ids w dir d f t _ hid hd hf rfl,
      link_new_index w dir d f t _ hix hd hf ht1, by rw [link_new_length]⟩
    rw [publish_component_new w dir comp at_leaf path calls d f ht.avail hd hdir hf hfind, ht1]
    rfl
  · cases at_leaf with
    | true =>
      exact ⟨w, _, publish_component_found w dir comp true path calls found hz hfind (Or.inl rfl),
        ht, hc, hid, hix, Nat.le_succ _⟩
    | false =>
      have hfl : found ≤ w.vnodes.length := by
        simp only [devfs_find_in_dir, hd, hdir, ne_eq, not_true_eq_false, if_false] at hfind
        by_cases h1 : comp = ['.']
        · simp only [h1, if_true, Option.some.injEq] at hfind
          rw [← hfind]
          exact (deref_some_bound hd).2
        · by_cases h2 : comp = ['.', '.']
          · simp [h2] at hfind
            obtain ⟨dd, hdd, -⟩ := ht.parent dir d hd
            rw [← hfind]
            exact (deref_some_bound hdd).2
          · simp only [h1, h2, if_false] at hfind
            have hres : ∀ (s v r : Nat), find_in_dir_loop w.vnodes comp s v = some r →
                v ≤ w.vnodes.length → r ≤ w.vnodes.length := by
              intro s
              induction s with
              | zero => intro v r hr; simp [find_in_dir_loop] at hr
              | succ s ih =>
                intro v r hr hv
                simp only [find_in_dir_loop] at hr
                by_cases hv0 : v = 0
                · simp only [hv0, if_true, Option.some.injEq] at hr
                  omega
                · simp only [hv0, if_false] at hr
                  cases hn : deref w.vnodes v with
                  | none => simp [hn] at hr
                  | some n =>
                    simp only [hn] at hr
                    by_cases hname : n.name = comp
                    · simp only [hname, if_true, Option.some.injEq] at hr
                      omega
                    · simp only [hname, if_false] at hr
                      have := hc.next_lt v n hn
                      exact ih n.dir_next r hr (by omega)
            exact hres _ _ _ hfind (hc.head_le dir d hd)
      obtain ⟨n, hn⟩ := hc.alloc found (Nat.pos_of_ne_zero hz) hfl
      by_cases hty : n.stream.type = STREAM_TYPE_DIR
      · exact ⟨w, _, publish_component_found_dir w dir comp path calls found n hfind hn hty,
          ht, hc, hid, hix, Nat.le_succ _⟩
      · exact ⟨w, _, publish_component_found w dir comp false path calls found hz hfind
          (Or.inr ⟨n, hn, hty⟩), ht, hc, hid, hix, Nat.le_succ _⟩

theorem publish_comps_total (path : List Char) (calls : Nat) :
    ∀ (cs : List (List Char)) (w : Kernel) (dir : Nat) (d : devfs_vnode), cs ≠ [] →
      TreeInv w → ChainInv w → IdInv w → IndexInv w →
      deref w.vnodes dir = some d → d.stream.type = STREAM_TYPE_DIR →
      w.vnodes.length + cs.length ≤ 2147483648 →
      ∃ w1 e, publish_comps path calls cs dir w = some (w1, e) ∧
        (e = retcode.num 0 ∨ e = retcode.ERR_VFS_ALREADY_EXISTS) := by
  intro cs
  induction cs with
  | nil => intro w dir d hne; exact absurd rfl hne
  | cons c cs ih =>
    intro w dir d _ ht hc hid hix hd hdir hcount
    simp only [List.length_cons] at hcount
    cases cs with
    | nil =>
      obtain ⟨w1, r, hpc, -⟩ := publish_component_total w dir c true path calls d ht hc hid hix
        hd hdir (by omega)
      simp only [publish_comps, hpc]
      cases r with
      | inl v => exact ⟨w1, _, rfl, Or.inl rfl⟩
      | inr e =>
        obtain ⟨he, -⟩ := publish_component_inr w w1 dir c true path calls d e ht hd hdir hpc
        exact ⟨w1, _, rfl, Or.inr he⟩
    | cons c2 cs2 =>
      obtain ⟨w1, r, hpc, ht1, hc1, hid1, hix1, hlen1⟩ :=
        publish_component_total w dir c false path calls d ht hc hid hix hd hdir (by omega)
      rw [publish_comps_cons_cons, hpc]
      cases r with
      | inl v =>
        obtain ⟨-, -, n, hn, hty, -⟩ :=
          publish_component_inl w w1 dir c false path calls d v ht hd hdir hpc
        simp only [List.length_cons] at hcount
        exact ih w1 v n (List.cons_ne_nil _ _) ht1 hc1 hid1 hix1 hn (hty rfl)
          (by simp only [List.length_cons]; omega)
      | inr e =>
        obtain ⟨he, -⟩ := publish_component_inr w w1 dir c false path calls d e ht hd hdir hpc
        exact ⟨w1, _, rfl, Or.inr he⟩

theorem path_components_from_length :
    ∀ (rest comp : List Char), (path_components_from comp rest).length ≤ rest.length + 1 := by
  intro rest
  induction rest with
  | nil => intro comp; simp [path_components_from]
  | cons c rest ih =>
    intro comp
    simp only [path_components_from]
    split
    · simp only [List.length_cons]
      have := ih []
      omega
    · simp only [List.length_cons]
      have := ih (comp ++ [c])
      omega

/-- In a state reached from mount by publishes `devfs_publish_device` returns, with 0 or
`ERR_VFS_ALREADY_EXISTS`, for every path, as long as the id counter cannot overflow during the
call. -/
theorem publish_device_total (maxlen : Nat) (w : Kernel) (path : List Char) (calls : Nat)
    (hw : Reachable maxlen w) (hcount : w.vnodes.length + path.length + 1 ≤ 2147483648) :
    ∃ w1 e, devfs_publish_device maxlen w path calls = some (w1, e) ∧
      (e = retcode.num 0 ∨ e = retcode.ERR_VFS_ALREADY_EXISTS) := by
  have ht := reachable_tree maxlen w hw
  obtain ⟨f, r, hf, hr, hty, -⟩ := ht.fs
  rw [publish_device_eq_comps maxlen w path calls f hf]
  refine publish_comps_total path calls _ w _ r (path_components_from_ne_nil _ _) ht
    (reachable_chain maxlen w hw) (reachable_ids maxlen w hw) (reachable_index maxlen w hw)
    hr hty ?_
  have h1 := path_components_from_length (List.take maxlen path) []
  have h2 : (List.take maxlen path).length ≤ path.length := by
    rw [List.length_take]
    exact Nat.min_le_right _ _
  simp only [path_components]
  omega

/-! ## The open-file cookie layer -/

/-- C11: `devfs_open` on a directory sets the cursor of the new cookie to the head of the child
list, but it does not register the cookie in the jar.  With the child list "b", "a" of the
root: for the requested stream types 'any' and 'directory' the call returns 0 and cookie 1, whose
cursor is the head "b" of the child list; the `jar_head` of the root is still `NULL` afterwards
and the jar of the root is empty, so cookie 1 is not reachable from it.  After
`insert_cookie_in_jar` the jar would hold the cookie. -/
theorem open_does_not_register_cookie :
    devfs_open demo_dev_open demo_ab 1 STREAM_TYPE_ANY =
      some (demo_ab_open, retcode.num 0, some 1) ∧
    devfs_open demo_dev_open demo_ab 1 STREAM_TYPE_DIR =
      some (demo_ab_open, retcode.num 0, some 1) ∧
    (deref demo_ab.vnodes 1).map (fun n => n.stream.dir_head) = some 3 ∧
    (deref demo_ab_open.cookies 1).map (fun c => c.ptr) = some 3 ∧
    (deref demo_ab_open.vnodes 1).map (fun n => n.stream.jar_head) = some 0 ∧
    dir_jar demo_ab_open 1 = [] ∧
    dir_jar demo_ab_jar 1 = [1] := by
  refine ⟨rfl, rfl, rfl, rfl, rfl, rfl, rfl⟩

/-- C12: `devfs_read` on a directory cookie.  When the cursor is `NULL` it returns 0 and changes
nothing.  Otherwise, with `n` the node the cursor references: when `strlen(name) + 1 > len` it
returns `ERR_VFS_INSUFFICIENT_BUF` and changes nothing; when `strlen(name) + 1 <= len` and the
copy to the caller succeeds, it copies the name (and its terminator), returns `strlen(name) + 1`
and sets the cursor to the next sibling of `n`, leaving everything else as it was. -/
theorem read_dir_cookie (user_strcpy : List Char → retcode)
    (dev_read : Nat → Nat → Int → Int → retcode) (w : Kernel) (v cookie : Nat)
    (c : devfs_cookie) (sn : devfs_vnode) (pos len : Int)
    (hc : deref w.cookies cookie = some c) (hs : deref w.vnodes c.s = some sn)
    (hdir : sn.stream.type = STREAM_TYPE_DIR) :
    (c.ptr = 0 →
      devfs_read user_strcpy dev_read w v cookie pos len = some (w, retcode.num 0, none)) ∧
    (∀ n, deref w.vnodes c.ptr = some n →
      ((n.name.length : Int) + 1 > len →
        devfs_read user_strcpy dev_read w v cookie pos len =
          some (w, retcode.ERR_VFS_INSUFFICIENT_BUF, none)) ∧
      ((n.name.length : Int) + 1 ≤ len → (user_strcpy n.name).is_negative = false →
        devfs_read user_strcpy dev_read w v cookie pos len =
          some ({ w with cookies := store w.cookies cookie (some { c with ptr := n.dir_next }) },
                retcode.num ((n.name.length : Int) + 1), some n.name) ∧
        deref (store w.cookies cookie (some { c with ptr := n.dir_next })) cookie =
          some { c with ptr := n.dir_next })) := by
  refine ⟨?_, ?_⟩
  · intro hp
    simp [devfs_read, hc, hs, hdir, hp]
  · intro n hn
    have hp : c.ptr ≠ 0 := (deref_some_bound hn).1.ne'
    have hcb := deref_some_bound hc
    refine ⟨?_, ?_⟩
    · intro hlen
      simp [devfs_read, hc, hs, hdir, hp, hn, hlen]
    · intro hlen hcopy
      have hlen1 : ¬ ((n.name.length : Int) + 1 > len) := by omega
      refine ⟨?_, deref_store_self _ _ _ hcb.1 hcb.2⟩
      simp only [devfs_read, hc, hs, hdir, hp, hn, hlen1, hcopy, if_false]
      simp

/-- C12, witness: the first `devfs_read` on a cookie opened on the root with the child list "b",
"a" returns 2 and the name "b", and moves the cursor to "a" (node 2); with a buffer of one byte it
returns `ERR_VFS_INSUFFICIENT_BUF`; on the exhausted cookie it returns 0. -/
theorem read_dir_cookie_witness :
    devfs_read demo_user_strcpy demo_dev_read demo_ab_exhausted 1 1 0 256 =
      some (demo_ab_exhausted, retcode.num 0, none) ∧
    devfs_read demo_user_strcpy demo_dev_read demo_ab_open 1 1 0 1 =
      some (demo_ab_open, retcode.ERR_VFS_INSUFFICIENT_BUF, none) ∧
    (devfs_read demo_user_strcpy demo_dev_read demo_ab_open 1 1 0 256).map
      (fun r => (r.2, (deref r.1.cookies 1).map (fun k => k.ptr))) =
      some ((retcode.num 2, some ['b']), some 2) :=
  ⟨(read_dir_cookie demo_user_strcpy demo_dev_read demo_ab_exhausted 1 1
      { s := 1, oflags := 0, next := 0, prev := 0, ptr := 0, dcookie := 0 } _ 0 256
      rfl rfl rfl).1 rfl,
    ((read_dir_cookie demo_user_strcpy demo_dev_read demo_ab_open 1 1
      { s := 1, oflags := 0, next := 0, prev := 0, ptr := 3, dcookie := 0 } _ 0 1
      rfl rfl rfl).2 _ rfl).1 (by decide),
    by
      rw [(((read_dir_cookie demo_user_strcpy demo_dev_read demo_ab_open 1 1
        { s := 1, oflags := 0, next := 0, prev := 0, ptr := 3, dcookie := 0 } _ 0 256
        rfl rfl rfl).2 _ rfl).2 (by decide) rfl).1]
      rfl⟩

theorem read_all_chain (user_strcpy : List Char → retcode)
    (dev_read : Nat → Nat → Int → Int → retcode)
    (hcopy : ∀ name, (user_strcpy name).is_negative = false) (v cookie : Nat) (len : Int) :
    ∀ (l : List Nat) (w : Kernel) (c : devfs_cookie) (sn : devfs_vnode)
      (names : List (List Char)) (calls : Nat),
      deref w.cookies cookie = some c → deref w.vnodes c.s = some sn →
      sn.stream.type = STREAM_TYPE_DIR → is_child_chain w.vnodes c.ptr l = true →
      node_names w.vnodes l = some names → (∀ nm ∈ names, (nm.length : Int) + 1 ≤ len) →
      l.length < calls →
      ∃ w1, devfs_read_all user_strcpy dev_read calls w v cookie len = some (w1, names) ∧
        w1.vnodes = w.vnodes ∧
        deref w1.cookies cookie = some { c with ptr := 0 } := by
  intro l
  induction l with
  | nil =>
    intro w c sn names calls hc hs hdir hchain hnames _ hcalls
    obtain ⟨k, rfl⟩ : ∃ k, calls = k + 1 := ⟨calls - 1, by simp at hcalls; omega⟩
    simp only [is_child_chain, decide_eq_true_eq] at hchain
    simp only [node_names, Option.some.injEq] at hnames
    subst hnames
    refine ⟨w, ?_, rfl, ?_⟩
    · simp only [devfs_read_all]
      rw [(read_dir_cookie user_strcpy dev_read w v cookie c sn 0 len hc hs hdir).1 hchain]
      simp
    · rw [hc, ← hchain]
  | cons a rest ih =>
    intro w c sn names calls hc hs hdir hchain hnames hfit hcalls
    obtain ⟨k, rfl⟩ : ∃ k, calls = k + 1 := ⟨calls - 1, by simp at hcalls; omega⟩
    simp only [is_child_chain, Bool.and_eq_true, decide_eq_true_eq] at hchain
    obtain ⟨⟨hpa, hp0⟩, hrest⟩ := hchain
    cases hn : deref w.vnodes c.ptr with
    | none => simp [hn] at hrest
    | some n =>
      simp only [hn] at hrest
      rw [← hpa] at hnames
      simp only [node_names, hn] at hnames
      cases hrn : node_names w.vnodes rest with
      | none => simp [hrn] at hnames
      | some rnames =>
        simp only [hrn, Option.some.injEq] at hnames
        subst hnames
        have hcb := deref_some_bound hc
        have hfit1 : (n.name.length : Int) + 1 ≤ len := hfit _ (List.mem_cons_self _ _)
        obtain ⟨hread, hnewc⟩ := ((read_dir_cookie user_strcpy dev_read w v cookie c sn 0 len
          hc hs hdir).2 n hn).2 hfit1 (hcopy _)
        obtain ⟨w1, hall, hv1, hc1⟩ := ih
          { w with cookies := store w.cookies cookie (some { c with ptr := n.dir_next }) }
          { c with ptr := n.dir_next } sn rnames k hnewc hs hdir hrest hrn
          (fun nm hnm => hfit nm (List.mem_cons_of_mem _ hnm))
          (by simp only [List.length_cons] at hcalls; omega)
        refine ⟨w1, ?_, hv1, hc1⟩
        simp only [devfs_read_all, hread, hall]

/-- C13: `devfs_seek` on a directory cookie.  With `SEEK_SET` and position 0 it returns 0 and
sets the cursor to the current head of the child list of the directory, changing nothing else
(so that, the child list being `l`, repeated calls of `devfs_read` with a large enough buffer
then return the names of all of `l`, in order, and then 0); with any other position or seek type
it returns `ERR_INVALID_ARGS` and changes nothing, the cursor included. -/
theorem seek_dir_cookie (dev_seek : Nat → Nat → Int → seek_type → retcode)
    (user_strcpy : List Char → retcode) (dev_read : Nat → Nat → Int → Int → retcode)
    (w : Kernel) (v cookie : Nat) (c : devfs_cookie) (sn : devfs_vnode) (pos : Int)
    (st : seek_type) (hc : deref w.cookies cookie = some c)
    (hs : deref w.vnodes c.s = some sn) (hdir : sn.stream.type = STREAM_TYPE_DIR) :
    (st = seek_type.SEEK_SET ∧ pos = 0 →
      ∃ w1, devfs_seek dev_seek w v cookie pos st = some (w1, retcode.num 0) ∧
        deref w1.cookies cookie = some { c with ptr := sn.stream.dir_head } ∧
        w1.vnodes = w.vnodes ∧
        ∀ (l : List Nat) (names : List (List Char)) (len : Int),
          is_child_chain w.vnodes sn.stream.dir_head l = true →
          node_names w.vnodes l = some names → (∀ nm ∈ names, (nm.length : Int) + 1 ≤ len) →
          (∀ name, (user_strcpy name).is_negative = false) →
          ∃ w2, devfs_read_all user_strcpy dev_read (l.length + 1) w1 v cookie len =
            some (w2, names)) ∧
    (¬ (st = seek_type.SEEK_SET ∧ pos = 0) →
      devfs_seek dev_seek w v cookie pos st = some (w, retcode.ERR_INVALID_ARGS)) := by
  have hcb := deref_some_bound hc
  refine ⟨?_, ?_⟩
  · rintro ⟨rfl, rfl⟩
    have hnew : deref (store w.cookies cookie (some { c with ptr := sn.stream.dir_head })) cookie =
        some { c with ptr := sn.stream.dir_head } := deref_store_self _ _ _ hcb.1 hcb.2
    refine ⟨{ w with cookies := store w.cookies cookie (some { c with ptr := sn.stream.dir_head }) },
      ?_, hnew, rfl, ?_⟩
    · simp [devfs_seek, hc, hs, hdir]
    · intro l names len hchain hnames hfit hcopy
      obtain ⟨w2, hall, -⟩ := read_all_chain user_strcpy dev_read hcopy v cookie len l
        { w with cookies := store w.cookies cookie (some { c with ptr := sn.stream.dir_head }) }
        { c with ptr := sn.stream.dir_head } sn names (l.length + 1) hnew hs hdir hchain hnames
        hfit (Nat.lt_succ_self _)
      exact ⟨w2, hall⟩
  · intro hne
    cases st with
    | SEEK_SET =>
      have hpos : pos ≠ 0 := fun hp => hne ⟨rfl, hp⟩
      simp [devfs_seek, hc, hs, hdir, hpos]
    | SEEK_CUR => simp [devfs_seek, hc, hs, hdir]
    | SEEK_END => simp [devfs_seek, hc, hs, hdir]

/-- C13, witness: on the exhausted cookie of the root (child list "b", "a"), `devfs_seek` with
`SEEK_SET` and 0 returns 0, after which the enumeration returns "b", "a"; with `SEEK_SET` and 1,
and with `SEEK_END` and 0, it returns `ERR_INVALID_ARGS` and changes nothing. -/
theorem seek_dir_cookie_witness :
    (∃ w1, devfs_seek demo_dev_seek demo_ab_exhausted 1 1 0 seek_type.SEEK_SET =
        some (w1, retcode.num 0) ∧
      ∃ w2, devfs_read_all demo_user_strcpy demo_dev_read 3 w1 1 1 256 =
        some (w2, [['b'], ['a']])) ∧
    devfs_seek demo_dev_seek demo_ab_exhausted 1 1 1 seek_type.SEEK_SET =
      some (demo_ab_exhausted, retcode.ERR_INVALID_ARGS) ∧
    devfs_seek demo_dev_seek demo_ab_exhausted 1 1 0 seek_type.SEEK_END =
      some (demo_ab_exhausted, retcode.ERR_INVALID_ARGS) := by
  have h := seek_dir_cookie demo_dev_seek demo_user_strcpy demo_dev_read demo_ab_exhausted 1 1
    { s := 1, oflags := 0, next := 0, prev := 0, ptr := 0, dcookie := 0 }
    { all_next := 0, id := 0, name := [], redir_vnode := 0, parent := 1, dir_next := 0,
      stream := { type := STREAM_TYPE_DIR, dir_head := 3, jar_head := 0, full_name := none,
                  calls := 0 } }
  refine ⟨?_, (h 1 seek_type.SEEK_SET rfl rfl rfl).2 (by decide),
    (h 0 seek_type.SEEK_END rfl rfl rfl).2 (by decide)⟩
  obtain ⟨w1, h1, -, -, h2⟩ := (h 0 seek_type.SEEK_SET rfl rfl rfl).1 ⟨rfl, rfl⟩
  exact ⟨w1, h1, h2 [3, 2] [['b'], ['a']] 256 rfl rfl (by decide) (fun _ => rfl)⟩

/-- C16: `devfs_removevnode` on the nodes of the child list "b", "a" of the root.  For "b"
(node 3), whose `dir_next` is not `NULL`, the call ends in `panic`.  For "a" (node 2), which is
linked as the last entry of the list and so has a `NULL` `dir_next`, there is no `panic`: the
call returns 0, having removed "a" from the index and freed it, while "b" still links to it. -/
theorem removevnode_linked_last_entry :
    dir_children demo_ab 1 = [3, 2] ∧
    devfs_removevnode demo_ab 1 3 = none ∧
    devfs_removevnode demo_ab 1 2 = some (demo_ab_deleted, retcode.num 0) ∧
    deref demo_ab_deleted.vnodes 2 = none ∧
    (deref demo_ab_deleted.fss 1).map (fun f => hash_elements f.vnode_list_hash) =
      some [1, 3] ∧
    (deref demo_ab_deleted.vnodes 3).map (fun n => n.dir_next) = some 2 := by
  refine ⟨rfl, rfl, rfl, rfl, rfl, rfl⟩

/-! ## The length checks of the rtl8139 driver -/

/-- C17: for every cookie and position, `rtl8139_read` with a length below 1500 returns
`ERR_VFS_INSUFFICIENT_BUF` without calling the receive routine (the driver state is unchanged,
whatever the receive routine would report); `rtl8139_write` with a negative length returns
`ERR_INVALID_ARGS` and with a length above 1500 returns `ERR_VFS_INSUFFICIENT_BUF`, without
calling the transmit routine.  This holds in every driver state, with a device (`rtl` not
`NULL`) or without. -/
theorem rtl8139_length_checks (rtl8139_rx : Nat → Int → retcode) (s : rtl8139_driver)
    (cookie : Nat) (pos len : Int) :
    (len < 1500 →
      rtl8139_read rtl8139_rx s cookie pos len = (s, retcode.ERR_VFS_INSUFFICIENT_BUF)) ∧
    (len < 0 → rtl8139_write s cookie pos len = (s, retcode.ERR_INVALID_ARGS)) ∧
    (len > 1500 → rtl8139_write s cookie pos len = (s, retcode.ERR_VFS_INSUFFICIENT_BUF)) := by
  refine ⟨?_, ?_, ?_⟩
  · intro h
    simp [rtl8139_read, h]
  · intro h
    have h1 : ¬ len > 1500 := by omega
    simp [rtl8139_write, h, h1]
  · intro h
    simp [rtl8139_write, h]

/-- C17, witness: a read of 1499 bytes, a write of -1 bytes and a write of 1501 bytes, with a
device and without. -/
theorem rtl8139_length_checks_witness :
    rtl8139_read demo_rtl8139_rx demo_rtl_absent 0 0 1499 =
      (demo_rtl_absent, retcode.ERR_VFS_INSUFFICIENT_BUF) ∧
    rtl8139_read demo_rtl8139_rx demo_rtl_present 0 0 1499 =
      (demo_rtl_present, retcode.ERR_VFS_INSUFFICIENT_BUF) ∧
    rtl8139_write demo_rtl_absent 0 0 (-1) = (demo_rtl_absent, retcode.ERR_INVALID_ARGS) ∧
    rtl8139_write demo_rtl_present 0 0 (-1) = (demo_rtl_present, retcode.ERR_INVALID_ARGS) ∧
    rtl8139_write demo_rtl_absent 0 0 1501 =
      (demo_rtl_absent, retcode.ERR_VFS_INSUFFICIENT_BUF) ∧
    rtl8139_write demo_rtl_present 0 0 1501 =
      (demo_rtl_present, retcode.ERR_VFS_INSUFFICIENT_BUF) :=
  ⟨(rtl8139_length_checks demo_rtl8139_rx demo_rtl_absent 0 0 1499).1 (by decide),
    (rtl8139_length_checks demo_rtl8139_rx demo_rtl_present 0 0 1499).1 (by decide),
    (rtl8139_length_checks demo_rtl8139_rx demo_rtl_absent 0 0 (-1)).2.1 (by decide),
    (rtl8139_length_checks demo_rtl8139_rx demo_rtl_present 0 0 (-1)).2.1 (by decide),
    (rtl8139_length_checks demo_rtl8139_rx demo_rtl_absent 0 0 1501).2.2 (by decide),
    (rtl8139_length_checks demo_rtl8139_rx demo_rtl_present 0 0 1501).2.2 (by decide)⟩

/-! ## Publishing below a device -/

theorem publish_comps_below_device (calls : Nat) (full : List Char) (path2 : List Char)
    (calls2 : Nat) :
    ∀ (cs1 cs2 : List (List Char)) (w : Kernel) (dir : Nat), cs2 ≠ [] →
      resolves_to_device w calls full dir cs1 = true →
      publish_comps path2 calls2 (cs1 ++ cs2) dir w =
        some (w, retcode.ERR_VFS_ALREADY_EXISTS) := by
  intro cs1
  induction cs1 with
  | nil => intro cs2 w dir _ h; simp [resolves_to_device] at h
  | cons c cs ih =>
    intro cs2 w dir hne h
    simp only [resolves_to_device] at h
    cases hf : devfs_find_in_dir w dir c with
    | none => simp [hf] at h
    | some v =>
      simp only [hf] at h
      cases hn : deref w.vnodes v with
      | none => simp [hn] at h
      | some n =>
        simp only [hn] at h
        have hv : v ≠ 0 := (deref_some_bound hn).1.ne'
        cases cs with
        | nil =>
          simp only [Bool.and_eq_true, decide_eq_true_eq] at h
          obtain ⟨c2, cs3, rfl⟩ : ∃ c2 cs3, cs2 = c2 :: cs3 := by
            cases cs2 with
            | nil => exact absurd rfl hne
            | cons c2 cs3 => exact ⟨c2, cs3, rfl⟩
          have hty : n.stream.type ≠ STREAM_TYPE_DIR := by
            rw [h.1.1]
            decide
          rw [List.singleton_append, publish_comps_cons_cons,
            publish_component_found w dir c false path2 calls2 v hv hf (Or.inr ⟨n, hn, hty⟩)]
        | cons c2 cs3 =>
          simp only [Bool.and_eq_true, decide_eq_true_eq] at h
          rw [List.cons_append, List.cons_append, publish_comps_cons_cons,
            publish_component_found_dir w dir c path2 calls2 v n hf hn h.1]
          exact ih cs2 w v hne h.2

/-- C20: once a device has been published successfully at the path `p`, then in that state and
in every state reached from it by further publishes, `devfs_publish_device` on `p/s` returns
`ERR_VFS_ALREADY_EXISTS` for every suffix `s` and leaves the state unchanged: it creates no
node, and `p` still resolves to the device bound to its operation table. -/
theorem publish_below_device_exists (maxlen : Nat) (w w1 w2 : Kernel) (p sfx : List Char)
    (calls calls2 : Nat) (hw : Reachable maxlen w)
    (h : devfs_publish_device maxlen w p calls = some (w1, retcode.num 0))
    (hlater : PublishSteps maxlen w1 w2) :
    devfs_publish_device maxlen w2 (p ++ '/' :: sfx) calls2 =
      some (w2, retcode.ERR_VFS_ALREADY_EXISTS) ∧
    resolves_to_device w2 calls p (devfs_root w2) (path_components (List.take maxlen p)) =
      true := by
  have ht := reachable_tree maxlen w hw
  obtain ⟨f, rt, hf, hr, hty, -⟩ := ht.fs
  obtain ⟨ht1, hex⟩ := publish_device_inv maxlen w w1 _ calls _ ht h
  obtain ⟨-, hex2⟩ := publish_steps_inv maxlen w1 w2 ht1 hlater
  obtain ⟨f2, hf2, hroot⟩ := (hex.trans hex2).root f hf
  rw [publish_device_eq_comps maxlen w _ calls f hf] at h
  have hres := resolves_extends calls _ _ w1 w2 _ hex2
    (publish_comps_resolves _ calls _ w w1 _ rt ht hr hty h)
  refine ⟨?_, by rw [devfs_root_eq w2 f2 hf2, hroot]; exact hres⟩
  rw [publish_device_eq_comps maxlen w2 _ calls2 f2 hf2, hroot]
  by_cases hp : p.length < maxlen
  · have h1 : List.take maxlen p = p := List.take_of_length_le (by omega)
    have h2 : List.take maxlen (p ++ '/' :: sfx) =
        p ++ '/' :: List.take (maxlen - p.length - 1) sfx := by
      rw [List.take_append_eq_append_take, h1]
      obtain ⟨k, hk⟩ : ∃ k, maxlen - p.length = k + 1 := ⟨maxlen - p.length - 1, by omega⟩
      rw [hk, List.take_succ_cons]
      rfl
    rw [h1] at hres
    rw [h2, path_components, path_components_from_append]
    exact publish_comps_below_device calls p _ calls2 _ _ w2 _
      (path_components_from_ne_nil _ _) hres
  · have h1 : List.take maxlen (p ++ '/' :: sfx) = List.take maxlen p :=
      List.take_append_of_le_length (by omega)
    rw [h1]
    refine publish_comps_of_resolves calls p _ calls2 _ [] w2 _
      (path_components_from_ne_nil _ _) ?_
    rw [List.append_nil]
    exact hres

/-- C20, witness: after `publish("net/rtl8139/0", 99)`, `publish("net/rtl8139/0/x", 96)` returns
`ERR_VFS_ALREADY_EXISTS` and changes nothing. -/
theorem publish_below_device_exists_witness :
    Reachable 512 demo_mounted ∧
    devfs_publish_device 512 demo_mounted rtl8139_path 99 = some (demo_net, retcode.num 0) ∧
    PublishSteps 512 demo_net demo_net ∧
    devfs_publish_device 512 demo_net (rtl8139_path ++ '/' :: ['x']) 96 =
      some (demo_net, retcode.ERR_VFS_ALREADY_EXISTS) ∧
    resolves_to_device demo_net 99 rtl8139_path (devfs_root demo_net)
      (path_components (List.take 512 rtl8139_path)) = true :=
  ⟨demo_mounted_reachable, demo_net_publish, PublishSteps.refl _,
    publish_below_device_exists 512 demo_mounted demo_net demo_net rtl8139_path ['x'] 99 96
      demo_mounted_reachable demo_net_publish (PublishSteps.refl _)⟩

/-! ## The index finds every node by its id -/

theorem find_in_dir_loop_live (h : List (Option devfs_vnode)) (name : List Char) :
    ∀ (s v r : Nat), find_in_dir_loop h name s v = some r → r ≠ 0 →
      ∃ n, deref h r = some n ∧ n.name = name := by
  intro s
  induction s with
  | zero => intro v r hr; simp [find_in_dir_loop] at hr
  | succ s ih =>
    intro v r hr hr0
    simp only [find_in_dir_loop] at hr
    by_cases hv : v = 0
    · simp only [hv, if_true, Option.some.injEq] at hr
      exact absurd hr.symm hr0
    · simp only [hv, if_false] at hr
      cases hn : deref h v with
      | none => simp [hn] at hr
      | some n =>
        simp only [hn] at hr
        by_cases hname : n.name = name
        · simp only [hname, if_true, Option.some.injEq] at hr
          subst hr
          exact ⟨n, hn, hname⟩
        · simp only [hname, if_false] at hr
          exact ih _ _ hr hr0

/-- A node that `devfs_find_in_dir` returns in a mounted state is live, and the node it was
looked up in is a directory. -/
theorem find_in_dir_live (w : Kernel) (ht : TreeInv w) (d : Nat) (name : List Char) (v : Nat)
    (hfind : devfs_find_in_dir w d name = some v) (hv : v ≠ 0) :
    (∃ n, deref w.vnodes v = some n) ∧
    ∃ dn, deref w.vnodes d = some dn ∧ dn.stream.type = STREAM_TYPE_DIR := by
  cases hd : deref w.vnodes d with
  | none => simp [devfs_find_in_dir, hd] at hfind
  | some dn =>
    simp only [devfs_find_in_dir, hd] at hfind
    by_cases hty : dn.stream.type = STREAM_TYPE_DIR
    · refine ⟨?_, dn, rfl, hty⟩
      simp only [hty, ne_eq, not_true_eq_false, if_false] at hfind
      by_cases h1 : name = ['.']
      · simp only [h1, if_true, Option.some.injEq] at hfind
        subst hfind
        exact ⟨dn, hd⟩
      · simp only [h1, if_false] at hfind
        by_cases h2 : name = ['.', '.']
        · simp only [h2, if_true, Option.some.injEq] at hfind
          subst hfind
          obtain ⟨pn, hpn, -⟩ := ht.parent d dn hd
          exact ⟨pn, hpn⟩
        · simp only [h2, if_false] at hfind
          obtain ⟨n, hn, -⟩ := find_in_dir_loop_live _ _ _ _ _ hfind hv
          exact ⟨n, hn⟩
    · simp only [hty, ne_eq, not_false_eq_true, if_true, Option.some.injEq] at hfind
      exact absurd hfind.symm hv

theorem reachable_keeps (P : Kernel → Prop) (maxlen : Nat)
    (hmount : ∀ id, P (mounted (boot none) id))
    (hstep : ∀ (w : Kernel) (dir : Nat) (d : devfs_vnode) (f : devfs) (t : hash_table)
      (comp : List Char) (at_leaf : Bool) (path : List Char) (calls : Nat),
      TreeInv w → ChainInv w → P w → deref w.vnodes dir = some d →
      deref w.fss w.thedevfs = some f →
      P (link_new w dir d f t (published_node f dir d comp at_leaf path calls)))
    (w : Kernel) (h : Reachable maxlen w) : P w := by
  induction h with
  | mount id w out hm =>
    rw [mount_boot_result id w out hm]
    exact hmount id
  | publish w w1 path calls err hr hp ih =>
    have ht := reachable_tree maxlen w hr
    have hc := reachable_chain maxlen w hr
    obtain ⟨f, r, hf, hrt, hty, -⟩ := ht.fs
    rw [publish_device_eq_comps maxlen w path calls f hf] at hp
    have hboth : ChainInv w1 ∧ P w1 := by
      refine publish_comps_preserves (fun x => ChainInv x ∧ P x) path calls ?_ _ w w1 _ r err ht
        ⟨hc, ih⟩ hrt hty hp
      intro w2 dir d f2 t comp at_leaf ht2 hp2 hd hf2 _
      exact ⟨link_new_chain w2 dir d f2 t _ hp2.1 hd rfl (published_node_stream_head ..),
        hstep w2 dir d f2 t comp at_leaf path calls ht2 hp2.1 hp2.2 hd hf2⟩
    exact hboth.2

theorem link_new_root (w : Kernel) (dir : Nat) (d : devfs_vnode) (f : devfs) (t : hash_table)
    (node : devfs_vnode) (hf : deref w.fss w.thedevfs = some f) :
    devfs_root (link_new w dir d f t node) = devfs_root w := by
  rw [devfs_root_eq _ _ (link_new_fs w dir d f t node hf), devfs_root_eq w f hf]

theorem child_list_mem_mono (h : List (Option devfs_vnode)) (q : Nat) :
    ∀ (s s1 v : Nat), q ∈ child_list_from h s v → s ≤ s1 → q ∈ child_list_from h s1 v := by
  intro s
  induction s with
  | zero => intro s1 v hq; simp [child_list_from] at hq
  | succ s ih =>
    intro s1 v hq hle
    obtain ⟨s2, rfl⟩ : ∃ s2, s1 = s2 + 1 := ⟨s1 - 1, by omega⟩
    simp only [child_list_from] at hq ⊢
    by_cases hv : v = 0
    · simp [hv] at hq
    · simp only [hv, if_false] at hq ⊢
      cases hn : deref h v with
      | none => simp [hn] at hq
      | some n =>
        simp only [hn, List.mem_cons] at hq ⊢
        rcases hq with h1 | h1
        · exact Or.inl h1
        · exact Or.inr (ih s2 _ h1 (by omega))

theorem child_list_mem_agree (h h1 : List (Option devfs_vnode)) (q : Nat)
    (hag : ∀ p n, deref h p = some n →
      ∃ n1, deref h1 p = some n1 ∧ n1.name = n.name ∧ n1.dir_next = n.dir_next) :
    ∀ (s v : Nat), q ∈ child_list_from h s v → q ∈ child_list_from h1 s v := by
  intro s
  induction s with
  | zero => intro v hq; simp [child_list_from] at hq
  | succ s ih =>
    intro v hq
    simp only [child_list_from] at hq ⊢
    by_cases hv : v = 0
    · simp [hv] at hq
    · simp only [hv, if_false] at hq ⊢
      cases hn : deref h v with
      | none => simp [hn] at hq
      | some n =>
        obtain ⟨n1, hn1, -, hnext⟩ := hag v n hn
        simp only [hn, hn1, hnext, List.mem_cons] at hq ⊢
        rcases hq with h2 | h2
        · exact Or.inl h2
        · exact Or.inr (ih _ h2)

theorem child_list_decreasing (w : Kernel) (hc : ChainInv w) :
    ∀ (s v : Nat), (∀ a ∈ child_list_from w.vnodes s v, a ≤ v) ∧
      (child_list_from w.vnodes s v).Pairwise (fun a b => a ≠ b) := by
  intro s
  induction s with
  | zero => intro v; simp [child_list_from]
  | succ s ih =>
    intro v
    simp only [child_list_from]
    by_cases hv : v = 0
    · simp [hv]
    · simp only [hv, if_false]
      cases hn : deref w.vnodes v with
      | none => simp
      | some n =>
        have hlt := hc.next_lt v n hn
        obtain ⟨hle, hpw⟩ := ih n.dir_next
        refine ⟨?_, ?_⟩
        · intro a ha
          rcases List.mem_cons.1 ha with h1 | h1
          · omega
          · have := hle a h1
            omega
        · refine List.pairwise_cons.2 ⟨?_, hpw⟩
          intro a ha
          have := hle a ha
          omega

theorem link_new_children (w : Kernel) (dir : Nat) (d : devfs_vnode) (f : devfs)
    (t : hash_table) (node : devfs_vnode) (hd : deref w.vnodes dir = some d)
    (hnext : node.dir_next = d.stream.dir_head) (x q : Nat)
    (hq : q ∈ dir_children w x) : q ∈ dir_children (link_new w dir d f t node) x := by
  have hag : ∀ p m, deref w.vnodes p = some m →
      ∃ m1, deref (link_new w dir d f t node).vnodes p = some m1 ∧ m1.name = m.name ∧
        m1.dir_next = m.dir_next := by
    intro p m hm
    obtain ⟨m1, e1, e2, e3, -⟩ := link_new_node w dir d f t node hd p m hm
    exact ⟨m1, e1, e2, e3⟩
  cases hx : deref w.vnodes x with
  | none => simp [dir_children, hx] at hq
  | some xn =>
    simp only [dir_children, hx] at hq
    by_cases hxd : x = dir
    · subst hxd
      rw [hd] at hx
      cases hx
      simp only [dir_children, link_new_deref_dir _ _ _ _ _ _ hd, link_new_length,
        child_list_from, Nat.add_one_ne_zero, if_false, link_new_deref_new _ _ _ _ _ _ hd,
        hnext]
      exact List.mem_cons_of_mem _ (child_list_mem_agree _ _ q hag _ _ hq)
    · obtain ⟨n1, hn1, -, -, -, -, -, -, -, -, hsame⟩ := link_new_node w dir d f t node hd x xn hx
      simp only [dir_children, hn1, hsame hxd, link_new_length]
      exact child_list_mem_mono _ q _ _ _ (child_list_mem_agree _ _ q hag _ _ hq) (by omega)

theorem reachable_self_parent (maxlen : Nat) (w : Kernel) (h : Reachable maxlen w) :
    ∀ p n, deref w.vnodes p = some n → n.parent = p → p = devfs_root w := by
  refine reachable_keeps
    (fun x => ∀ p n, deref x.vnodes p = some n → n.parent = p → p = devfs_root x) maxlen ?_ ?_ w h
  · intro id p n hp _
    exact (deref_singleton _ p n hp).1
  · intro w dir d f t comp at_leaf path calls _ _ hP hd hf p n hp hself
    rw [link_new_root w dir d f t _ hf]
    rcases link_new_cases w dir d f t _ hd p n hp with ⟨h1, rfl⟩ | ⟨h1, rfl⟩ | ⟨-, hold⟩
    · have hpar : (published_node f dir d comp at_leaf path calls).parent = dir := rfl
      have := (deref_some_bound hd).2
      omega
    · rw [← h1] at hd
      exact hP p d hd hself
    · exact hP p n hold hself

theorem reachable_member (maxlen : Nat) (w : Kernel) (h : Reachable maxlen w) :
    ∀ p n, deref w.vnodes p = some n → p ≠ devfs_root w → p ∈ dir_children w n.parent := by
  refine reachable_keeps
    (fun x => ∀ p n, deref x.vnodes p = some n → p ≠ devfs_root x →
      p ∈ dir_children x n.parent) maxlen ?_ ?_ w h
  · intro id p n hp hne
    exact absurd (deref_singleton _ p n hp).1 hne
  · intro w dir d f t comp at_leaf path calls _ _ hP hd hf p n hp hne
    rw [link_new_root w dir d f t _ hf] at hne
    rcases link_new_cases w dir d f t _ hd p n hp with ⟨h1, rfl⟩ | ⟨h1, rfl⟩ | ⟨-, hold⟩
    · have hpar : (published_node f dir d comp at_leaf path calls).parent = dir := rfl
      rw [hpar, h1]
      simp only [dir_children, link_new_deref_dir _ _ _ _ _ _ hd, link_new_length,
        child_list_from, Nat.add_one_ne_zero, if_false, link_new_deref_new _ _ _ _ _ _ hd]
      exact List.mem_cons_self _ _
    · subst h1
      exact link_new_children w p d f t (published_node f p d comp at_leaf path calls) hd rfl
        _ _ (hP p d hd hne)
    · exact link_new_children w dir d f t (published_node f dir d comp at_leaf path calls) hd rfl
        _ _ (hP p n hold hne)

/-- C15: in every state reached from mount by publishes (whatever they returned): the root is in
the index and is its own parent, and no other node of the index is its own parent; the parent of
every other node of the index is a directory node whose child list contains it; the child list of
a directory has no repetition, its members have that directory as parent, and so no node is in
the child lists of two directories. -/
theorem tree_consistency (maxlen : Nat) (w : Kernel) (hw : Reachable maxlen w) :
    ∃ f, deref w.fss w.thedevfs = some f ∧
      f.root_vnode ∈ hash_elements f.vnode_list_hash ∧
      (∀ p ∈ hash_elements f.vnode_list_hash, ∃ n, deref w.vnodes p = some n ∧
        (n.parent = p ↔ p = f.root_vnode) ∧
        (p ≠ f.root_vnode → ∃ d, deref w.vnodes n.parent = some d ∧
          d.stream.type = STREAM_TYPE_DIR ∧ p ∈ dir_children w n.parent)) ∧
      (∀ d dn, deref w.vnodes d = some dn → dn.stream.type = STREAM_TYPE_DIR →
        (dir_children w d).Nodup ∧
        ∀ p ∈ dir_children w d, ∃ n, deref w.vnodes p = some n ∧ n.parent = d) ∧
      (∀ d1 d2 n1 n2 p, deref w.vnodes d1 = some n1 → deref w.vnodes d2 = some n2 →
        n1.stream.type = STREAM_TYPE_DIR → n2.stream.type = STREAM_TYPE_DIR →
        p ∈ dir_children w d1 → p ∈ dir_children w d2 → d1 = d2) := by
  have ht := reachable_tree maxlen w hw
  have hc := reachable_chain maxlen w hw
  obtain ⟨f, hf, ⟨-, hbucket⟩, hall⟩ := (reachable_index maxlen w hw).table
  obtain ⟨f0, r, hf0, hr, hrt, hrp⟩ := ht.fs
  rw [hf] at hf0
  cases hf0
  have hroot := devfs_root_eq w f hf
  have hkids : ∀ d dn, deref w.vnodes d = some dn → dn.stream.type = STREAM_TYPE_DIR →
      ∀ p ∈ dir_children w d, ∃ n, deref w.vnodes p = some n ∧ n.parent = d := by
    intro d dn hd hdir p hp
    simp only [dir_children, hd] at hp
    refine child_list_parent w ht d _ _ ?_ p hp
    intro m hm
    obtain ⟨c1, hc1, hp1⟩ := ht.head d dn hd hdir (deref_some_bound hm).1.ne'
    rw [hm] at hc1
    cases hc1
    exact hp1
  refine ⟨f, hf, ?_, ?_, ?_, ?_⟩
  · obtain ⟨chain, hch, hmem⟩ := hall _ r hr
    exact (mem_hash_elements _ _).2 ⟨_, chain, hch, hmem⟩
  · intro p hp
    obtain ⟨b, chain, hb, hmem⟩ := (mem_hash_elements _ _).1 hp
    obtain ⟨n, hn, -⟩ := (hbucket b chain hb).2 p hmem
    refine ⟨n, hn, ⟨?_, ?_⟩, ?_⟩
    · intro hself
      rw [← hroot]
      exact reachable_self_parent maxlen w hw p n hn hself
    · intro hpr
      subst hpr
      rw [hr] at hn
      cases hn
      exact hrp
    · intro hne
      obtain ⟨d, hd, hdt⟩ := ht.parent p n hn
      refine ⟨d, hd, hdt, reachable_member maxlen w hw p n hn ?_⟩
      rw [hroot]
      exact hne
  · intro d dn hd hdir
    refine ⟨?_, hkids d dn hd hdir⟩
    simp only [dir_children, hd]
    exact (child_list_decreasing w hc _ _).2
  · intro d1 d2 n1 n2 p h1 h2 ht1 ht2 hp1 hp2
    obtain ⟨m1, hm1, e1⟩ := hkids d1 n1 h1 ht1 p hp1
    obtain ⟨m2, hm2, e2⟩ := hkids d2 n2 h2 ht2 p hp2
    rw [hm1] at hm2
    cases hm2
    exact e1.symm.trans e2

/-- C15, witness: in the state after `publish("net/rtl8139/0", 99)` the index holds the nodes
1 to 4, and the device "0" (node 4) is in the child list of its parent "rtl8139" (node 3). -/
theorem tree_consistency_witness :
    Reachable 512 demo_net ∧
    (deref demo_net.fss demo_net.thedevfs).map (fun f => hash_elements f.vnode_list_hash) =
      some [1, 2, 3, 4] ∧
    dir_children demo_net 3 = [4] ∧
    ∃ f, deref demo_net.fss demo_net.thedevfs = some f ∧
      f.root_vnode ∈ hash_elements f.vnode_list_hash ∧
      (∀ p ∈ hash_elements f.vnode_list_hash, ∃ n, deref demo_net.vnodes p = some n ∧
        (n.parent = p ↔ p = f.root_vnode) ∧
        (p ≠ f.root_vnode → ∃ d, deref demo_net.vnodes n.parent = some d ∧
          d.stream.type = STREAM_TYPE_DIR ∧ p ∈ dir_children demo_net n.parent)) ∧
      (∀ d dn, deref demo_net.vnodes d = some dn → dn.stream.type = STREAM_TYPE_DIR →
        (dir_children demo_net d).Nodup ∧
        ∀ p ∈ dir_children demo_net d, ∃ n, deref demo_net.vnodes p = some n ∧ n.parent = d) ∧
      (∀ d1 d2 n1 n2 p, deref demo_net.vnodes d1 = some n1 → deref demo_net.vnodes d2 = some n2 →
        n1.stream.type = STREAM_TYPE_DIR → n2.stream.type = STREAM_TYPE_DIR →
        p ∈ dir_children demo_net d1 → p ∈ dir_children demo_net d2 → d1 = d2) :=
  ⟨demo_net_reachable, rfl, rfl, tree_consistency 512 demo_net demo_net_reachable⟩

/-! ## Linked lists -/

theorem is_child_chain_eq (h : List (Option devfs_vnode)) :
    ∀ (l : List Nat) (v : Nat), is_child_chain h v l = is_chain (dir_next_of h) v l := by
  intro l
  induction l with
  | nil => intro v; rfl
  | cons a rest ih =>
    intro v
    simp only [is_child_chain, is_chain, dir_next_of]
    cases hn : deref h v with
    | none => simp
    | some n => simp [ih]

theorem is_jar_chain_eq (h : List (Option devfs_cookie)) :
    ∀ (l : List Nat) (c : Nat), is_jar_chain h c l = is_chain (jar_next_of h) c l := by
  intro l
  induction l with
  | nil => intro v; rfl
  | cons a rest ih =>
    intro v
    simp only [is_jar_chain, is_chain, jar_next_of]
    cases hn : deref h v with
    | none => simp
    | some n => simp [ih]

theorem is_chain_nil {next : Nat → Option Nat} {v : Nat} (h : is_chain next v [] = true) :
    v = 0 := by
  simpa [is_chain] using h

theorem is_chain_cons {next : Nat → Option Nat} {v a : Nat} {rest : List Nat}
    (h : is_chain next v (a :: rest) = true) :
    v = a ∧ a ≠ 0 ∧ ∃ u, next a = some u ∧ is_chain next u rest = true := by
  simp only [is_chain, Bool.and_eq_true, decide_eq_true_eq] at h
  obtain ⟨⟨h1, h2⟩, h3⟩ := h
  subst h1
  cases hn : next v with
  | none => simp [hn] at h3
  | some u =>
    simp only [hn] at h3
    exact ⟨rfl, h2, u, rfl, h3⟩

theorem is_chain_cons_intro {next : Nat → Option Nat} {a u : Nat} {rest : List Nat}
    (ha : a ≠ 0) (hn : next a = some u) (h : is_chain next u rest = true) :
    is_chain next a (a :: rest) = true := by
  simp [is_chain, ha, hn, h]

theorem is_chain_unique (next : Nat → Option Nat) :
    ∀ (l1 l2 : List Nat) (v : Nat), is_chain next v l1 = true → is_chain next v l2 = true →
      l1 = l2 := by
  intro l1
  induction l1 with
  | nil =>
    intro l2 v h1 h2
    have hv := is_chain_nil h1
    cases l2 with
    | nil => rfl
    | cons b r2 =>
      obtain ⟨e, hb, -⟩ := is_chain_cons h2
      omega
  | cons a r1 ih =>
    intro l2 v h1 h2
    obtain ⟨e1, ha, u, hu, hr⟩ := is_chain_cons h1
    cases l2 with
    | nil =>
      have hv := is_chain_nil h2
      omega
    | cons b r2 =>
      obtain ⟨e2, -, u2, hu2, hr2⟩ := is_chain_cons h2
      have hab : a = b := e1.symm.trans e2
      subst hab
      rw [hu] at hu2
      cases hu2
      rw [ih r2 u hr hr2]

theorem is_chain_suffix (next : Nat → Option Nat) (a : Nat) (post : List Nat) :
    ∀ (pre : List Nat) (v : Nat), is_chain next v (pre ++ a :: post) = true →
      is_chain next a (a :: post) = true := by
  intro pre
  induction pre with
  | nil =>
    intro v h
    obtain ⟨e, -⟩ := is_chain_cons h
    subst e
    exact h
  | cons b pre ih =>
    intro v h
    obtain ⟨-, -, u, -, hr⟩ := is_chain_cons h
    exact ih u hr

theorem is_chain_nodup (next : Nat → Option Nat) :
    ∀ (l : List Nat) (v : Nat), is_chain next v l = true → l.Nodup := by
  intro l
  induction l with
  | nil => intro v _; exact List.nodup_nil
  | cons a rest ih =>
    intro v h
    obtain ⟨e, ha, u, hu, hr⟩ := is_chain_cons h
    subst e
    refine List.nodup_cons.2 ⟨?_, ih u hr⟩
    intro hmem
    obtain ⟨pre, post, hsplit⟩ := List.append_of_mem hmem
    rw [hsplit] at hr
    have h2 := is_chain_suffix next v post pre u hr
    have h3 : is_chain next v (v :: rest) = true := h
    have heq := is_chain_unique next _ _ v h2 h3
    have hlen := congrArg List.length heq
    rw [hsplit] at hlen
    simp at hlen
    omega

theorem is_chain_live (next : Nat → Option Nat) :
    ∀ (l : List Nat) (v : Nat), is_chain next v l = true →
      ∀ a ∈ l, a ≠ 0 ∧ ∃ u, next a = some u := by
  intro l
  induction l with
  | nil => intro v _ a ha; simp at ha
  | cons b rest ih =>
    intro v h a ha
    obtain ⟨-, hb, u, hu, hr⟩ := is_chain_cons h
    rcases List.mem_cons.1 ha with h1 | h1
    · subst h1
      exact ⟨hb, u, hu⟩
    · exact ih u hr a h1

theorem is_chain_congr (next next1 : Nat → Option Nat) :
    ∀ (l : List Nat) (v : Nat), (∀ a ∈ l, next1 a = next a) → is_chain next v l = true →
      is_chain next1 v l = true := by
  intro l
  induction l with
  | nil => intro v _ h; exact h
  | cons b rest ih =>
    intro v hag h
    obtain ⟨e, hb, u, hu, hr⟩ := is_chain_cons h
    subst e
    refine is_chain_cons_intro hb ((hag v (List.mem_cons_self _ _)).trans hu) ?_
    exact ih u (fun a ha => hag a (List.mem_cons_of_mem _ ha)) hr

theorem nodup_length_le (l : List Nat) (n : Nat) (hn : l.Nodup)
    (hb : ∀ a ∈ l, 0 < a ∧ a ≤ n) : l.length ≤ n := by
  have hsub : l.toFinset ⊆ Finset.Icc 1 n := by
    intro a ha
    have := hb a (List.mem_toFinset.1 ha)
    exact Finset.mem_Icc.2 ⟨this.1, this.2⟩
  have hcard := Finset.card_le_card hsub
  rw [List.toFinset_card_of_nodup hn, Nat.card_Icc] at hcard
  omega

theorem child_chain_length (h : List (Option devfs_vnode)) (l : List Nat) (v : Nat)
    (hl : is_child_chain h v l = true) : l.length ≤ h.length := by
  rw [is_child_chain_eq] at hl
  refine nodup_length_le l _ (is_chain_nodup _ l v hl) ?_
  intro a ha
  obtain ⟨-, u, hu⟩ := is_chain_live _ l v hl a ha
  cases hn : deref h a with
  | none => simp [dir_next_of, hn] at hu
  | some n => exact deref_some_bound hn

theorem jar_chain_length (h : List (Option devfs_cookie)) (l : List Nat) (c : Nat)
    (hl : is_jar_chain h c l = true) : l.length ≤ h.length := by
  rw [is_jar_chain_eq] at hl
  refine nodup_length_le l _ (is_chain_nodup _ l c hl) ?_
  intro a ha
  obtain ⟨-, u, hu⟩ := is_chain_live _ l c hl a ha
  cases hn : deref h a with
  | none => simp [jar_next_of, hn] at hu
  | some n => exact deref_some_bound hn

/-! ## Removing a node from a directory -/

theorem jar_next_of_some {h : List (Option devfs_cookie)} {a u : Nat}
    (hu : jar_next_of h a = some u) : ∃ k, deref h a = some k ∧ k.next = u := by
  cases hk : deref h a with
  | none => simp [jar_next_of, hk] at hu
  | some k =>
    simp only [jar_next_of, hk, Option.map_some', Option.some.injEq] at hu
    exact ⟨k, rfl, hu⟩

theorem dir_next_of_some {h : List (Option devfs_vnode)} {a u : Nat}
    (hu : dir_next_of h a = some u) : ∃ n, deref h a = some n ∧ n.dir_next = u := by
  cases hk : deref h a with
  | none => simp [dir_next_of, hk] at hu
  | some k =>
    simp only [dir_next_of, hk, Option.map_some', Option.some.injEq] at hu
    exact ⟨k, rfl, hu⟩

/-- The loop of `update_dircookies` over a jar `J` returns, and what it leaves in the cookie heap:
the cursor of the jar cookies that pointed at `x` is the next sibling of `x`, and nothing else has
changed. -/
theorem update_dircookies_loop_spec (x : Nat) (n : devfs_vnode) :
    ∀ (J : List Nat) (steps : Nat) (w : Kernel) (c : Nat),
      is_chain (jar_next_of w.cookies) c J = true → deref w.vnodes x = some n →
      J.length < steps →
      ∃ ck, update_dircookies_loop x steps w c = some { w with cookies := ck } ∧
        ck.length = w.cookies.length ∧
        ∀ q, deref ck q = (deref w.cookies q).map
          (fun k => if q ∈ J ∧ k.ptr = x then { k with ptr := n.dir_next } else k) := by
  intro J
  induction J with
  | nil =>
    intro steps w c hc _ hlen
    obtain ⟨s, rfl⟩ : ∃ s, steps = s + 1 := ⟨steps - 1, by simp at hlen; omega⟩
    have hc0 := is_chain_nil hc
    subst hc0
    refine ⟨w.cookies, by simp [update_dircookies_loop], rfl, ?_⟩
    intro q
    cases deref w.cookies q <;> simp
  | cons a J ih =>
    intro steps w c hc hx hlen
    obtain ⟨s, rfl⟩ : ∃ s, steps = s + 1 := ⟨steps - 1, by simp at hlen; omega⟩
    have hnd := List.nodup_cons.1 (is_chain_nodup _ _ _ hc)
    obtain ⟨e, ha, u, hu, hr⟩ := is_chain_cons hc
    subst e
    obtain ⟨k0, hk0, hnext⟩ := jar_next_of_some hu
    subst hnext
    have hb := deref_some_bound hk0
    simp only [List.length_cons, Nat.add_lt_add_iff_right] at hlen
    by_cases hp : k0.ptr = x
    · have hr1 : is_chain
          (jar_next_of (store w.cookies c (some { k0 with ptr := n.dir_next }))) k0.next J
          = true := by
        refine is_chain_congr _ _ J _ ?_ hr
        intro b hbm
        have hne : b ≠ c := fun hbc => hnd.1 (hbc ▸ hbm)
        simp only [jar_next_of, deref_store_ne _ _ _ _ hne]
      obtain ⟨ck, hrun, hlen1, hq⟩ :=
        ih s { w with cookies := store w.cookies c (some { k0 with ptr := n.dir_next }) }
          k0.next hr1 hx hlen
      refine ⟨ck, ?_, ?_, ?_⟩
      · simp only [update_dircookies_loop, ha, if_false, hk0, hp, if_true, hx]
        exact hrun
      · rw [hlen1]
        exact length_store _ _ _
      · intro q
        rw [hq q]
        by_cases hqc : q = c
        · subst hqc
          simp [deref_store_self _ _ _ hb.1 hb.2, hk0, hnd.1, hp]
        · simp [deref_store_ne _ _ _ _ hqc, hqc]
    · obtain ⟨ck, hrun, hlen1, hq⟩ := ih s w k0.next hr hx hlen
      refine ⟨ck, ?_, hlen1, ?_⟩
      · simp only [update_dircookies_loop, ha, if_false, hk0, hp]
        exact hrun
      · intro q
        rw [hq q]
        by_cases hqc : q = c
        · subst hqc
          simp [hk0, hnd.1, hp]
        · simp [hqc]

/-- The loop of `devfs_remove_from_dir` walks over the entries in front of `x`; it arrives at `x`
with the entry in front of it as predecessor. -/
theorem remove_from_dir_loop_walk (w : Kernel) (dir x : Nat) (post : List Nat) :
    ∀ (pre : List Nat) (v last steps : Nat),
      is_chain (dir_next_of w.vnodes) v (pre ++ x :: post) = true → x ∉ pre →
      remove_from_dir_loop dir x (steps + pre.length) w v last =
        remove_from_dir_loop dir x steps w x (pre.getLastD last) := by
  intro pre
  induction pre with
  | nil =>
    intro v last steps hc _
    obtain ⟨e, -⟩ := is_chain_cons hc
    subst e
    rfl
  | cons a pre ih =>
    intro v last steps hc hx
    obtain ⟨e, ha, u, hu, hr⟩ := is_chain_cons hc
    subst e
    obtain ⟨m, hm, hnext⟩ := dir_next_of_some hu
    subst hnext
    have hvx : v ≠ x := fun h => hx (h ▸ List.mem_cons_self _ _)
    have hx1 : x ∉ pre := fun h => hx (List.mem_cons_of_mem _ h)
    have hstep : steps + (v :: pre).length = (steps + pre.length) + 1 := by
      simp only [List.length_cons]
      omega
    rw [hstep]
    simp only [remove_from_dir_loop, ha, if_false, hvx, hm]
    rw [ih m.dir_next v steps hr hx1, List.getLastD_cons]

/-- The loop of `devfs_remove_from_dir` over a list that does not hold `x` returns -1 and leaves
the state as it was. -/
theorem remove_from_dir_loop_absent (w : Kernel) (dir x : Nat) :
    ∀ (l : List Nat) (v last steps : Nat),
      is_chain (dir_next_of w.vnodes) v l = true → x ∉ l → l.length < steps →
      remove_from_dir_loop dir x steps w v last = some (w, retcode.num (-1)) := by
  intro l
  induction l with
  | nil =>
    intro v last steps hc _ hlen
    obtain ⟨s, rfl⟩ : ∃ s, steps = s + 1 := ⟨steps - 1, by simp at hlen; omega⟩
    have hv := is_chain_nil hc
    simp [remove_from_dir_loop, hv]
  | cons a l ih =>
    intro v last steps hc hx hlen
    obtain ⟨s, rfl⟩ : ∃ s, steps = s + 1 := ⟨steps - 1, by simp at hlen; omega⟩
    obtain ⟨e, ha, u, hu, hr⟩ := is_chain_cons hc
    subst e
    obtain ⟨m, hm, hnext⟩ := dir_next_of_some hu
    subst hnext
    have hvx : v ≠ x := fun h => hx (h ▸ List.mem_cons_self _ _)
    have hx1 : x ∉ l := fun h => hx (List.mem_cons_of_mem _ h)
    simp only [List.length_cons, Nat.add_lt_add_iff_right] at hlen
    simp only [remove_from_dir_loop, ha, if_false, hvx, hm]
    exact ih m.dir_next v s hr hx1 hlen

theorem is_chain_splice (next next1 : Nat → Option Nat) (l x u : Nat) (post : List Nat) :
    ∀ (A : List Nat) (v : Nat), is_chain next v (A ++ l :: x :: post) = true →
      (∀ q ∈ A, next1 q = next q) → next1 l = some u → is_chain next1 u post = true →
      is_chain next1 v (A ++ l :: post) = true := by
  intro A
  induction A with
  | nil =>
    intro v hc _ hl hpost
    obtain ⟨e, hl0, -⟩ := is_chain_cons hc
    subst e
    exact is_chain_cons_intro hl0 hl hpost
  | cons a A ih =>
    intro v hc hag hl hpost
    obtain ⟨e, ha, u1, hu1, hr⟩ := is_chain_cons hc
    subst e
    refine is_chain_cons_intro ha ((hag v (List.mem_cons_self _ _)).trans hu1) ?_
    exact ih u1 hr (fun q hq => hag q (List.mem_cons_of_mem _ hq)) hl hpost

/-- What `devfs_remove_from_dir(dir, x)` does when `x` is in the child list of `dir`, the list
being `pre`, then `x`, then `post`. -/
theorem remove_from_dir_found (w : Kernel) (dir x : Nat) (d n : devfs_vnode)
    (pre post J : List Nat) (hd : deref w.vnodes dir = some d)
    (hL : is_chain (dir_next_of w.vnodes) d.stream.dir_head (pre ++ x :: post) = true)
    (hJ : is_chain (jar_next_of w.cookies) d.stream.jar_head J = true)
    (hpre : x ∉ pre) (hx : deref w.vnodes x = some n) :
    ∃ w3 d1 x1, devfs_remove_from_dir w dir x = some (w3, retcode.num 0) ∧
      deref w3.vnodes dir = some d1 ∧ d1.stream.jar_head = d.stream.jar_head ∧
      is_chain (dir_next_of w3.vnodes) d1.stream.dir_head (pre ++ post) = true ∧
      deref w3.vnodes x = some x1 ∧ x1.dir_next = 0 ∧
      is_chain (dir_next_of w.vnodes) n.dir_next post = true ∧
      ∀ q, deref w3.cookies q = (deref w.cookies q).map
        (fun k => if q ∈ J ∧ k.ptr = x then { k with ptr := n.dir_next } else k) := by
  have hnd := is_chain_nodup _ _ _ hL
  have hlen : (pre ++ x :: post).length ≤ w.vnodes.length :=
    child_chain_length _ _ _ (by rw [is_child_chain_eq]; exact hL)
  have hlenJ : J.length ≤ w.cookies.length :=
    jar_chain_length _ _ _ (by rw [is_jar_chain_eq]; exact hJ)
  obtain ⟨ck, hck, -, hcookies⟩ :=
    update_dircookies_loop_spec x n J (w.cookies.length + 1) w d.stream.jar_head hJ hx
      (by omega)
  obtain ⟨-, hx0, u, hu, hpost⟩ := is_chain_cons (is_chain_suffix _ x post pre _ hL)
  obtain ⟨n0, hn0, hnext⟩ := dir_next_of_some hu
  rw [hx] at hn0
  cases hn0
  subst hnext
  have hbx := deref_some_bound hx
  have hbd := deref_some_bound hd
  have hsteps : w.vnodes.length + 1 = (w.vnodes.length - pre.length + 1) + pre.length := by
    simp only [List.length_append, List.length_cons] at hlen
    omega
  have hrun : devfs_remove_from_dir w dir x =
      remove_from_dir_loop dir x (w.vnodes.length - pre.length + 1) w x (pre.getLastD 0) := by
    simp only [devfs_remove_from_dir, hd]
    rw [hsteps]
    exact remove_from_dir_loop_walk w dir x post pre _ 0 _ hL hpre
  rw [hrun]
  rcases List.eq_nil_or_concat pre with rfl | ⟨A, l, rfl⟩
  · -- `x` is the first entry: the head of the list is moved
    simp only [List.nil_append] at hL hnd ⊢
    have hxpost : x ∉ post := (List.nodup_cons.1 hnd).1
    have hpost3 : ∀ (h3 : List (Option devfs_vnode)),
        (∀ b ∈ post, dir_next_of h3 b = dir_next_of w.vnodes b) →
        is_chain (dir_next_of h3) n.dir_next post = true :=
      fun h3 hag => is_chain_congr _ _ post _ hag hpost
    by_cases hxd : x = dir
    · subst hxd
      rw [hd] at hx
      cases hx
      have hrun1 : remove_from_dir_loop x x (w.vnodes.length - ([] : List Nat).length + 1) w x
          (([] : List Nat).getLastD 0) =
          some ({ w with cookies := ck,
                         vnodes := store (store w.vnodes x
                           (some { d with stream := { d.stream with dir_head := d.dir_next } }))
                           x (some { d with stream := { d.stream with dir_head := d.dir_next },
                                            dir_next := 0 }) }, retcode.num 0) := by
        simp only [remove_from_dir_loop, hx0, if_false, if_true, update_dircookies, hd, hck,
          List.getLastD_nil, ne_eq, not_true_eq_false, vnode_update,
          deref_store_self _ _ _ hbd.1 hbd.2]
      rw [hrun1]
      refine ⟨_, { d with stream := { d.stream with dir_head := d.dir_next }, dir_next := 0 },
        { d with stream := { d.stream with dir_head := d.dir_next }, dir_next := 0 },
        rfl, ?_, ?_, ?_, ?_, ?_, hpost, hcookies⟩
      · simp only [store_store_same]
        exact deref_store_self _ _ _ hbd.1 hbd.2
      · rfl
      · refine hpost3 _ ?_
        intro b hb
        have hne : b ≠ x := fun h => hxpost (h ▸ hb)
        simp only [dir_next_of, store_store_same, deref_store_ne _ _ _ _ hne]
      · simp only [store_store_same]
        exact deref_store_self _ _ _ hbd.1 hbd.2
      · rfl
    · have hdx : dir ≠ x := fun h => hxd h.symm
      have hbx2 : x ≤ (store w.vnodes dir
          (some { d with stream := { d.stream with dir_head := n.dir_next } })).length := by
        rw [length_store]
        exact hbx.2
      have hrun1 : remove_from_dir_loop dir x (w.vnodes.length - ([] : List Nat).length + 1) w x
          (([] : List Nat).getLastD 0) =
          some ({ w with cookies := ck,
                         vnodes := store (store w.vnodes dir
                           (some { d with stream := { d.stream with dir_head := n.dir_next } }))
                           x (some { n with dir_next := 0 }) }, retcode.num 0) := by
        simp only [remove_from_dir_loop, hx0, if_false, if_true, update_dircookies, hd, hck,
          List.getLastD_nil, ne_eq, not_true_eq_false, vnode_update,
          deref_store_ne _ _ _ _ hxd, hx]
      rw [hrun1]
      refine ⟨_, { d with stream := { d.stream with dir_head := n.dir_next } },
        { n with dir_next := 0 }, rfl, ?_, ?_, ?_, ?_, ?_, hpost, hcookies⟩
      · simp only [deref_store_ne _ _ _ _ hdx]
        exact deref_store_self _ _ _ hbd.1 hbd.2
      · rfl
      · refine hpost3 _ ?_
        intro b hb
        have hne : b ≠ x := fun h => hxpost (h ▸ hb)
        simp only [dir_next_of, deref_store_ne _ _ _ _ hne]
        by_cases hbd1 : b = dir
        · subst hbd1
          simp only [deref_store_self _ _ _ hbd.1 hbd.2, hd, Option.map_some']
        · simp only [deref_store_ne _ _ _ _ hbd1]
      · exact deref_store_self _ _ _ hbx.1 hbx2
      · rfl
  · -- `x` follows the entry `l`: the link of `l` is moved
    simp only [List.concat_eq_append, List.append_assoc, List.singleton_append] at hL hnd hpre ⊢
    have hfacts : l ∉ A ∧ l ≠ x ∧ l ∉ post ∧ x ∉ post ∧ x ∉ A := by
      simp [List.nodup_append, List.nodup_cons] at hnd
      exact ⟨hnd.2.2.1, hnd.2.1.1.1, hnd.2.1.1.2, hnd.2.1.2.1, hnd.2.2.2.1⟩
    obtain ⟨hlA, hlx, hlpost, hxpost, hxA⟩ := hfacts
    have hxl : x ≠ l := fun h => hlx h.symm
    obtain ⟨-, hl0, ul, hul, -⟩ := is_chain_cons (is_chain_suffix _ l (x :: post) A _ hL)
    obtain ⟨m, hm, -⟩ := dir_next_of_some hul
    have hbl := deref_some_bound hm
    have hbx2 : x ≤ (store w.vnodes l (some { m with dir_next := n.dir_next })).length := by
      rw [length_store]
      exact hbx.2
    have hrun2 : remove_from_dir_loop dir x (w.vnodes.length - (A ++ [l]).length + 1) w x
        ((A ++ [l]).getLastD 0) =
        some ({ w with cookies := ck,
                       vnodes := store (store w.vnodes l (some { m with dir_next := n.dir_next }))
                         x (some { n with dir_next := 0 }) }, retcode.num 0) := by
      simp only [remove_from_dir_loop, hx0, if_false, if_true, update_dircookies, hd, hck,
        List.getLastD_concat, ne_eq, hl0, not_false_eq_true, vnode_update, hm,
        deref_store_ne _ _ _ _ hxl, hx]
    have hchain : ∀ head, is_chain (dir_next_of w.vnodes) head (A ++ l :: x :: post) = true →
        is_chain (dir_next_of (store (store w.vnodes l (some { m with dir_next := n.dir_next }))
          x (some { n with dir_next := 0 }))) head (A ++ l :: post) = true := by
      intro head hh
      refine is_chain_splice _ _ l x n.dir_next post A head hh ?_ ?_ ?_
      · intro q hq
        have h1 : q ≠ x := fun h => hxA (h ▸ hq)
        have h2 : q ≠ l := fun h => hlA (h ▸ hq)
        simp only [dir_next_of, deref_store_ne _ _ _ _ h1, deref_store_ne _ _ _ _ h2]
      · simp only [dir_next_of, deref_store_ne _ _ _ _ hlx,
          deref_store_self _ _ _ hbl.1 hbl.2, Option.map_some']
      · refine is_chain_congr _ _ post _ ?_ hpost
        intro b hb
        have h1 : b ≠ x := fun h => hxpost (h ▸ hb)
        have h2 : b ≠ l := fun h => hlpost (h ▸ hb)
        simp only [dir_next_of, deref_store_ne _ _ _ _ h1, deref_store_ne _ _ _ _ h2]
    rw [hrun2]
    by_cases hdx : dir = x
    · subst hdx
      rw [hd] at hx
      cases hx
      exact ⟨_, _, _, rfl, deref_store_self _ _ _ hbx.1 hbx2, rfl, hchain _ hL,
        deref_store_self _ _ _ hbx.1 hbx2, rfl, hpost, hcookies⟩
    · by_cases hdl : dir = l
      · subst hdl
        rw [hd] at hm
        cases hm
        refine ⟨_, { d with dir_next := n.dir_next }, _, rfl, ?_, ?_, hchain _ hL,
          deref_store_self _ _ _ hbx.1 hbx2, rfl, hpost, hcookies⟩
        · simp only [deref_store_ne _ _ _ _ hdx]
          exact deref_store_self _ _ _ hbl.1 hbl.2
        · rfl
      · refine ⟨_, _, _, rfl, ?_, rfl, hchain _ hL, deref_store_self _ _ _ hbx.1 hbx2, rfl,
          hpost, hcookies⟩
        simp only [deref_store_ne _ _ _ _ hdx, deref_store_ne _ _ _ _ hdl]
        exact hd

/-- C19: for a node `D` whose child list is `L` and whose jar is `J`, and every `x`: if `x` is in
`L`, `devfs_remove_from_dir(D, x)` returns 0, the child list of `D` is then `L` with `x` erased
(the other children in their order), `dir_next` of `x` is `NULL`, the jar is the same list of
cookies, the cursor of every cookie of the jar that pointed at `x` is the former `dir_next` of `x`
(the child that followed `x` in `L`, `NULL` when there was none), and no other cookie has changed;
if `x` is not in `L` it returns -1 and the state is as it was.  The type of `D` plays no part (the
function does not test it). -/
theorem remove_from_dir_spec (w : Kernel) (D x : Nat) (d : devfs_vnode) (L J : List Nat)
    (hd : deref w.vnodes D = some d)
    (hL : is_child_chain w.vnodes d.stream.dir_head L = true)
    (hJ : is_jar_chain w.cookies d.stream.jar_head J = true) :
    (x ∈ L → ∃ w1 d1 n x1, devfs_remove_from_dir w D x = some (w1, retcode.num 0) ∧
      deref w.vnodes x = some n ∧
      deref w1.vnodes D = some d1 ∧
      is_child_chain w1.vnodes d1.stream.dir_head (L.erase x) = true ∧
      deref w1.vnodes x = some x1 ∧ x1.dir_next = 0 ∧
      (∃ pre post, L = pre ++ x :: post ∧ n.dir_next = post.headD 0) ∧
      d1.stream.jar_head = d.stream.jar_head ∧
      is_jar_chain w1.cookies d1.stream.jar_head J = true ∧
      (∀ c ∈ J, ∃ k k1, deref w.cookies c = some k ∧ deref w1.cookies c = some k1 ∧
        k1.ptr = if k.ptr = x then n.dir_next else k.ptr) ∧
      (∀ c, deref w1.cookies c = (deref w.cookies c).map
        (fun k => if c ∈ J ∧ k.ptr = x then { k with ptr := n.dir_next } else k))) ∧
    (x ∉ L → devfs_remove_from_dir w D x = some (w, retcode.num (-1))) := by
  have hlen := child_chain_length _ _ _ hL
  rw [is_child_chain_eq] at hL
  have hJ0 := hJ
  rw [is_jar_chain_eq] at hJ
  refine ⟨?_, ?_⟩
  · intro hx
    obtain ⟨pre, post, hsplit, hpre⟩ := List.eq_append_cons_of_mem hx
    subst hsplit
    obtain ⟨-, -, u, hu, -⟩ := is_chain_cons (is_chain_suffix _ x post pre _ hL)
    obtain ⟨n, hn, -⟩ := dir_next_of_some hu
    obtain ⟨w3, d1, x1, hrun, hd1, hjar, hchain, hx1, hx10, hpost, hcookies⟩ :=
      remove_from_dir_found w D x d n pre post J hd hL hJ hpre hn
    have hJlive := is_chain_live _ _ _ hJ
    refine ⟨w3, d1, n, x1, hrun, hn, hd1, ?_, hx1, hx10, ⟨pre, post, rfl, ?_⟩, hjar, ?_, ?_,
      hcookies⟩
    · rw [List.erase_append_right _ hpre, List.erase_cons_head, is_child_chain_eq]
      exact hchain
    · cases post with
      | nil => exact is_chain_nil hpost
      | cons b rest => exact (is_chain_cons hpost).1
    · rw [is_jar_chain_eq, hjar]
      refine is_chain_congr _ _ J _ ?_ hJ
      intro c _
      simp only [jar_next_of, hcookies c]
      cases hk : deref w.cookies c with
      | none => rfl
      | some k =>
        simp only [Option.map_some']
        split <;> rfl
    · intro c hc
      obtain ⟨-, u1, hu1⟩ := hJlive c hc
      obtain ⟨k, hk, -⟩ := jar_next_of_some hu1
      refine ⟨k, if c ∈ J ∧ k.ptr = x then { k with ptr := n.dir_next } else k, hk, ?_, ?_⟩
      · rw [hcookies c, hk]
        rfl
      · by_cases hp : k.ptr = x
        · simp [hc, hp]
        · simp [hp]
  · intro hx
    simp only [devfs_remove_from_dir, hd]
    exact remove_from_dir_loop_absent w D x L _ 0 _ hL hx (by omega)

/-- C19, witness: in the state with the children "b" (node 3) and "a" (node 2) below the root and
one cookie in the jar of the root, pointing at "b": removing "b" leaves the child list ["a"], with
the cookie pointing at "a"; removing the root itself, which is not in the list, returns -1. -/
theorem remove_from_dir_spec_witness :
    devfs_remove_from_dir demo_ab_jar 1 3 = some (demo_ab_jar_removed, retcode.num 0) ∧
    dir_children demo_ab_jar 1 = [3, 2] ∧ dir_children demo_ab_jar_removed 1 = [2] ∧
    (deref demo_ab_jar.cookies 1).map (fun k => k.ptr) = some 3 ∧
    (deref demo_ab_jar_removed.cookies 1).map (fun k => k.ptr) = some 2 ∧
    ∃ d, deref demo_ab_jar.vnodes 1 = some d ∧
      is_child_chain demo_ab_jar.vnodes d.stream.dir_head [3, 2] = true ∧
      is_jar_chain demo_ab_jar.cookies d.stream.jar_head [1] = true ∧
      (3 ∈ [3, 2] → ∃ w1 d1 n x1,
        devfs_remove_from_dir demo_ab_jar 1 3 = some (w1, retcode.num 0) ∧
        deref demo_ab_jar.vnodes 3 = some n ∧
        deref w1.vnodes 1 = some d1 ∧
        is_child_chain w1.vnodes d1.stream.dir_head ([3, 2].erase 3) = true ∧
        deref w1.vnodes 3 = some x1 ∧ x1.dir_next = 0 ∧
        (∃ pre post, [3, 2] = pre ++ 3 :: post ∧ n.dir_next = post.headD 0) ∧
        d1.stream.jar_head = d.stream.jar_head ∧
        is_jar_chain w1.cookies d1.stream.jar_head [1] = true ∧
        (∀ c ∈ [1], ∃ k k1, deref demo_ab_jar.cookies c = some k ∧
          deref w1.cookies c = some k1 ∧ k1.ptr = if k.ptr = 3 then n.dir_next else k.ptr) ∧
        (∀ c, deref w1.cookies c = (deref demo_ab_jar.cookies c).map
          (fun k => if c ∈ [1] ∧ k.ptr = 3 then { k with ptr := n.dir_next } else k))) ∧
      (3 ∉ [3, 2] → devfs_remove_from_dir demo_ab_jar 1 3 =
        some (demo_ab_jar, retcode.num (-1))) :=
  ⟨rfl, rfl, rfl, rfl, rfl, _, rfl, rfl, rfl,
    remove_from_dir_spec demo_ab_jar 1 3 _ [3, 2] [1] rfl rfl rfl⟩

/-! ## The order of a directory enumeration -/

theorem path_components_single :
    ∀ (rest comp : List Char), '/' ∉ rest → path_components_from comp rest = [comp ++ rest] := by
  intro rest
  induction rest with
  | nil => intro comp _; simp [path_components_from]
  | cons c rest ih =>
    intro comp h
    have hc : c ≠ '/' := fun e => h (e ▸ List.mem_cons_self _ _)
    have hr : '/' ∉ rest := fun e => h (List.mem_cons_of_mem _ e)
    simp only [path_components_from, hc, if_false]
    rw [ih _ hr]
    simp

theorem find_in_dir_loop_absent (h : List (Option devfs_vnode)) (name : List Char) :
    ∀ (l : List Nat) (v s : Nat) (names : List (List Char)),
      is_child_chain h v l = true → node_names h l = some names → name ∉ names →
      l.length < s → find_in_dir_loop h name s v = some 0 := by
  intro l
  induction l with
  | nil =>
    intro v s names hc _ _ hlen
    obtain ⟨s1, rfl⟩ : ∃ s1, s = s1 + 1 := ⟨s - 1, by simp at hlen; omega⟩
    have hv : v = 0 := by simpa [is_child_chain] using hc
    simp [find_in_dir_loop, hv]
  | cons a l ih =>
    intro v s names hc hn hnot hlen
    obtain ⟨s1, rfl⟩ : ∃ s1, s = s1 + 1 := ⟨s - 1, by simp at hlen; omega⟩
    simp only [List.length_cons, Nat.add_lt_add_iff_right] at hlen
    simp only [is_child_chain, Bool.and_eq_true, decide_eq_true_eq] at hc
    obtain ⟨⟨hva, hv0⟩, hrest⟩ := hc
    subst hva
    cases hd : deref h v with
    | none => simp [hd] at hrest
    | some n =>
      simp only [hd] at hrest
      simp only [node_names, hd] at hn
      cases hr : node_names h l with
      | none => simp [hr] at hn
      | some rest =>
        simp only [hr, Option.some.injEq] at hn
        subst hn
        have h1 : n.name ≠ name := fun e => hnot (e ▸ List.mem_cons_self _ _)
        have h2 : name ∉ rest := fun e => hnot (List.mem_cons_of_mem _ e)
        simp only [find_in_dir_loop, hv0, if_false, hd, h1]
        exact ih n.dir_next s1 rest hrest hr h2 hlen

theorem node_names_agree (h h1 : List (Option devfs_vnode)) :
    ∀ (l : List Nat) (names : List (List Char)),
      (∀ a ∈ l, ∀ n, deref h a = some n → ∃ n1, deref h1 a = some n1 ∧ n1.name = n.name) →
      node_names h l = some names → node_names h1 l = some names := by
  intro l
  induction l with
  | nil => intro names _ hn; exact hn
  | cons a l ih =>
    intro names hag hn
    cases hd : deref h a with
    | none => simp [node_names, hd] at hn
    | some n =>
      cases hr : node_names h l with
      | none => simp [node_names, hd, hr] at hn
      | some rest =>
        obtain ⟨n1, hn1, hname⟩ := hag a (List.mem_cons_self _ _) n hd
        simp only [node_names, hd, hr, Option.some.injEq] at hn
        simp only [node_names, hn1, ih rest (fun b hb => hag b (List.mem_cons_of_mem _ hb)) hr,
          hname]
        rw [hn]

theorem node_names_length (h : List (Option devfs_vnode)) :
    ∀ (l : List Nat) (names : List (List Char)),
      node_names h l = some names → names.length = l.length := by
  intro l
  induction l with
  | nil =>
    intro names hn
    simp only [node_names, Option.some.injEq] at hn
    rw [← hn]
    rfl
  | cons a l ih =>
    intro names hn
    cases hd : deref h a with
    | none => simp [node_names, hd] at hn
    | some n =>
      cases hr : node_names h l with
      | none => simp [node_names, hd, hr] at hn
      | some rest =>
        simp only [node_names, hd, hr, Option.some.injEq] at hn
        rw [← hn, List.length_cons, List.length_cons, ih rest hr]

/-- One call of `devfs_publish_device` with a single-component name that no child of the root
bears: it returns 0, and the new node is the head of the child list of the root. -/
theorem publish_new_name (maxlen : Nat) (w : Kernel) (p : List Char) (calls : Nat)
    (d : devfs_vnode) (C : List Nat) (nm : List (List Char))
    (hw : Reachable maxlen w) (hd : deref w.vnodes (devfs_root w) = some d)
    (hC : is_child_chain w.vnodes d.stream.dir_head C = true)
    (hnm : node_names w.vnodes C = some nm)
    (hslash : '/' ∉ p) (hdot : p ≠ ['.']) (hdotdot : p ≠ ['.', '.']) (hlen : p.length ≤ maxlen)
    (hnew : p ∉ nm) (hcount : w.vnodes.length < 2147483648) :
    ∃ w1 d1, devfs_publish_device maxlen w p calls = some (w1, retcode.num 0) ∧
      deref w1.vnodes (devfs_root w1) = some d1 ∧
      is_child_chain w1.vnodes d1.stream.dir_head ((w.vnodes.length + 1) :: C) = true ∧
      node_names w1.vnodes ((w.vnodes.length + 1) :: C) = some (p :: nm) ∧
      w1.vnodes.length = w.vnodes.length + 1 := by
  have ht := reachable_tree maxlen w hw
  have hid := reachable_ids maxlen w hw
  have hix := reachable_index maxlen w hw
  obtain ⟨f, r, hf, hr, hty, -⟩ := ht.fs
  rw [devfs_root_eq w f hf] at hd
  rw [hd] at hr
  cases hr
  have hfind : devfs_find_in_dir w f.root_vnode p = some 0 := by
    simp only [devfs_find_in_dir, hd, hty, ne_eq, not_true_eq_false, if_false, hdot, hdotdot]
    have := child_chain_length _ _ _ hC
    exact find_in_dir_loop_absent _ p C _ _ nm hC hnm hnew (by omega)
  obtain ⟨f1, hf1, ⟨hlen1, -⟩, -⟩ := hix.table
  rw [hf] at hf1
  cases hf1
  obtain ⟨f0, hf0, hcounter⟩ := hid.counter
  rw [hf] at hf0
  cases hf0
  have hnn : 0 ≤ (published_node f f.root_vnode d p true p calls).id := by
    show 0 ≤ f.next_vnode_id
    rw [hcounter, int32_wrap_small _ (by omega) (by omega)]
    omega
  obtain ⟨t, ht1⟩ := hash_insert_total f.vnode_list_hash (w.vnodes.length + 1) _ hlen1 hnn
  have hcomp : path_components p = [p] := by
    simpa [path_components] using path_components_single p [] hslash
  have hrun : devfs_publish_device maxlen w p calls =
      some (link_new w f.root_vnode d f t (published_node f f.root_vnode d p true p calls),
        retcode.num 0) := by
    rw [publish_device_eq_comps maxlen w p calls f hf, List.take_of_length_le hlen, hcomp]
    simp only [publish_comps]
    rw [publish_component_new w f.root_vnode p true p calls d f ht.avail hd hty hf hfind, ht1]
    rfl
  have hold : ∀ a ∈ C, ∃ n n1, deref w.vnodes a = some n ∧
      deref (link_new w f.root_vnode d f t
        (published_node f f.root_vnode d p true p calls)).vnodes a = some n1 ∧
      n1.name = n.name ∧ n1.dir_next = n.dir_next := by
    intro a ha
    have hC1 := hC
    rw [is_child_chain_eq] at hC1
    obtain ⟨-, u, hu⟩ := is_chain_live _ _ _ hC1 a ha
    obtain ⟨n, hn, -⟩ := dir_next_of_some hu
    obtain ⟨n1, e1, e2, e3, -⟩ := link_new_node w f.root_vnode d f t _ hd a n hn
    exact ⟨n, n1, hn, e1, e2, e3⟩
  have hchain : is_child_chain (link_new w f.root_vnode d f t
      (published_node f f.root_vnode d p true p calls)).vnodes d.stream.dir_head C = true := by
    rw [is_child_chain_eq] at hC ⊢
    refine is_chain_congr _ _ C _ ?_ hC
    intro a ha
    obtain ⟨n, n1, hn, hn1, -, hnext⟩ := hold a ha
    simp only [dir_next_of, hn, hn1, hnext, Option.map_some']
  have hnames : node_names (link_new w f.root_vnode d f t
      (published_node f f.root_vnode d p true p calls)).vnodes C = some nm := by
    refine node_names_agree _ _ C nm ?_ hnm
    intro a ha n hn
    obtain ⟨n0, n1, hn0, hn1, hname, -⟩ := hold a ha
    rw [hn] at hn0
    cases hn0
    exact ⟨n1, hn1, hname⟩
  refine ⟨_, { d with stream := { d.stream with dir_head := w.vnodes.length + 1 } }, hrun,
    ?_, ?_, ?_, link_new_length ..⟩
  · rw [link_new_root w f.root_vnode d f t _ hf, devfs_root_eq w f hf]
    exact link_new_deref_dir w f.root_vnode d f t _ hd
  · simp only [is_child_chain, decide_True, Bool.true_and, ne_eq, Nat.add_one_ne_zero,
      not_false_eq_true, link_new_deref_new w f.root_vnode d f t _ hd]
    exact hchain
  · simp only [node_names, link_new_deref_new w f.root_vnode d f t _ hd, hnames]
    rfl

/-- Calls of `devfs_publish_device` with pairwise distinct single-component names that no child
of the root bears: each returns 0, and the child list of the root is then the new nodes, latest
first, in front of the old ones. -/
theorem publish_each_new (maxlen : Nat) :
    ∀ (names : List (List Char × Nat)) (w : Kernel) (d : devfs_vnode) (C : List Nat)
      (nm : List (List Char)),
      Reachable maxlen w → deref w.vnodes (devfs_root w) = some d →
      is_child_chain w.vnodes d.stream.dir_head C = true → node_names w.vnodes C = some nm →
      (names.map Prod.fst).Nodup →
      (∀ p ∈ names, '/' ∉ p.1 ∧ p.1 ≠ ['.'] ∧ p.1 ≠ ['.', '.'] ∧ p.1.length ≤ maxlen ∧
        p.1 ∉ nm) →
      w.vnodes.length + names.length ≤ 2147483648 →
      ∃ w1 d1 C1, publish_each maxlen w names = some (w1, names.map (fun _ => retcode.num 0)) ∧
        Reachable maxlen w1 ∧ deref w1.vnodes (devfs_root w1) = some d1 ∧
        is_child_chain w1.vnodes d1.stream.dir_head C1 = true ∧
        node_names w1.vnodes C1 = some ((names.map Prod.fst).reverse ++ nm) := by
  intro names
  induction names with
  | nil =>
    intro w d C nm hw hd hC hnm _ _ _
    exact ⟨w, d, C, rfl, hw, hd, hC, by simpa using hnm⟩
  | cons pc rest ih =>
    intro w d C nm hw hd hC hnm hnd hok hcount
    obtain ⟨p, calls⟩ := pc
    simp only [List.map_cons, List.nodup_cons] at hnd
    simp only [List.length_cons] at hcount
    obtain ⟨h1, h2, h3, h4, h5⟩ := hok (p, calls) (List.mem_cons_self _ _)
    obtain ⟨w1, d1, hrun, hd1, hC1, hnm1, hlen1⟩ :=
      publish_new_name maxlen w p calls d C nm hw hd hC hnm h1 h2 h3 h4 h5 (by omega)
    have hw1 : Reachable maxlen w1 := Reachable.publish w w1 p calls _ hw hrun
    have hok1 : ∀ q ∈ rest, '/' ∉ q.1 ∧ q.1 ≠ ['.'] ∧ q.1 ≠ ['.', '.'] ∧ q.1.length ≤ maxlen ∧
        q.1 ∉ p :: nm := by
      intro q hq
      obtain ⟨g1, g2, g3, g4, g5⟩ := hok q (List.mem_cons_of_mem _ hq)
      refine ⟨g1, g2, g3, g4, ?_⟩
      intro hmem
      rcases List.mem_cons.1 hmem with e | e
      · exact hnd.1 (e ▸ List.mem_map_of_mem Prod.fst hq)
      · exact g5 e
    obtain ⟨w2, d2, C2, hrun2, hw2, hd2, hC2, hnm2⟩ :=
      ih w1 d1 _ (p :: nm) hw1 hd1 hC1 hnm1 hnd.2 hok1 (by omega)
    refine ⟨w2, d2, C2, ?_, hw2, hd2, hC2, ?_⟩
    · simp only [publish_each, hrun, hrun2, List.map_cons]
    · rw [hnm2]
      simp

/-- C14, as stated, fails: the names "." and ".." are single-component names that
`devfs_find_in_dir` resolves to the directory itself and to its parent, so
`devfs_publish_device(".")` returns `ERR_VFS_ALREADY_EXISTS` and creates no node.  After the
publishes of "." alone the enumeration of the root yields nothing (not "."), and after the
publishes of "a", ".", "b" it yields "b", "a" (not "b", ".", "a"); the same holds for "..".  A
name longer than `SYS_MAX_PATH_LEN` is cut to that length: with the length 2, the publish of
"abc" makes the enumeration yield "ab". -/
theorem enumeration_order_counterexample :
    publish_then_enumerate demo_dev_open demo_user_strcpy demo_dev_read 512 0
      [(['.'], 7)] 256 = some ([retcode.ERR_VFS_ALREADY_EXISTS], []) ∧
    publish_then_enumerate demo_dev_open demo_user_strcpy demo_dev_read 512 0
      [(['a'], 7), (['.'], 8), (['b'], 9)] 256 =
      some ([retcode.num 0, retcode.ERR_VFS_ALREADY_EXISTS, retcode.num 0], [['b'], ['a']]) ∧
    publish_then_enumerate demo_dev_open demo_user_strcpy demo_dev_read 512 0
      [(['.', '.'], 7)] 256 = some ([retcode.ERR_VFS_ALREADY_EXISTS], []) ∧
    publish_then_enumerate demo_dev_open demo_user_strcpy demo_dev_read 2 0
      [(['a', 'b', 'c'], 7)] 256 = some ([retcode.num 0], [['a', 'b']]) := by
  refine ⟨rfl, rfl, rfl, rfl⟩

/-- C14, amended: for every list of fewer than 2^31 pairwise distinct names, none of them "." or
"..", none holding a '/', none longer than `SYS_MAX_PATH_LEN`, published in that order into a
freshly mounted instance: every publish returns 0, and opening the root and calling `devfs_read`
repeatedly, with a buffer that has room for each name and its terminator and the copies to the
caller succeeding, yields the names in reverse order (the latest published first) and then 0. -/
theorem enumeration_reverse_order (dev_open : Nat → Option (List Char) → retcode × Nat)
    (user_strcpy : List Char → retcode) (dev_read : Nat → Nat → Int → Int → retcode)
    (maxlen id : Nat) (names : List (List Char × Nat)) (len : Int)
    (hcopy : ∀ name, (user_strcpy name).is_negative = false)
    (hnodup : (names.map Prod.fst).Nodup)
    (hnames : ∀ p ∈ names, '/' ∉ p.1 ∧ p.1 ≠ ['.'] ∧ p.1 ≠ ['.', '.'] ∧ p.1.length ≤ maxlen)
    (hbuf : ∀ p ∈ names, (p.1.length : Int) + 1 ≤ len)
    (hcount : names.length < 2147483648) :
    publish_then_enumerate dev_open user_strcpy dev_read maxlen id names len =
      some (names.map (fun _ => retcode.num 0), (names.map Prod.fst).reverse) := by
  have hm := devfs_mount_eq (boot none) id rfl rfl
  have hreach : Reachable maxlen (mounted (boot none) id) := Reachable.mount id _ _ hm
  have hlen0 : (mounted (boot none) id).vnodes.length = 1 := rfl
  obtain ⟨w1, d1, C1, hrun, hw1, hd1, hC1, hnm1⟩ :=
    publish_each_new maxlen names (mounted (boot none) id) (root_node 1) [] [] hreach rfl rfl rfl
      hnodup
      (fun p hp => by
        obtain ⟨g1, g2, g3, g4⟩ := hnames p hp
        exact ⟨g1, g2, g3, g4, List.not_mem_nil _⟩)
      (by omega)
  rw [List.append_nil] at hnm1
  have ht1 := reachable_tree maxlen w1 hw1
  obtain ⟨f, r, hf, hr, hty, -⟩ := ht1.fs
  have hroot := devfs_root_eq w1 f hf
  rw [← hroot, hd1] at hr
  cases hr
  have hopen : devfs_open dev_open w1 (devfs_root w1) STREAM_TYPE_DIR =
      some ({ w1 with cookies := w1.cookies ++
                [some { s := devfs_root w1, oflags := 0, next := 0, prev := 0,
                        ptr := d1.stream.dir_head, dcookie := 0 }] },
            retcode.num 0, some (w1.cookies.length + 1)) := by
    simp [devfs_open, hd1, hty, kmalloc_none w1 ht1.avail]
  have hbuf1 : ∀ nm ∈ (names.map Prod.fst).reverse, (nm.length : Int) + 1 ≤ len := by
    intro nm hmem
    obtain ⟨q, hq, rfl⟩ := List.mem_map.1 (List.mem_reverse.1 hmem)
    exact hbuf q hq
  have hC1len : C1.length = names.length := by
    have := node_names_length _ _ _ hnm1
    simpa using this.symm
  obtain ⟨w3, hread, -, -⟩ :=
    read_all_chain user_strcpy dev_read hcopy (devfs_root w1) (w1.cookies.length + 1) len C1
      { w1 with cookies := w1.cookies ++
          [some { s := devfs_root w1, oflags := 0, next := 0, prev := 0,
                  ptr := d1.stream.dir_head, dcookie := 0 }] }
      { s := devfs_root w1, oflags := 0, next := 0, prev := 0,
        ptr := d1.stream.dir_head, dcookie := 0 }
      d1 _ (names.length + 1) (deref_append_new _ _) hd1 hty hC1 hnm1 hbuf1 (by omega)
  have hroot2 : devfs_root { w1 with cookies := w1.cookies ++
      [some { s := devfs_root w1, oflags := 0, next := 0, prev := 0,
              ptr := d1.stream.dir_head, dcookie := 0 }] } = devfs_root w1 := rfl
  simp only [publish_then_enumerate, hm, hrun, hopen, hroot2, hread, ne_eq, not_true_eq_false,
    if_false]

/-- C14, witness: the names "a", "b", "c" published in that order are enumerated as "c", "b",
"a". -/
theorem enumeration_reverse_order_witness :
    publish_then_enumerate demo_dev_open demo_user_strcpy demo_dev_read 512 0
      [(['a'], 7), (['b'], 8), (['c'], 9)] 256 =
      some ([retcode.num 0, retcode.num 0, retcode.num 0], [['c'], ['b'], ['a']]) :=
  enumeration_reverse_order demo_dev_open demo_user_strcpy demo_dev_read 512 0
    [(['a'], 7), (['b'], 8), (['c'], 9)] 256 (fun _ => rfl) (by decide) (by decide) (by decide)
    (by decide)

/-! ## The device instance of the rtl8139 driver -/

/-- C22: `rtl8139_dev_init` never assigns the file-level `rtl`: the device that `rtl8139_detect`
finds goes to a local variable of the same name.  In every run that returns, the file-level `rtl`
is what it was before.  From the initial driver state (`rtl` is `NULL`) in a freshly mounted
devfs, with a device detected: the call returns 0, has called `rtl8139_init` on the device and
has published "net/rtl8139/0" bound to the hooks, and `rtl` is still `NULL`; then `rtl8139_open`,
`rtl8139_read` with `len` 1500, `rtl8139_write` with `len` 0, 100 and 1500 and `rtl8139_ioctl`
all return `ERR_IO_ERROR`, and no receive or transmit routine is called.  In a driver state
whose `rtl` is set, the same calls succeed. -/
theorem dev_init_leaves_rtl_null :
    (∀ (detect : retcode × Nat) (maxlen hooks : Nat) (s : rtl8139_driver) (w : Kernel),
      (rtl8139_dev_init detect maxlen hooks s w).map (fun r => r.1.rtl) =
        (rtl8139_dev_init detect maxlen hooks s w).map (fun _ => s.rtl)) ∧
    rtl8139_dev_init (retcode.num 0, 7) 512 99 demo_rtl_absent demo_mounted =
      some (demo_rtl_inited, demo_net, retcode.num 0) ∧
    demo_rtl_inited = { rtl := 0, hw_calls := [rtl8139_call.init 7] } ∧
    resolves_to_device demo_net 99 rtl8139_path (devfs_root demo_net)
      (path_components rtl8139_path) = true ∧
    rtl8139_open demo_rtl_inited rtl8139_path = retcode.ERR_IO_ERROR ∧
    rtl8139_read demo_rtl8139_rx demo_rtl_inited 0 0 1500 =
      (demo_rtl_inited, retcode.ERR_IO_ERROR) ∧
    rtl8139_write demo_rtl_inited 0 0 0 = (demo_rtl_inited, retcode.ERR_IO_ERROR) ∧
    rtl8139_write demo_rtl_inited 0 0 100 = (demo_rtl_inited, retcode.ERR_IO_ERROR) ∧
    rtl8139_write demo_rtl_inited 0 0 1500 = (demo_rtl_inited, retcode.ERR_IO_ERROR) ∧
    rtl8139_ioctl 6 demo_rtl_inited 0 10000 6 = (retcode.ERR_IO_ERROR, false) ∧
    rtl8139_open demo_rtl_present rtl8139_path = retcode.num 0 ∧
    rtl8139_read demo_rtl8139_rx demo_rtl_present 0 0 1500 =
      ({ demo_rtl_present with hw_calls := [rtl8139_call.rx 1500] }, retcode.num 64) ∧
    rtl8139_write demo_rtl_present 0 0 100 =
      ({ demo_rtl_present with hw_calls := [rtl8139_call.xmit 100] }, retcode.num 100) ∧
    rtl8139_ioctl 6 demo_rtl_present 0 10000 6 = (retcode.num 0, true) := by
  refine ⟨?_, rfl, rfl, rfl, rfl, rfl, rfl, rfl, rfl, rfl, rfl, rfl, rfl, rfl⟩
  intro detect maxlen hooks s w
  simp only [rtl8139_dev_init]
  split
  · rfl
  · cases devfs_publish_device maxlen w "net/rtl8139/0".toList hooks with
    | none => rfl
    | some r => rfl

/-! ## The names of the children of a directory -/

theorem publish_comps_keeps (P : Kernel → Prop) (path : List Char) (calls : Nat)
    (hstep : ∀ (w : Kernel) (dir : Nat) (d : devfs_vnode) (f : devfs) (t : hash_table)
      (comp : List Char) (at_leaf : Bool), TreeInv w → P w → deref w.vnodes dir = some d →
      d.stream.type = STREAM_TYPE_DIR → deref w.fss w.thedevfs = some f →
      devfs_find_in_dir w dir comp = some 0 →
      P (link_new w dir d f t (published_node f dir d comp at_leaf path calls))) :
    ∀ (cs : List (List Char)) (w w1 : Kernel) (dir : Nat) (d : devfs_vnode) (e : retcode),
      TreeInv w → P w → deref w.vnodes dir = some d → d.stream.type = STREAM_TYPE_DIR →
      publish_comps path calls cs dir w = some (w1, e) → P w1 := by
  have hone : ∀ (w w1 : Kernel) (dir : Nat) (d : devfs_vnode) (comp : List Char)
      (at_leaf : Bool) (r : Nat ⊕ retcode), TreeInv w → P w → deref w.vnodes dir = some d →
      d.stream.type = STREAM_TYPE_DIR →
      publish_component w dir comp at_leaf path calls = some (w1, r) → P w1 := by
    intro w w1 dir d comp at_leaf r hw hp hd hdir h
    rcases publish_component_spec w w1 dir comp at_leaf path calls d r hw hd hdir h with
      ⟨v, -, -, rfl, -⟩ | ⟨hfind, -, f, t, hf, -, rfl⟩
    · exact hp
    · exact hstep w dir d f t comp at_leaf hw hp hd hdir hf hfind
  intro cs
  induction cs with
  | nil => intro w w1 dir d e _ _ _ _ h; simp [publish_comps] at h
  | cons c cs ih =>
    intro w w1 dir d e hw hp hd hdir h
    cases cs with
    | nil =>
      simp only [publish_comps] at h
      cases hc : publish_component w dir c true path calls with
      | none => simp [hc] at h
      | some res =>
        obtain ⟨w2, r⟩ := res
        have hp2 := hone w w2 dir d c true r hw hp hd hdir hc
        cases r <;> simp only [hc, Option.some.injEq, Prod.mk.injEq] at h <;>
          (obtain ⟨rfl, -⟩ := h; exact hp2)
    | cons c2 cs2 =>
      rw [publish_comps_cons_cons] at h
      cases hc : publish_component w dir c false path calls with
      | none => simp [hc] at h
      | some res =>
        obtain ⟨w2, r⟩ := res
        have hp2 := hone w w2 dir d c false r hw hp hd hdir hc
        have hinv := publish_component_inv w w2 dir c false path calls d r hw hd hdir hc
        cases r with
        | inl v =>
          simp only [hc] at h
          obtain ⟨-, -, n, hn, hty, -⟩ :=
            publish_component_inl w w2 dir c false path calls d v hw hd hdir hc
          exact ih w2 w1 v n e hinv.1 hp2 hn (hty rfl) h
        | inr err =>
          simp only [hc, Option.some.injEq, Prod.mk.injEq] at h
          obtain ⟨rfl, -⟩ := h
          exact hp2

/-- A property that holds after mount and survives the linking of a node whose name was not found
in its directory holds in every reachable state. -/
theorem reachable_keeps_new (P : Kernel → Prop) (maxlen : Nat)
    (hmount : ∀ id, P (mounted (boot none) id))
    (hstep : ∀ (w : Kernel) (dir : Nat) (d : devfs_vnode) (f : devfs) (t : hash_table)
      (comp : List Char) (at_leaf : Bool) (path : List Char) (calls : Nat),
      TreeInv w → ChainInv w → P w → deref w.vnodes dir = some d →
      d.stream.type = STREAM_TYPE_DIR → deref w.fss w.thedevfs = some f →
      devfs_find_in_dir w dir comp = some 0 →
      P (link_new w dir d f t (published_node f dir d comp at_leaf path calls)))
    (w : Kernel) (h : Reachable maxlen w) : P w := by
  induction h with
  | mount id w out hm =>
    rw [mount_boot_result id w out hm]
    exact hmount id
  | publish w w1 path calls err hr hp ih =>
    have ht := reachable_tree maxlen w hr
    have hc := reachable_chain maxlen w hr
    obtain ⟨f, r, hf, hrt, hty, -⟩ := ht.fs
    rw [publish_device_eq_comps maxlen w path calls f hf] at hp
    have hboth : ChainInv w1 ∧ P w1 := by
      refine publish_comps_keeps (fun x => ChainInv x ∧ P x) path calls ?_ _ w w1 _ r err ht
        ⟨hc, ih⟩ hrt hty hp
      intro w2 dir d f2 t comp at_leaf ht2 hp2 hd hdir hf2 hfind
      exact ⟨link_new_chain w2 dir d f2 t _ hp2.1 hd rfl (published_node_stream_head ..),
        hstep w2 dir d f2 t comp at_leaf path calls ht2 hp2.1 hp2.2 hd hdir hf2 hfind⟩
    exact hboth.2

theorem link_new_keeps_chain (w : Kernel) (dir : Nat) (d : devfs_vnode) (f : devfs)
    (t : hash_table) (node : devfs_vnode) (hd : deref w.vnodes dir = some d) (v : Nat)
    (l : List Nat) (names : List (List Char))
    (hl : is_child_chain w.vnodes v l = true) (hn : node_names w.vnodes l = some names) :
    is_child_chain (link_new w dir d f t node).vnodes v l = true ∧
    node_names (link_new w dir d f t node).vnodes l = some names := by
  have hold : ∀ a ∈ l, ∃ n n1, deref w.vnodes a = some n ∧
      deref (link_new w dir d f t node).vnodes a = some n1 ∧
      n1.name = n.name ∧ n1.dir_next = n.dir_next := by
    intro a ha
    have hl1 := hl
    rw [is_child_chain_eq] at hl1
    obtain ⟨-, u, hu⟩ := is_chain_live _ _ _ hl1 a ha
    obtain ⟨n, hn, -⟩ := dir_next_of_some hu
    obtain ⟨n1, e1, e2, e3, -⟩ := link_new_node w dir d f t node hd a n hn
    exact ⟨n, n1, hn, e1, e2, e3⟩
  refine ⟨?_, ?_⟩
  · rw [is_child_chain_eq] at hl ⊢
    refine is_chain_congr _ _ l _ ?_ hl
    intro a ha
    obtain ⟨n, n1, hn, hn1, -, hnext⟩ := hold a ha
    simp only [dir_next_of, hn, hn1, hnext, Option.map_some']
  · refine node_names_agree _ _ l names ?_ hn
    intro a ha n hn
    obtain ⟨n0, n1, hn0, hn1, hname, -⟩ := hold a ha
    rw [hn] at hn0
    cases hn0
    exact ⟨n1, hn1, hname⟩

theorem find_in_dir_loop_zero (h : List (Option devfs_vnode)) (name : List Char) :
    ∀ (l : List Nat) (v s : Nat) (names : List (List Char)),
      is_child_chain h v l = true → node_names h l = some names →
      find_in_dir_loop h name s v = some 0 → name ∉ names := by
  intro l
  induction l with
  | nil =>
    intro v s names _ hn _
    simp only [node_names, Option.some.injEq] at hn
    rw [← hn]
    exact List.not_mem_nil _
  | cons a l ih =>
    intro v s names hc hn hfind
    simp only [is_child_chain, Bool.and_eq_true, decide_eq_true_eq] at hc
    obtain ⟨⟨hva, hv0⟩, hrest⟩ := hc
    subst hva
    cases hd : deref h v with
    | none => simp [hd] at hrest
    | some n =>
      simp only [hd] at hrest
      simp only [node_names, hd] at hn
      cases hr : node_names h l with
      | none => simp [hr] at hn
      | some rest =>
        simp only [hr, Option.some.injEq] at hn
        subst hn
        cases s with
        | zero => simp [find_in_dir_loop] at hfind
        | succ s1 =>
          simp only [find_in_dir_loop, hv0, if_false, hd] at hfind
          by_cases hname : n.name = name
          · simp only [hname, if_true, Option.some.injEq] at hfind
            exact absurd hfind hv0
          · simp only [hname, if_false] at hfind
            intro hmem
            rcases List.mem_cons.1 hmem with e | e
            · exact hname e.symm
            · exact ih n.dir_next s1 rest hrest hr hfind e

/-- In every reachable state the child list of a node is a `NULL`-terminated list whose nodes
bear pairwise distinct names, none of them "." or "..". -/
theorem reachable_names (maxlen : Nat) (w : Kernel) (h : Reachable maxlen w) :
    ∀ d dn, deref w.vnodes d = some dn →
      ∃ l names, is_child_chain w.vnodes dn.stream.dir_head l = true ∧
        node_names w.vnodes l = some names ∧ names.Nodup ∧
        ['.'] ∉ names ∧ ['.', '.'] ∉ names := by
  refine reachable_keeps_new
    (fun x => ∀ d dn, deref x.vnodes d = some dn →
      ∃ l names, is_child_chain x.vnodes dn.stream.dir_head l = true ∧
        node_names x.vnodes l = some names ∧ names.Nodup ∧
        ['.'] ∉ names ∧ ['.', '.'] ∉ names) maxlen ?_ ?_ w h
  · intro id d dn hd
    obtain ⟨-, hroot⟩ := deref_singleton _ d dn hd
    cases hroot
    exact ⟨[], [], rfl, rfl, List.nodup_nil, List.not_mem_nil _, List.not_mem_nil _⟩
  · intro w dir d f t comp at_leaf path calls ht _ hP hd hdir hf hfind x xn hx
    rcases link_new_cases w dir d f t _ hd x xn hx with ⟨-, rfl⟩ | ⟨-, rfl⟩ | ⟨-, hold⟩
    · refine ⟨[], [], ?_, rfl, List.nodup_nil, List.not_mem_nil _, List.not_mem_nil _⟩
      rw [published_node_stream_head]
      rfl
    · obtain ⟨l, names, hl, hn, hnd, h1, h2⟩ := hP dir d hd
      obtain ⟨hl1, hn1⟩ := link_new_keeps_chain w dir d f t
        (published_node f dir d comp at_leaf path calls) hd _ l names hl hn
      have hdir0 := (deref_some_bound hd).1
      obtain ⟨dd, hdd, -⟩ := ht.parent dir d hd
      have hpar0 := (deref_some_bound hdd).1
      have hc1 : comp ≠ ['.'] := by
        intro e
        simp only [devfs_find_in_dir, hd, hdir, ne_eq, not_true_eq_false, if_false, e, if_true,
          Option.some.injEq] at hfind
        omega
      have hc2 : comp ≠ ['.', '.'] := by
        intro e
        simp [devfs_find_in_dir, hd, hdir, e] at hfind
        omega
      have hc3 : comp ∉ names := by
        rw [find_in_dir_eq_loop w dir d comp hd hdir hc1 hc2] at hfind
        exact find_in_dir_loop_zero _ comp l _ _ names hl hn hfind
      refine ⟨(w.vnodes.length + 1) :: l, comp :: names, ?_, ?_, List.nodup_cons.2 ⟨hc3, hnd⟩,
        ?_, ?_⟩
      · simp only [is_child_chain, decide_True, Bool.true_and, ne_eq, Nat.add_one_ne_zero,
          not_false_eq_true, link_new_deref_new w dir d f t _ hd]
        exact hl1
      · simp only [node_names, link_new_deref_new w dir d f t _ hd, hn1]
        rfl
      · intro hmem
        rcases List.mem_cons.1 hmem with e | e
        · exact hc1 e.symm
        · exact h1 e
      · intro hmem
        rcases List.mem_cons.1 hmem with e | e
        · exact hc2 e.symm
        · exact h2 e
    · obtain ⟨l, names, hl, hn, hnd, h1, h2⟩ := hP x xn hold
      obtain ⟨hl1, hn1⟩ := link_new_keeps_chain w dir d f t
        (published_node f dir d comp at_leaf path calls) hd _ l names hl hn
      exact ⟨l, names, hl1, hn1, hnd, h1, h2⟩

theorem child_list_of_chain (h : List (Option devfs_vnode)) :
    ∀ (l : List Nat) (v s : Nat), is_child_chain h v l = true → l.length < s →
      child_list_from h s v = l := by
  intro l
  induction l with
  | nil =>
    intro v s hc hlen
    obtain ⟨s1, rfl⟩ : ∃ s1, s = s1 + 1 := ⟨s - 1, by simp at hlen; omega⟩
    have hv : v = 0 := by simpa [is_child_chain] using hc
    simp [child_list_from, hv]
  | cons a l ih =>
    intro v s hc hlen
    obtain ⟨s1, rfl⟩ : ∃ s1, s = s1 + 1 := ⟨s - 1, by simp at hlen; omega⟩
    simp only [List.length_cons, Nat.add_lt_add_iff_right] at hlen
    simp only [is_child_chain, Bool.and_eq_true, decide_eq_true_eq] at hc
    obtain ⟨⟨hva, hv0⟩, hrest⟩ := hc
    subst hva
    cases hd : deref h v with
    | none => simp [hd] at hrest
    | some n =>
      simp only [hd] at hrest
      simp only [child_list_from, hv0, if_false, hd, ih n.dir_next s1 hrest hlen]

theorem dir_children_of_chain (w : Kernel) (d : Nat) (dn : devfs_vnode) (l : List Nat)
    (hd : deref w.vnodes d = some dn)
    (hl : is_child_chain w.vnodes dn.stream.dir_head l = true) : dir_children w d = l := by
  have hlen := child_chain_length _ _ _ hl
  simp only [dir_children, hd]
  exact child_list_of_chain _ l _ _ hl (by omega)

theorem find_in_dir_loop_mem (h : List (Option devfs_vnode)) (name : List Char) :
    ∀ (l : List Nat) (v0 s v : Nat), is_child_chain h v0 l = true →
      find_in_dir_loop h name s v0 = some v → v ≠ 0 → v ∈ l := by
  intro l
  induction l with
  | nil =>
    intro v0 s v hc hfind hv
    have hv0 : v0 = 0 := by simpa [is_child_chain] using hc
    cases s with
    | zero => simp [find_in_dir_loop] at hfind
    | succ s1 =>
      simp only [find_in_dir_loop, hv0, if_true, Option.some.injEq] at hfind
      exact absurd hfind.symm hv
  | cons a l ih =>
    intro v0 s v hc hfind hv
    simp only [is_child_chain, Bool.and_eq_true, decide_eq_true_eq] at hc
    obtain ⟨⟨hva, hv0⟩, hrest⟩ := hc
    subst hva
    cases hd : deref h v0 with
    | none => simp [hd] at hrest
    | some n =>
      simp only [hd] at hrest
      cases s with
      | zero => simp [find_in_dir_loop] at hfind
      | succ s1 =>
        simp only [find_in_dir_loop, hv0, if_false, hd] at hfind
        by_cases hname : n.name = name
        · simp only [hname, if_true, Option.some.injEq] at hfind
          rw [← hfind]
          exact List.mem_cons_self _ _
        · simp only [hname, if_false] at hfind
          exact List.mem_cons_of_mem _ (ih n.dir_next s1 v hrest hfind hv)

theorem node_names_mem (h : List (Option devfs_vnode)) :
    ∀ (l : List Nat) (names : List (List Char)), node_names h l = some names →
      ∀ a ∈ l, ∀ n, deref h a = some n → n.name ∈ names := by
  intro l
  induction l with
  | nil => intro names _ a ha; simp at ha
  | cons x l ih =>
    intro names hn a ha n hna
    cases hd : deref h x with
    | none => simp [node_names, hd] at hn
    | some nx =>
      cases hr : node_names h l with
      | none => simp [node_names, hd, hr] at hn
      | some rest =>
        simp only [node_names, hd, hr, Option.some.injEq] at hn
        subst hn
        rcases List.mem_cons.1 ha with e | e
        · subst e
          rw [hd] at hna
          cases hna
          exact List.mem_cons_self _ _
        · exact List.mem_cons_of_mem _ (ih rest hr a e n hna)

theorem node_names_inj (h : List (Option devfs_vnode)) :
    ∀ (l : List Nat) (names : List (List Char)), node_names h l = some names → names.Nodup →
      ∀ a ∈ l, ∀ b ∈ l, ∀ na nb, deref h a = some na → deref h b = some nb →
        na.name = nb.name → a = b := by
  intro l
  induction l with
  | nil => intro names _ _ a ha; simp at ha
  | cons x l ih =>
    intro names hn hnd a ha b hb na nb hna hnb hname
    cases hd : deref h x with
    | none => simp [node_names, hd] at hn
    | some nx =>
      cases hr : node_names h l with
      | none => simp [node_names, hd, hr] at hn
      | some rest =>
        simp only [node_names, hd, hr, Option.some.injEq] at hn
        subst hn
        obtain ⟨hx, hrest⟩ := List.nodup_cons.1 hnd
        rcases List.mem_cons.1 ha with ea | ea <;> rcases List.mem_cons.1 hb with eb | eb
        · rw [ea, eb]
        · subst ea
          rw [hd] at hna
          cases hna
          exact absurd (hname ▸ node_names_mem h l rest hr b eb nb hnb) hx
        · subst eb
          rw [hd] at hnb
          cases hnb
          exact absurd (hname ▸ node_names_mem h l rest hr a ea na hna) hx
        · exact ih rest hr hrest a ea b eb na nb hna hnb hname

/-- A publish whose leading components name existing directories goes on below the last of them,
in the same state. -/
theorem publish_comps_walk (path : List Char) (calls : Nat) (w : Kernel)
    (rest : List (List Char)) (hrest : rest ≠ []) :
    ∀ (pre : List (List Char)) (dir d : Nat), walk_dirs w dir pre = some d →
      publish_comps path calls (pre ++ rest) dir w = publish_comps path calls rest d w := by
  intro pre
  induction pre with
  | nil =>
    intro dir d hwalk
    simp only [walk_dirs, Option.some.injEq] at hwalk
    rw [hwalk, List.nil_append]
  | cons c pre ih =>
    intro dir d hwalk
    simp only [walk_dirs] at hwalk
    cases hfind : devfs_find_in_dir w dir c with
    | none => simp [hfind] at hwalk
    | some v =>
      simp only [hfind] at hwalk
      by_cases hv : v = 0
      · simp [hv] at hwalk
      · simp only [hv, if_false] at hwalk
        cases hn : deref w.vnodes v with
        | none => simp [hn] at hwalk
        | some n =>
          simp only [hn] at hwalk
          by_cases hty : n.stream.type = STREAM_TYPE_DIR
          · simp only [hty, if_true] at hwalk
            obtain ⟨c2, cs2, hsplit⟩ : ∃ c2 cs2, pre ++ rest = c2 :: cs2 := by
              cases hpr : pre ++ rest with
              | nil =>
                have := List.append_eq_nil.1 hpr
                exact absurd this.2 hrest
              | cons c2 cs2 => exact ⟨c2, cs2, rfl⟩
            rw [List.cons_append, hsplit, publish_comps_cons_cons,
              publish_component_found_dir w dir c path calls v n hfind hn hty]
            simp only
            rw [← hsplit]
            exact ih v d hwalk
          · simp [hty] at hwalk

theorem walk_dirs_is_dir (w : Kernel) :
    ∀ (pre : List (List Char)) (dir d : Nat) (dn : devfs_vnode),
      deref w.vnodes dir = some dn → dn.stream.type = STREAM_TYPE_DIR →
      walk_dirs w dir pre = some d →
      ∃ n, deref w.vnodes d = some n ∧ n.stream.type = STREAM_TYPE_DIR := by
  intro pre
  induction pre with
  | nil =>
    intro dir d dn hd hty hwalk
    simp only [walk_dirs, Option.some.injEq] at hwalk
    subst hwalk
    exact ⟨dn, hd, hty⟩
  | cons c pre ih =>
    intro dir d dn hd hty hwalk
    simp only [walk_dirs] at hwalk
    cases hfind : devfs_find_in_dir w dir c with
    | none => simp [hfind] at hwalk
    | some v =>
      simp only [hfind] at hwalk
      by_cases hv : v = 0
      · simp [hv] at hwalk
      · simp only [hv, if_false] at hwalk
        cases hn : deref w.vnodes v with
        | none => simp [hn] at hwalk
        | some n =>
          simp only [hn] at hwalk
          by_cases hty1 : n.stream.type = STREAM_TYPE_DIR
          · simp only [hty1, if_true] at hwalk
            exact ih v d n hn hty1 hwalk
          · simp [hty1] at hwalk

theorem walk_dirs_extends (w w1 : Kernel) (hex : Extends w w1) :
    ∀ (pre : List (List Char)) (dir d : Nat), walk_dirs w dir pre = some d →
      walk_dirs w1 dir pre = some d := by
  intro pre
  induction pre with
  | nil => intro dir d hwalk; exact hwalk
  | cons c pre ih =>
    intro dir d hwalk
    simp only [walk_dirs] at hwalk ⊢
    cases hfind : devfs_find_in_dir w dir c with
    | none => simp [hfind] at hwalk
    | some v =>
      simp only [hfind] at hwalk
      by_cases hv : v = 0
      · simp [hv] at hwalk
      · simp only [hv, if_false] at hwalk
        cases hn : deref w.vnodes v with
        | none => simp [hn] at hwalk
        | some n =>
          simp only [hn] at hwalk
          by_cases hty : n.stream.type = STREAM_TYPE_DIR
          · simp only [hty, if_true] at hwalk
            obtain ⟨n1, hn1, -, -, -, -, hty1, -⟩ := hex.node v n hn
            simp only [hex.find dir c v hfind hv, hv, if_false, hn1, hty1, hty, if_true]
            exact ih v d hwalk
          · simp [hty] at hwalk

/-- A run of the publish loop creates at most one node per component. -/
theorem publish_comps_count (path : List Char) (calls : Nat) :
    ∀ (cs : List (List Char)) (w w1 : Kernel) (dir : Nat) (d : devfs_vnode) (e : retcode),
      TreeInv w → deref w.vnodes dir = some d → d.stream.type = STREAM_TYPE_DIR →
      publish_comps path calls cs dir w = some (w1, e) →
      w1.vnodes.length ≤ w.vnodes.length + cs.length := by
  have hone : ∀ (w w1 : Kernel) (dir : Nat) (d : devfs_vnode) (comp : List Char)
      (at_leaf : Bool) (r : Nat ⊕ retcode), TreeInv w → deref w.vnodes dir = some d →
      d.stream.type = STREAM_TYPE_DIR →
      publish_component w dir comp at_leaf path calls = some (w1, r) →
      w1.vnodes.length ≤ w.vnodes.length + 1 := by
    intro w w1 dir d comp at_leaf r hw hd hdir h
    rcases publish_component_spec w w1 dir comp at_leaf path calls d r hw hd hdir h with
      ⟨v, -, -, rfl, -⟩ | ⟨-, -, f, t, -, -, rfl⟩
    · exact Nat.le_succ _
    · rw [link_new_length]
  intro cs
  induction cs with
  | nil => intro w w1 dir d e _ _ _ h; simp [publish_comps] at h
  | cons c cs ih =>
    intro w w1 dir d e hw hd hdir h
    cases cs with
    | nil =>
      simp only [publish_comps] at h
      cases hc : publish_component w dir c true path calls with
      | none => simp [hc] at h
      | some res =>
        obtain ⟨w2, r⟩ := res
        have hp2 := hone w w2 dir d c true r hw hd hdir hc
        cases r <;> simp only [hc, Option.some.injEq, Prod.mk.injEq] at h <;>
          (obtain ⟨rfl, -⟩ := h; simpa using hp2)
    | cons c2 cs2 =>
      rw [publish_comps_cons_cons] at h
      cases hc : publish_component w dir c false path calls with
      | none => simp [hc] at h
      | some res =>
        obtain ⟨w2, r⟩ := res
        have hp2 := hone w w2 dir d c false r hw hd hdir hc
        have hinv := publish_component_inv w w2 dir c false path calls d r hw hd hdir hc
        cases r with
        | inl v =>
          simp only [hc] at h
          obtain ⟨-, -, n, hn, hty, -⟩ :=
            publish_component_inl w w2 dir c false path calls d v hw hd hdir hc
          have := ih w2 w1 v n e hinv.1 hn (hty rfl) h
          simp only [List.length_cons] at this ⊢
          omega
        | inr err =>
          simp only [hc, Option.some.injEq, Prod.mk.injEq] at h
          obtain ⟨rfl, -⟩ := h
          simp only [List.length_cons]
          omega

/-- C21: in every state reached from mount by publishes (whatever they returned): the children
of every node bear pairwise distinct names, none of them "." or ".." (a device has no children);
when `devfs_find_in_dir(d, name)` finds a node in the child list, that node is in the list and is
the only child of `d` with that name; and a publish whose leading components name existing
directories leaves those components naming the same directories and creates at most one node for
each of the remaining components. -/
theorem child_names_distinct (maxlen : Nat) (w : Kernel) (hw : Reachable maxlen w) :
    (∀ d dn, deref w.vnodes d = some dn →
      ∃ names, node_names w.vnodes (dir_children w d) = some names ∧ names.Nodup ∧
        ['.'] ∉ names ∧ ['.', '.'] ∉ names) ∧
    (∀ d name v, devfs_find_in_dir w d name = some v → v ≠ 0 → name ≠ ['.'] →
      name ≠ ['.', '.'] →
      v ∈ dir_children w d ∧
      ∀ c ∈ dir_children w d, ∀ n, deref w.vnodes c = some n → n.name = name → c = v) ∧
    (∀ path calls pre rest d w1 e, path_components (List.take maxlen path) = pre ++ rest →
      rest ≠ [] → walk_dirs w (devfs_root w) pre = some d →
      devfs_publish_device maxlen w path calls = some (w1, e) →
      walk_dirs w1 (devfs_root w1) pre = some d ∧
      w1.vnodes.length ≤ w.vnodes.length + rest.length) := by
  have ht := reachable_tree maxlen w hw
  refine ⟨?_, ?_, ?_⟩
  · intro d dn hd
    obtain ⟨l, names, hl, hn, hnd, h1, h2⟩ := reachable_names maxlen w hw d dn hd
    rw [dir_children_of_chain w d dn l hd hl]
    exact ⟨names, hn, hnd, h1, h2⟩
  · intro d name v hfind hv h1 h2
    obtain ⟨-, dn, hd, hdir⟩ := find_in_dir_live w ht d name v hfind hv
    rw [find_in_dir_eq_loop w d dn name hd hdir h1 h2] at hfind
    obtain ⟨l, names, hl, hn, hnd, -, -⟩ := reachable_names maxlen w hw d dn hd
    rw [dir_children_of_chain w d dn l hd hl]
    have hmem := find_in_dir_loop_mem _ name l _ _ v hl hfind hv
    obtain ⟨nv, hnv, hname⟩ := find_in_dir_loop_live _ name _ _ v hfind hv
    exact ⟨hmem, fun c hc n hcn hcname =>
      node_names_inj _ l names hn hnd c hc v hmem n nv hcn hnv (hcname.trans hname.symm)⟩
  · intro path calls pre rest d w1 e hsplit hrest hwalk hpub
    obtain ⟨f, r, hf, hr, hty, -⟩ := ht.fs
    have hroot := devfs_root_eq w f hf
    obtain ⟨-, hex⟩ := publish_device_inv maxlen w w1 path calls e ht hpub
    rw [extends_root w w1 ht hex]
    refine ⟨walk_dirs_extends w w1 hex pre _ d hwalk, ?_⟩
    rw [hroot] at hwalk
    rw [publish_device_eq_comps maxlen w path calls f hf, hsplit,
      publish_comps_walk path calls w rest hrest pre _ d hwalk] at hpub
    obtain ⟨n, hn, hnty⟩ := walk_dirs_is_dir w pre f.root_vnode d r hr hty hwalk
    exact publish_comps_count path calls rest w w1 d n e ht hn hnty hpub

/-- C21, witness: after `publish("net/rtl8139/0", 99)`, the call `publish("net/rtl8139/1", 98)`
finds the directories "net" and "rtl8139" (nodes 2 and 3) and creates the one node "1" below
"rtl8139", whose children are then "1" and "0"; the root still has the one child "net". -/
theorem child_names_distinct_witness :
    Reachable 512 demo_net ∧
    devfs_publish_device 512 demo_net "net/rtl8139/1".toList 98 =
      some (demo_net1, retcode.num 0) ∧
    walk_dirs demo_net (devfs_root demo_net) ["net".toList, "rtl8139".toList] = some 3 ∧
    demo_net.vnodes.length = 4 ∧ demo_net1.vnodes.length = 5 ∧
    node_names demo_net1.vnodes (dir_children demo_net1 1) = some ["net".toList] ∧
    node_names demo_net1.vnodes (dir_children demo_net1 2) = some ["rtl8139".toList] ∧
    node_names demo_net1.vnodes (dir_children demo_net1 3) = some [['1'], ['0']] ∧
    (walk_dirs demo_net1 (devfs_root demo_net1) ["net".toList, "rtl8139".toList] = some 3 ∧
      demo_net1.vnodes.length ≤ demo_net.vnodes.length + [['1']].length) ∧
    (∃ names, node_names demo_net.vnodes (dir_children demo_net 3) = some names ∧
      names.Nodup ∧ ['.'] ∉ names ∧ ['.', '.'] ∉ names) ∧
    (3 ∈ dir_children demo_net 2 ∧
      ∀ c ∈ dir_children demo_net 2, ∀ n, deref demo_net.vnodes c = some n →
        n.name = "rtl8139".toList → c = 3) :=
  ⟨demo_net_reachable, rfl, rfl, rfl, rfl, rfl, rfl, rfl,
    (child_names_distinct 512 demo_net demo_net_reachable).2.2 "net/rtl8139/1".toList 98
      ["net".toList, "rtl8139".toList] [['1']] 3 demo_net1 (retcode.num 0) rfl (by decide) rfl
      rfl,
    (child_names_distinct 512 demo_net demo_net_reachable).1 3 _ rfl,
    (child_names_distinct 512 demo_net demo_net_reachable).2.1 2 "rtl8139".toList 3 rfl
      (by decide) (by decide) (by decide)⟩

end NewOS
